import Mathlib

/-!
# imgsort: timestamp parsing, resolution, ordering and rename planning

A shallow embedding of `src/imgsort.cpp`.

* `std::string` is a `String`, read as its list of characters.
* C++ exceptions (`std::stoi`) are `none` in `Option`.
* The calls into the C and C++ standard libraries (`std::regex_match`, `std::stoi`, `timegm`,
  `std::getline`, `std::sort`, the stream manipulators) are embedded from the behaviour of the
  GNU implementations (glibc `mktime.c`, libstdc++ `bits/stl_algo.h`, `bits/stl_heap.h`).
-/

namespace Imgsort

/-! ## The regular expression of `parse_iso8601_to_millis` -/

/-- Single-character matchers occurring in the pattern. -/
inductive Atom where
  /-- The class `\d`. -/
  | digit : Atom
  /-- A literal character. -/
  | lit : Char → Atom
  /-- A bracket expression such as `[+-]`. -/
  | oneOf : List Char → Atom

/-- Whether an atom accepts a character (`\d` is `[0-9]` in the "C" locale). -/
def Atom.test : Atom → Char → Bool
  | .digit, c => c.isDigit
  | .lit x, c => c == x
  | .oneOf cs, c => cs.contains c

/-- The fragment of the ECMAScript grammar used by the pattern. -/
inductive Rx where
  /-- The empty pattern. -/
  | eps : Rx
  /-- One character. -/
  | atom : Atom → Rx
  /-- Bounded repetition `a{n}`. -/
  | rep : Nat → Atom → Rx
  /-- Greedy repetition `a*`. -/
  | star : Atom → Rx
  /-- Concatenation. -/
  | seq : Rx → Rx → Rx
  /-- Greedy option `r?`. -/
  | opt : Rx → Rx
  /-- Capturing group number `i`. -/
  | group : Nat → Rx → Rx

/-- Concatenation of a list of patterns. -/
def Rx.cat : List Rx → Rx
  | [] => .eps
  | [r] => r
  | r :: rs => .seq r (Rx.cat rs)

/-- Sub-match table of a `std::smatch`: `none` is an unmatched group. -/
abbrev Caps := Nat → Option (List Char)

/-- Record the text captured by group `i`. -/
def Caps.put (caps : Caps) (i : Nat) (v : List Char) : Caps :=
  fun j => if j = i then some v else caps j

/-- Match `a{n}` and continue with `k` on the rest. -/
def repRun (a : Atom) (k : List Char → Option Caps) : Nat → List Char → Option Caps
  | 0, s => k s
  | _ + 1, [] => none
  | n + 1, c :: s => if a.test c then repRun a k n s else none

/-- Match `a*` greedily: take as many characters as possible, give back one at a time while the
continuation `k` fails. -/
def starRun (a : Atom) (k : List Char → Option Caps) : List Char → Option Caps
  | [] => k []
  | c :: s =>
    if a.test c then
      match starRun a k s with
      | some r => some r
      | none => k (c :: s)
    else k (c :: s)

/-- Backtracking matcher: match `r` at the front of the input and pass the rest of the input and
the captures to the continuation `k`; the first success in priority order wins. -/
def Rx.run : Rx → List Char → Caps → (List Char → Caps → Option Caps) → Option Caps
  | .eps, s, caps, k => k s caps
  | .atom _, [], _, _ => none
  | .atom a, c :: s, caps, k => if a.test c then k s caps else none
  | .rep n a, s, caps, k => repRun a (fun t => k t caps) n s
  | .star a, s, caps, k => starRun a (fun t => k t caps) s
  | .seq r₁ r₂, s, caps, k => Rx.run r₁ s caps (fun t caps₁ => Rx.run r₂ t caps₁ k)
  | .opt r, s, caps, k =>
    match Rx.run r s caps k with
    | some res => some res
    | none => k s caps
  | .group i r, s, caps, k =>
    Rx.run r s caps (fun t caps₁ => k t (caps₁.put i (s.take (s.length - t.length))))

/-- Model of `std::regex_match`: the whole input has to be consumed. -/
def regex_match (r : Rx) (s : List Char) : Option Caps :=
  r.run s (fun _ => none) (fun t caps => if t.isEmpty then some caps else none)

/-- The part `(?:\.(\d*))?` of the pattern. -/
def optFrac : Rx := .opt (.seq (.atom (.lit '.')) (.group 7 (.star .digit)))

/-- The part `([+-]\d{2})?` of the pattern. -/
def optHour : Rx := .opt (.group 8 (.seq (.atom (.oneOf ['+', '-'])) (.rep 2 .digit)))

/-- The part `(\d{2})?` of the pattern. -/
def optMinute : Rx := .opt (.group 9 (.rep 2 .digit))

/-- The pattern
`(\d{4})-(\d{2})-(\d{2})T(\d{2}):(\d{2}):(\d{2})(?:\.(\d*))?([+-]\d{2})?(\d{2})?`. -/
def re : Rx :=
  Rx.cat [
    .group 1 (.rep 4 .digit), .atom (.lit '-'),
    .group 2 (.rep 2 .digit), .atom (.lit '-'),
    .group 3 (.rep 2 .digit), .atom (.lit 'T'),
    .group 4 (.rep 2 .digit), .atom (.lit ':'),
    .group 5 (.rep 2 .digit), .atom (.lit ':'),
    .group 6 (.rep 2 .digit),
    optFrac, optHour, optMinute]

/-! ## `std::stoi` -/

/-- The characters `isspace` accepts in the "C" locale. -/
def isSpace (c : Char) : Bool :=
  c == ' ' || c == '\t' || c == '\n' || c.toNat == 11 || c.toNat == 12 || c == '\r'

/-- Value of a decimal digit string, most significant digit first. -/
def digitsVal (ds : List Char) : Nat :=
  ds.foldl (fun acc c => 10 * acc + (c.toNat - 48)) 0

/-- Model of `std::stoi(str)` (base 10): leading white space is skipped, a sign is optional, the
longest run of digits is converted; `none` stands for `std::invalid_argument` (no digits) and
`std::out_of_range` (the value does not fit `int`). -/
def stoi (str : List Char) : Option Int :=
  let s := str.dropWhile isSpace
  let neg := s.head? == some '-'
  let s := if s.head? == some '-' || s.head? == some '+' then s.tail else s
  let ds := s.takeWhile Char.isDigit
  if ds.isEmpty then none
  else
    let v : Int := if neg then -(digitsVal ds : Int) else (digitsVal ds : Int)
    if v < -2147483648 ∨ 2147483647 < v then none else some v

/-! ## `timegm` (glibc `time/mktime.c`) -/

/-- The broken-down time fields that `parse_iso8601_to_millis` fills in. -/
structure tm where
  tm_sec : Int
  tm_min : Int
  tm_hour : Int
  tm_mday : Int
  tm_mon : Int
  tm_year : Int

/-- glibc `leapyear`: the argument counts years from 1900. -/
def leapyear (year : Int) : Bool :=
  year % 4 == 0 && (year.tmod 100 != 0 || (year.tdiv 100) % 4 == 1)

/-- glibc `__mon_yday`: days before each month, for normal and for leap years. -/
def mon_yday (leap : Bool) (m : Nat) : Int :=
  if leap then [0, 31, 60, 91, 121, 152, 182, 213, 244, 274, 305, 335, 366].getD m 0
  else [0, 31, 59, 90, 120, 151, 181, 212, 243, 273, 304, 334, 365].getD m 0

/-- glibc `ydhms_diff`: seconds from `year0`-`yday0` `hour0:min0:sec0` to
`year1`-`yday1` `hour1:min1:sec1`; years count from 1900. -/
def ydhms_diff (year1 yday1 hour1 min1 sec1 year0 yday0 hour0 min0 sec0 : Int) : Int :=
  let a4 := year1 / 4 + 1900 / 4 - (if year1 % 4 = 0 then 1 else 0)
  let b4 := year0 / 4 + 1900 / 4 - (if year0 % 4 = 0 then 1 else 0)
  let a100 := (a4 + (if a4 < 0 then 1 else 0)).tdiv 25 - (if a4 < 0 then 1 else 0)
  let b100 := (b4 + (if b4 < 0 then 1 else 0)).tdiv 25 - (if b4 < 0 then 1 else 0)
  let a400 := a100 / 4
  let b400 := b100 / 4
  let intervening_leap_days := (a4 - b4) - (a100 - b100) + (a400 - b400)
  let years := year1 - year0
  let days := 365 * years + yday1 - yday0 + intervening_leap_days
  let hours := 24 * days + hour1 - hour0
  let minutes := 60 * hours + min1 - min0
  60 * minutes + sec1 - sec0

/-- Model of `timegm` (glibc `__mktime_internal` with the UTC conversion): the month is brought
into range by carrying into the year, the other fields are taken as they are. -/
def timegm (t : tm) : Int :=
  let mon_remainder := t.tm_mon.tmod 12
  let negative_mon_remainder : Int := if mon_remainder < 0 then 1 else 0
  let mon_years := t.tm_mon.tdiv 12 - negative_mon_remainder
  let year := t.tm_year + mon_years
  let yday := mon_yday (leapyear year) (mon_remainder + 12 * negative_mon_remainder).toNat - 1
    + t.tm_mday
  ydhms_diff year yday t.tm_hour t.tm_min t.tm_sec (1970 - 1900) 0 0 0 0

/-! ## `parse_iso8601_to_millis` -/

/-- The loop `while (frac.size() < 3) frac += '0';`. -/
def padFrac (frac : List Char) : List Char :=
  if frac.length < 3 then frac ++ List.replicate (3 - frac.length) '0' else frac

/-- The milliseconds from the fractional group `match[7]` (imgsort.cpp:50-57). -/
def millis_of (m7 : Option (List Char)) : Option Int :=
  match m7 with
  | some frac => if frac.isEmpty then some 0 else stoi ((padFrac frac).take 3)
  | none => some 0

/-- The offset in seconds from the groups `match[8]` and `match[9]` (imgsort.cpp:59-64). -/
def tz_offset_sec_of (m8 m9 : Option (List Char)) : Option Int :=
  match m8, m9 with
  | some g8, some g9 => do
    let tz_hour ← stoi g8
    let tz_min ← stoi g9
    some (tz_hour * 3600 + (if tz_hour ≥ 0 then tz_min * 60 else -tz_min * 60))
  | _, _ => some 0

/-- The body of `parse_iso8601_to_millis` after a successful match. -/
def parse_matched (m : Caps) : Option Int := do
  let year ← stoi ((m 1).getD [])
  let month ← stoi ((m 2).getD [])
  let day ← stoi ((m 3).getD [])
  let hour ← stoi ((m 4).getD [])
  let min ← stoi ((m 5).getD [])
  let sec ← stoi ((m 6).getD [])
  let millis ← millis_of (m 7)
  let tz_offset_sec ← tz_offset_sec_of (m 8) (m 9)
  let t : tm :=
    { tm_year := year - 1900, tm_mon := month - 1, tm_mday := day,
      tm_hour := hour, tm_min := min, tm_sec := sec }
  let epoch := timegm t - tz_offset_sec
  some (epoch * 1000 + millis)

/-- Model of `parse_iso8601_to_millis` (imgsort.cpp:32-76); `none` is an exception leaving the
function. -/
def parse_iso8601_to_millis (dt : String) : Option Int :=
  match regex_match re dt.toList with
  | none => some 0
  | some m => parse_matched m

/-! ## `get_file_timestamp` and the per-file step of `main` -/

/-- The lines that successive calls of `std::getline` extract from a stream holding `s`: a line
ends at a newline (which is dropped) or at the end of the input, and extraction fails once
nothing is left. -/
def getlines : List Char → List (List Char)
  | [] => []
  | c :: s =>
    if c = '\n' then [] :: getlines s
    else
      match getlines s with
      | [] => [[c]]
      | l :: ls => (c :: l) :: ls

/-- The loop `while (std::getline(ss, line))` of `get_file_timestamp` (imgsort.cpp:95-101), run
over the successive lines, with the `return 0` that follows it. -/
def line_loop : List (List Char) → Option Int
  | [] => some 0
  | line :: rest =>
    if line.isEmpty then line_loop rest
    else
      match parse_iso8601_to_millis (String.mk line) with
      | none => none
      | some ts => if ts > 0 then some ts else line_loop rest

/-- Model of `get_file_timestamp` (imgsort.cpp:79-102) as a function of `output`, the text that
`run_command` returned for the file. -/
def get_file_timestamp (output : String) : Option Int :=
  if output.isEmpty then some 0 else line_loop (getlines output.toList)

/-- A media record (imgsort.cpp:14-17). -/
structure media where
  path : String
  timestamp_ms : Int
deriving DecidableEq, Repr

/-- The body of the scanning loop of `main` for one media file (imgsort.cpp:148-155): `output` is
what the metadata command printed, `last_write_time` the count of
`fs::last_write_time(path).time_since_epoch()`. -/
def scan_entry (path : String) (output : String) (last_write_time : Int) : Option media := do
  let ts_ms ← get_file_timestamp output
  let ts_ms := if ts_ms == 0 then last_write_time.tdiv 1000000 else ts_ms
  some { path := path, timestamp_ms := ts_ms }

/-! ## The sequence string of `main` -/

/-- Model of `std::to_string(int)`. -/
def to_string (v : Int) : List Char :=
  if v < 0 then '-' :: Nat.toDigits 10 v.natAbs else Nat.toDigits 10 v.natAbs

/-- The conversion `static_cast<int>(items.size())`: reduction modulo `2^32` into the range of
a 32-bit `int`. -/
def total_files (size : Nat) : Int :=
  ((size : Int) + 2147483648) % 4294967296 - 2147483648

/-- The field width `std::max(3, static_cast<int>(std::to_string(total_files).length()))`. -/
def width (size : Nat) : Int :=
  max 3 ((to_string (total_files size)).length : Int)

/-- The text produced by `ss << std::setw(width) << std::setfill('0') << counter`: the decimal
text of `counter`, filled on the left up to `width` characters and never cut. -/
def num_str (width : Int) (counter : Int) : List Char :=
  let s := to_string counter
  List.replicate (width.toNat - s.length) '0' ++ s

/-! ## `std::sort` (libstdc++ `bits/stl_algo.h`, `bits/stl_heap.h`)

A range `[first, last)` of the vector is a list, an iterator is an index into it. Reading or
writing a position outside the range gives `none`. Moves are copies. -/

section StdSort

variable {α : Type}

/-- Checked write `*(first + i) = x`. -/
def store (v : List α) (i : Nat) (x : α) : Option (List α) :=
  if i < v.length then some (v.set i x) else none

/-- Model of `std::iter_swap(first + i, first + j)`. -/
def iter_swap (v : List α) (i j : Nat) : Option (List α) := do
  let x ← v[i]?
  let y ← v[j]?
  let v ← store v i y
  store v j x

/-- Model of `__move_median_to_first(result, a, b, c, comp)`. -/
def move_median_to_first (comp : α → α → Bool) (v : List α) (result a b c : Nat) :
    Option (List α) := do
  let xa ← v[a]?
  let xb ← v[b]?
  let xc ← v[c]?
  if comp xa xb then
    if comp xb xc then iter_swap v result b
    else if comp xa xc then iter_swap v result c
    else iter_swap v result a
  else if comp xa xc then iter_swap v result a
  else if comp xb xc then iter_swap v result c
  else iter_swap v result b

/-- The loop `while (comp(first, pivot)) ++first;` of `__unguarded_partition`; the first argument
bounds the number of steps. -/
def scan_up (comp : α → α → Bool) (v : List α) (pivot : Nat) : Nat → Nat → Option Nat
  | 0, _ => none
  | fuel + 1, first => do
    let x ← v[first]?
    let p ← v[pivot]?
    if comp x p then scan_up comp v pivot fuel (first + 1) else some first

/-- The loop `while (comp(pivot, last)) --last;` of `__unguarded_partition`. -/
def scan_down (comp : α → α → Bool) (v : List α) (pivot : Nat) : Nat → Option Nat
  | 0 => do
    let x ← v[0]?
    let p ← v[pivot]?
    if comp p x then none else some 0
  | last + 1 => do
    let x ← v[last + 1]?
    let p ← v[pivot]?
    if comp p x then scan_down comp v pivot last else some (last + 1)

/-- Model of `__unguarded_partition(first, last, pivot, comp)`: the cut position and the
rearranged range; the first argument bounds the number of rounds. -/
def unguarded_partition (comp : α → α → Bool) (pivot : Nat) :
    Nat → List α → Nat → Nat → Option (Nat × List α)
  | 0, _, _, _ => none
  | fuel + 1, v, first, last => do
    let first ← scan_up comp v pivot (v.length + 1) first
    if last = 0 then none
    else
      let last ← scan_down comp v pivot (last - 1)
      if ¬ first < last then some (first, v)
      else
        let v ← iter_swap v first last
        unguarded_partition comp pivot fuel v (first + 1) last

/-- Model of `__unguarded_partition_pivot(first, last, comp)` on the range `v`. -/
def unguarded_partition_pivot (comp : α → α → Bool) (v : List α) : Option (Nat × List α) := do
  let mid := v.length / 2
  let v ← move_median_to_first comp v 0 1 mid (v.length - 1)
  unguarded_partition comp 0 (v.length + 1) v 1 v.length

/-- The loop of `__unguarded_linear_insert(last, comp)` for the saved value `val`. -/
def unguarded_linear_insert_loop (comp : α → α → Bool) (val : α) :
    List α → Nat → Option (List α)
  | _, 0 => none
  | v, next + 1 => do
    let x ← v[next]?
    if comp val x then do
      let v ← store v (next + 1) x
      unguarded_linear_insert_loop comp val v next
    else store v (next + 1) val

/-- Model of `__unguarded_linear_insert(last, comp)`. -/
def unguarded_linear_insert (comp : α → α → Bool) (v : List α) (last : Nat) :
    Option (List α) := do
  let val ← v[last]?
  unguarded_linear_insert_loop comp val v last

/-- Model of `std::move_backward(first, last, d_last)`, where the first argument is
`last - first`. -/
def move_backward : Nat → List α → Nat → Nat → Option (List α)
  | 0, v, _, _ => some v
  | n + 1, v, last, d_last => do
    let x ← v[last - 1]?
    let v ← store v (d_last - 1) x
    move_backward n v (last - 1) (d_last - 1)

/-- The body of the loop of `__insertion_sort` for the position `i`. -/
def insertion_sort_body (comp : α → α → Bool) (first : Nat) (v : List α) (i : Nat) :
    Option (List α) := do
  let xi ← v[i]?
  let xf ← v[first]?
  if comp xi xf then do
    let v ← move_backward (i - first) v i (i + 1)
    store v first xi
  else unguarded_linear_insert comp v i

/-- The loop `for (i = first + 1; i != last; ++i)` of `__insertion_sort`; the first argument is
`last - i`. -/
def insertion_sort_loop (comp : α → α → Bool) (first : Nat) :
    Nat → List α → Nat → Option (List α)
  | 0, v, _ => some v
  | n + 1, v, i => do
    let v ← insertion_sort_body comp first v i
    insertion_sort_loop comp first n v (i + 1)

/-- Model of `__insertion_sort(first, last, comp)`. -/
def insertion_sort (comp : α → α → Bool) (v : List α) (first last : Nat) : Option (List α) :=
  if first = last then some v
  else insertion_sort_loop comp first (last - (first + 1)) v (first + 1)

/-- Model of `__unguarded_insertion_sort(first, last, comp)`; the first argument is
`last - first`. -/
def unguarded_insertion_sort (comp : α → α → Bool) : Nat → List α → Nat → Option (List α)
  | 0, v, _ => some v
  | n + 1, v, i => do
    let v ← unguarded_linear_insert comp v i
    unguarded_insertion_sort comp n v (i + 1)

/-- Model of `__final_insertion_sort(first, last, comp)` on the range `v`. -/
def final_insertion_sort (comp : α → α → Bool) (v : List α) : Option (List α) :=
  if v.length > 16 then do
    let v ← insertion_sort comp v 0 16
    unguarded_insertion_sort comp (v.length - 16) v 16
  else insertion_sort comp v 0 v.length

/-- Model of `__push_heap(first, holeIndex, topIndex, value, comp)`; the first argument bounds
the number of steps. -/
def push_heap (comp : α → α → Bool) (topIndex : Nat) (value : α) :
    Nat → List α → Nat → Option (List α)
  | 0, _, _ => none
  | fuel + 1, v, holeIndex =>
    let parent := (holeIndex - 1) / 2
    if holeIndex > topIndex then do
      let p ← v[parent]?
      if comp p value then do
        let v ← store v holeIndex p
        push_heap comp topIndex value fuel v parent
      else store v holeIndex value
    else store v holeIndex value

/-- The loop `while (secondChild < (len - 1) / 2)` of `__adjust_heap`: the range and the final
`holeIndex`; the first argument bounds the number of steps. -/
def adjust_heap_loop (comp : α → α → Bool) (len : Nat) :
    Nat → List α → Nat → Option (List α × Nat)
  | 0, _, _ => none
  | fuel + 1, v, holeIndex =>
    if holeIndex < (len - 1) / 2 then do
      let secondChild := 2 * (holeIndex + 1)
      let r ← v[secondChild]?
      let l ← v[secondChild - 1]?
      let secondChild := if comp r l then secondChild - 1 else secondChild
      let x ← v[secondChild]?
      let v ← store v holeIndex x
      adjust_heap_loop comp len fuel v secondChild
    else some (v, holeIndex)

/-- Model of `__adjust_heap(first, holeIndex, len, value, comp)`. After the loop `secondChild`
equals `holeIndex`; the distances are signed in the source, so for `len < 2` the quotient
`(len - 2) / 2` is not an index. -/
def adjust_heap (comp : α → α → Bool) (v : List α) (holeIndex len : Nat) (value : α) :
    Option (List α) := do
  let topIndex := holeIndex
  let (v, holeIndex) ← adjust_heap_loop comp len (len + 1) v holeIndex
  if len % 2 = 0 ∧ 2 ≤ len ∧ holeIndex = (len - 2) / 2 then do
    let secondChild := 2 * (holeIndex + 1)
    let x ← v[secondChild - 1]?
    let v ← store v holeIndex x
    push_heap comp topIndex value (len + 1) v (secondChild - 1)
  else push_heap comp topIndex value (len + 1) v holeIndex

/-- Model of `__pop_heap(first, last, result, comp)`. -/
def pop_heap (comp : α → α → Bool) (v : List α) (last result : Nat) : Option (List α) := do
  let value ← v[result]?
  let x ← v[0]?
  let v ← store v result x
  adjust_heap comp v 0 last value

/-- The loop of `__make_heap`, counting `parent` down to zero. -/
def make_heap_loop (comp : α → α → Bool) (len : Nat) : List α → Nat → Option (List α)
  | v, 0 => do
    let value ← v[0]?
    adjust_heap comp v 0 len value
  | v, parent + 1 => do
    let value ← v[parent + 1]?
    let v ← adjust_heap comp v (parent + 1) len value
    make_heap_loop comp len v parent

/-- Model of `__make_heap(first, last, comp)`. -/
def make_heap (comp : α → α → Bool) (v : List α) (last : Nat) : Option (List α) :=
  if last < 2 then some v else make_heap_loop comp last v ((last - 2) / 2)

/-- Model of `__sort_heap(first, last, comp)`. -/
def sort_heap (comp : α → α → Bool) : List α → Nat → Option (List α)
  | v, 0 => some v
  | v, last + 1 =>
    if last + 1 > 1 then do
      let v ← pop_heap comp v last last
      sort_heap comp v last
    else some v

/-- The loop `for (i = middle; i < last; ++i)` of `__heap_select`; the first argument is
`last - i`. -/
def heap_select_loop (comp : α → α → Bool) (middle : Nat) :
    Nat → List α → Nat → Option (List α)
  | 0, v, _ => some v
  | n + 1, v, i => do
    let x ← v[i]?
    let f ← v[0]?
    let v ← if comp x f then pop_heap comp v middle i else some v
    heap_select_loop comp middle n v (i + 1)

/-- Model of `__heap_select(first, middle, last, comp)`. -/
def heap_select (comp : α → α → Bool) (v : List α) (middle last : Nat) : Option (List α) := do
  let v ← make_heap comp v middle
  heap_select_loop comp middle (last - middle) v middle

/-- Model of `__partial_sort(first, middle, last, comp)`. -/
def partial_sort (comp : α → α → Bool) (v : List α) (middle last : Nat) : Option (List α) := do
  let v ← heap_select comp v middle last
  sort_heap comp v middle

/-- Model of `__introsort_loop(first, last, depth_limit, comp)` on the range `v`: the part
`[cut, last)` is handled by the recursive call, the part `[first, cut)` by the next round of the
`while` loop, both with the decremented depth limit. -/
def introsort_loop (comp : α → α → Bool) : Nat → List α → Option (List α)
  | 0, v => if v.length > 16 then partial_sort comp v v.length v.length else some v
  | depth_limit + 1, v =>
    if v.length > 16 then do
      let (cut, v) ← unguarded_partition_pivot comp v
      let right ← introsort_loop comp depth_limit (v.drop cut)
      let left ← introsort_loop comp depth_limit (v.take cut)
      some (left ++ right)
    else some v

/-- The loop of `std::__lg`; the first argument bounds the number of steps. -/
def lg_loop : Nat → Nat → Nat
  | 0, _ => 0
  | fuel + 1, n => if n ≥ 2 then lg_loop fuel (n / 2) + 1 else 0

/-- Model of `std::__lg(n)`: the position of the highest set bit. -/
def lg (n : Nat) : Nat := lg_loop n n

/-- Model of `std::sort(first, last, comp)` (`std::__sort`) on the whole range `v`. -/
def sort (comp : α → α → Bool) (v : List α) : Option (List α) :=
  if v.isEmpty then some v
  else do
    let v ← introsort_loop comp (lg v.length * 2) v
    final_insertion_sort comp v

end StdSort

/-- The ordering step of `main` (imgsort.cpp:165-167). -/
def sort_items (items : List media) : Option (List media) :=
  sort (fun a b => decide (a.timestamp_ms < b.timestamp_ms)) items

/-! ## The renaming loop of `main`

A path is its text, a POSIX path with `/` as the separator. The filesystem is the set of the
paths that exist. -/

/-- Model of `fs::path::filename()`: the text behind the last separator. -/
def filename (p : String) : String :=
  String.mk (p.data.reverse.takeWhile (fun c => c != '/')).reverse

/-- Model of `fs::path::extension()` (libstdc++ `path::_M_find_extension`): nothing for a
filename of at most two characters that starts with a dot, for a filename without a dot and for
one whose only dot is its first character; else the text from the last dot on. -/
def extension (p : String) : String :=
  let s := (filename p).data
  if s.length ≤ 2 ∧ s.head? = some '.' then ""
  else
    let behind := s.reverse.takeWhile (fun c => c != '.')
    if behind.length = s.length then ""
    else if behind.length + 1 = s.length then ""
    else String.mk (s.drop (s.length - (behind.length + 1)))

/-- Model of `dir / name` (`fs::path::operator/`): an absolute `name` replaces `dir`, else
`name` is appended, behind a separator unless `dir` ends in one. -/
def path_append (dir name : String) : String :=
  if name.data.head? = some '/' ∨ dir.data = [] then name
  else if dir.data.getLast? = some '/' then dir ++ name
  else dir ++ "/" ++ name

/-- Model of `fs::exists(p)`. -/
def fs_exists (fs : Finset String) (p : String) : Bool := decide (p ∈ fs)

/-- Model of `fs::rename(old_p, new_p)`: `old_p` stops to exist and `new_p` exists (replacing
what was there); `none` is the exception thrown when `old_p` does not exist. -/
def fs_rename (fs : Finset String) (old_p new_p : String) : Option (Finset String) :=
  if old_p ∈ fs then some (insert new_p (fs.erase old_p)) else none

/-- The destination name `base_name + "_" + num_str + m.path.extension().string()`
(imgsort.cpp:174-178). -/
def new_name (base_name : String) (width counter : Int) (m : media) : String :=
  base_name ++ "_" ++ String.mk (num_str width counter) ++ extension m.path

/-- One round of the renaming loop (imgsort.cpp:173-192) without the increment: the filesystem
it leaves and the line it prints. -/
def rename_step (dir base_name : String) (dry_run : Bool) (width counter : Int) (m : media)
    (fs : Finset String) : Option (Finset String × String) :=
  let name := new_name base_name width counter m
  let new_path := path_append dir name
  if dry_run then
    some (fs, "[dry-run] " ++ filename m.path ++ " -> " ++ name ++ "\n")
  else if fs_exists fs new_path then
    some (fs, "file exists, skipping: " ++ name ++ "\n")
  else do
    let fs ← fs_rename fs m.path new_path
    some (fs, "renamed: " ++ filename m.path ++ " -> " ++ name ++ "\n")

/-- The renaming loop `for (const auto& m : items)` (imgsort.cpp:173-195) from the value
`counter` on: the filesystem it leaves and the lines it prints. The increment `counter++` of
the `int` has no defined result at 2147483647. -/
def rename_loop (dir base_name : String) (dry_run : Bool) (width : Int) :
    Int → List media → Finset String → Option (Finset String × List String)
  | _, [], fs => some (fs, [])
  | counter, m :: rest, fs => do
    let (fs, line) ← rename_step dir base_name dry_run width counter m fs
    if counter = 2147483647 then none
    else do
      let (fs, lines) ← rename_loop dir base_name dry_run width (counter + 1) rest fs
      some (fs, line :: lines)

/-- The part of `main` behind the scan (imgsort.cpp:159-198): without records nothing happens,
else the records are sorted and renamed in that order, counting from 1. -/
def main_rename (dir base_name : String) (dry_run : Bool) (items : List media)
    (fs : Finset String) : Option (Finset String × List String) :=
  if items.isEmpty then some (fs, [])
  else do
    let items ← sort_items items
    rename_loop dir base_name dry_run (width items.length) 1 items fs

/-- The entries of `dir` that `fs::directory_iterator(dir)` walks: the existing paths
`dir / name` with `name` a single component. -/
def directory_entries (dir : String) (fs : Finset String) : Finset String :=
  fs.filter (fun p => filename p ≠ "" ∧ path_append dir (filename p) = p)

/-- Three files of the directory `/d` in an order of discovery that is not the order of their
timestamps. -/
def discovered_files : List media :=
  [⟨"/d/z.jpg", 30⟩, ⟨"/d/m.PNG", 10⟩, ⟨"/d/a.mov", 20⟩]

/-- Three files of the directory `/d` in ascending order of their timestamps. -/
def ordered_files : List media :=
  [⟨"/d/m.PNG", 10⟩, ⟨"/d/a.mov", 20⟩, ⟨"/d/z.jpg", 30⟩]

/-- The filesystem that holds the three files of `ordered_files`. -/
def files_of_d : Finset String := {"/d/z.jpg", "/d/m.PNG", "/d/a.mov"}

/-- Two files of the directory `/d`; the second one has the name that the base name `x` gives
to the first position. -/
def clashing_files : List media := [⟨"/d/a.jpg", 1⟩, ⟨"/d/x_001.jpg", 2⟩]

/-- The list of `n` records with the timestamps `0, 1, ..., n - 1`. -/
def numbered_files (n : Nat) : List media :=
  (List.range n).map (fun (i : Nat) => ({ path := "/d/a.jpg", timestamp_ms := (i : Int) } : media))

/-! ## The shape of the timestamp text -/

/-- A group of `n` decimal digits. -/
def Digits (n : Nat) (p : List Char) : Prop :=
  p.length = n ∧ ∀ c ∈ p, c.isDigit = true

/-- The six digit groups of a text `YYYY-MM-DDTHH:MM:SS`. -/
structure DateTime where
  year : List Char
  month : List Char
  day : List Char
  hour : List Char
  minute : List Char
  second : List Char

/-- The groups have the lengths of the shape and hold digits only. -/
def DateTime.WF (f : DateTime) : Prop :=
  Digits 4 f.year ∧ Digits 2 f.month ∧ Digits 2 f.day ∧
    Digits 2 f.hour ∧ Digits 2 f.minute ∧ Digits 2 f.second

/-- The text `YYYY-MM-DDTHH:MM:SS` of the groups. -/
def DateTime.text (f : DateTime) : List Char :=
  f.year ++ '-' :: f.month ++ '-' :: f.day ++ 'T' :: f.hour ++ ':' :: f.minute ++ ':' :: f.second

/-- The broken-down time that `parse_iso8601_to_millis` builds from the groups. -/
def DateTime.tm (f : DateTime) : tm :=
  { tm_year := (digitsVal f.year : Int) - 1900, tm_mon := (digitsVal f.month : Int) - 1,
    tm_mday := digitsVal f.day, tm_hour := digitsVal f.hour, tm_min := digitsVal f.minute,
    tm_sec := digitsVal f.second }

/-- The text of an optional fractional group: a dot and the digits. -/
def fracText : Option (List Char) → List Char
  | none => []
  | some frac => '.' :: frac

/-- The millisecond component of an optional fractional group, as the specification words it:
nothing for an absent or empty group, else the first three digits of the group padded on the
right with `'0'` to three digits. -/
def fracMillis : Option (List Char) → Int
  | none => 0
  | some frac =>
    if frac = [] then 0
    else (digitsVal ((frac ++ List.replicate (3 - frac.length) '0').take 3) : Int)

/-- A complete offset `±HHMM`: the sign (`true` is `-`), the hour digits and the minute digits. -/
structure Offset where
  neg : Bool
  hour : List Char
  minute : List Char

/-- The groups of an offset have two digits each. -/
def Offset.WF (z : Offset) : Prop := Digits 2 z.hour ∧ Digits 2 z.minute

/-- The text `±HHMM` of an offset. -/
def Offset.text (z : Offset) : List Char :=
  (if z.neg then '-' else '+') :: z.hour ++ z.minute

/-- The text of an optional complete offset. -/
def offsetText : Option Offset → List Char
  | none => []
  | some z => z.text

/-- The offset in seconds as the specification words it: `sign * (hour * 3600 + minute * 60)`. -/
def Offset.seconds (z : Offset) : Int :=
  (if z.neg then -1 else 1) * ((digitsVal z.hour : Int) * 3600 + (digitsVal z.minute : Int) * 60)

/-- The offset in seconds as imgsort.cpp:61-63 computes it from the two captured groups. -/
def Offset.tz_offset_sec (z : Offset) : Int :=
  let tz_hour : Int := if z.neg then -(digitsVal z.hour : Int) else digitsVal z.hour
  let tz_min : Int := digitsVal z.minute
  tz_hour * 3600 + (if tz_hour ≥ 0 then tz_min * 60 else -tz_min * 60)

/-- Recogniser of `YYYY-MM-DDTHH:MM:SS`. -/
def isDateTime : List Char → Bool
  | [y1, y2, y3, y4, a, m1, m2, b, d1, d2, c, h1, h2, d, n1, n2, e, s1, s2] =>
    y1.isDigit && y2.isDigit && y3.isDigit && y4.isDigit && a == '-' &&
    m1.isDigit && m2.isDigit && b == '-' && d1.isDigit && d2.isDigit && c == 'T' &&
    h1.isDigit && h2.isDigit && d == ':' && n1.isDigit && n2.isDigit && e == ':' &&
    s1.isDigit && s2.isDigit
  | _ => false

/-- Recogniser of a complete offset `±HHMM`. -/
def isOffset : List Char → Bool
  | [sg, h1, h2, m1, m2] =>
    (sg == '+' || sg == '-') && h1.isDigit && h2.isDigit && m1.isDigit && m2.isDigit
  | _ => false

/-- Recogniser of a sign with two hour digits, `±HH`. -/
def isSignHour : List Char → Bool
  | [sg, h1, h2] => (sg == '+' || sg == '-') && h1.isDigit && h2.isDigit
  | _ => false

/-- Recogniser of two digits. -/
def isTwoDigits : List Char → Bool
  | [m1, m2] => m1.isDigit && m2.isDigit
  | _ => false

/-- What is left of the text behind the date-time once an optional `.` with its digits is
removed. -/
def afterFraction : List Char → List Char
  | '.' :: rest => rest.dropWhile Char.isDigit
  | rest => rest

/-- The fixed shape as the specification words it: `YYYY-MM-DDTHH:MM:SS`, optionally followed by
`.` and zero or more digits, optionally followed by a complete `±HHMM` offset. -/
def fixedShape (s : List Char) : Bool :=
  isDateTime (s.take 19) &&
    ((afterFraction (s.drop 19)).isEmpty || isOffset (afterFraction (s.drop 19)))

/-- The shape the pattern of imgsort.cpp:34 accepts: as `fixedShape`, but the sign-and-hour group
and the minute group of the offset are optional one by one. -/
def matchedShape (s : List Char) : Bool :=
  isDateTime (s.take 19) &&
    ((afterFraction (s.drop 19)).isEmpty || isOffset (afterFraction (s.drop 19)) ||
      isSignHour (afterFraction (s.drop 19)) || isTwoDigits (afterFraction (s.drop 19)))

/-- The captures of the offset groups on the text of an optional complete offset. -/
def offsetCaps (caps : Caps) : Option Offset → Caps
  | none => caps
  | some z => (caps.put 8 ((if z.neg then '-' else '+') :: z.hour)).put 9 z.minute

/-- The captures of the fractional group. -/
def fracCaps (caps : Caps) : Option (List Char) → Caps
  | none => caps
  | some frac => caps.put 7 frac

/-! ## The calendar conversion as the specification words it -/

/-- The leap-year rule of the Gregorian calendar. -/
def isLeapYear (y : Int) : Bool :=
  y % 4 == 0 && (y % 100 != 0 || y % 400 == 0)

/-- The number of days of a year. -/
def daysInYear (y : Int) : Int := if isLeapYear y then 366 else 365

/-- The number of days of month `m` (1 to 12) of year `y`. -/
def daysInMonth (y : Int) (m : Nat) : Int :=
  if m = 2 then (if isLeapYear y then 29 else 28)
  else if m = 4 ∨ m = 6 ∨ m = 9 ∨ m = 11 then 30
  else 31

/-- The days of the years `0, 1, ..., n - 1`, counted year by year. -/
def daysOfYearsFrom0 (n : Nat) : Int :=
  (List.range n).foldl (fun acc k => acc + daysInYear (k : Int)) 0

/-- The days of the years `-1, -2, ..., -n`, counted year by year. -/
def daysOfYearsBefore0 (n : Nat) : Int :=
  (List.range n).foldl (fun acc k => acc + daysInYear (-((k : Int) + 1))) 0

/-- The day number of 1 January of year `y`, counted from 1 January of year 0. -/
def yearStart (y : Int) : Int :=
  if 0 ≤ y then daysOfYearsFrom0 y.toNat else -daysOfYearsBefore0 (-y).toNat

/-- The days of the first `m` months of year `y`, counted month by month. -/
def monthStart (y : Int) : Nat → Int
  | 0 => 0
  | m + 1 => monthStart y m + daysInMonth y (m + 1)

/-- The Gregorian-calendar-to-Unix-epoch conversion of a naive (year, month, day, hour, minute,
second) tuple taken as UTC: the days from 1970-01-01 to the first day of the stated month are
counted through the calendar (a month number outside 1 to 12 runs over into the neighbouring
years), the day of the month and the time of day are added as they are. -/
def gregorianEpochSeconds (year month day hour minute second : Int) : Int :=
  let y := year + (month - 1) / 12
  let m := ((month - 1) % 12).toNat
  let days := yearStart y + monthStart y m + (day - 1) - yearStart 1970
  ((days * 24 + hour) * 60 + minute) * 60 + second

/-- The leap days that `ydhms_diff` attributes to a year counted from 1900: its
`a4 - a100 + a400`, with the quotient by 25 written as a floor. -/
def leap_days (year1 : Int) : Int :=
  let a4 := year1 / 4 + 1900 / 4 - (if year1 % 4 = 0 then 1 else 0)
  let a100 := a4 / 25
  let a400 := a100 / 4
  a4 - a100 + a400

/-! ## Chronological order of date-times -/

/-- The fields of a date-time are those of a calendar date and a time of day: month 1 to 12, day
within the month, hour below 24, minute and second below 60. -/
def validFields (f : DateTime) : Bool :=
  decide (1 ≤ digitsVal f.month) && decide (digitsVal f.month ≤ 12) &&
    decide (1 ≤ digitsVal f.day) &&
    decide ((digitsVal f.day : Int) ≤ daysInMonth (digitsVal f.year) (digitsVal f.month)) &&
    decide (digitsVal f.hour < 24) && decide (digitsVal f.minute < 60) &&
    decide (digitsVal f.second < 60)

/-- The tuple (year, month, day, hour, minute, second, millisecond) of a date-time with an
optional fractional group. -/
def DateTime.fields (f : DateTime) (frac : Option (List Char)) : List Int :=
  [digitsVal f.year, digitsVal f.month, digitsVal f.day, digitsVal f.hour, digitsVal f.minute,
    digitsVal f.second, fracMillis frac]

/-- The lexicographic order of tuples. -/
def lexLt : List Int → List Int → Bool
  | a :: as, b :: bs => decide (a < b) || (decide (a = b) && lexLt as bs)
  | _, _ => false

/-! ## Stability -/

/-- The output keeps the input order among the records of every single timestamp. -/
def Stable (input output : List media) : Prop :=
  ∀ t : Int, output.filter (fun m => decide (m.timestamp_ms = t))
    = input.filter (fun m => decide (m.timestamp_ms = t))

/-- Seventeen files of one burst, in the order of discovery, all with the timestamp
2025-01-01T00:00:00 UTC. -/
def burst : List media :=
  ["IMG_00.jpg", "IMG_01.jpg", "IMG_02.jpg", "IMG_03.jpg", "IMG_04.jpg", "IMG_05.jpg",
    "IMG_06.jpg", "IMG_07.jpg", "IMG_08.jpg", "IMG_09.jpg", "IMG_10.jpg", "IMG_11.jpg",
    "IMG_12.jpg", "IMG_13.jpg", "IMG_14.jpg", "IMG_15.jpg", "IMG_16.jpg"].map
    (fun p => { path := p, timestamp_ms := 1735689600000 })

/-! ## Auxiliary notions for the verification of `std::sort` -/

/-- What the insertion sorts establish step by step: in `w` the first `m` elements are sorted
and are those of `v` in another order, the rest of the range is as in `v`. -/
def SortedUpTo {α : Type} (key : α → Int) (v w : List α) (m : Nat) : Prop :=
  w.length = v.length ∧ (w.take m).Pairwise (fun a b => key a ≤ key b) ∧
    (w.take m).Perm (v.take m) ∧ w.drop m = v.drop m

/-- What `__introsort_loop` leaves for `__final_insertion_sort`: every element behind the first
sixteen has an element among the first sixteen that is not greater. -/
def Guarded {α : Type} (key : α → Int) (v : List α) : Prop :=
  ∀ z ∈ v.drop 16, ∃ y ∈ v.take 16, key y ≤ key z

/-- The key of the element at position `i` of the range (0 outside the range). -/
def keyAt {α : Type} (key : α → Int) (v : List α) (i : Nat) : Int :=
  match v[i]? with
  | some x => key x
  | none => 0

/-- Position `h` lies in the subtree of the binary heap that is rooted at position `top`. -/
inductive Desc (top : Nat) : Nat → Prop where
  | refl : Desc top top
  | left (h : Nat) : Desc top h → Desc top (2 * h + 1)
  | right (h : Nat) : Desc top h → Desc top (2 * h + 2)

/-- The heap order holds on the first `len` positions between every position whose parent is
at `top` or behind it and that parent. -/
def HeapFrom {α : Type} (key : α → Int) (v : List α) (len top : Nat) : Prop :=
  ∀ i, 1 ≤ i → i < len → top ≤ (i - 1) / 2 → keyAt key v i ≤ keyAt key v ((i - 1) / 2)

/-- The state of `__adjust_heap` and `__push_heap` while the position `h` is a hole: the heap
order holds wherever the hole is not involved, and the children of the hole are not greater
than its parent. -/
def HoleInv {α : Type} (key : α → Int) (v : List α) (len top h : Nat) : Prop :=
  Desc top h ∧ h < len ∧ len ≤ v.length ∧
    (∀ i, 1 ≤ i → i < len → top ≤ (i - 1) / 2 → i ≠ h → (i - 1) / 2 ≠ h →
      keyAt key v i ≤ keyAt key v ((i - 1) / 2)) ∧
    (top < h → ∀ c, 1 ≤ c → c < len → (c - 1) / 2 = h →
      keyAt key v c ≤ keyAt key v ((h - 1) / 2))

/-! # Properties -/

/-! ## Digits and `std::stoi` -/

theorem isDigit_iff (c : Char) : c.isDigit = true ↔ 48 ≤ c.toNat ∧ c.toNat ≤ 57 := by
  simp [Char.isDigit, Char.toNat, UInt32.le_def, BitVec.le_def, UInt32.toNat]

theorem ne_of_toNat (c d : Char) (h : c.toNat ≠ d.toNat) : c ≠ d := by
  rintro rfl; exact h rfl

theorem digit_not_space (c : Char) (h : c.isDigit = true) : isSpace c = false := by
  rw [isDigit_iff] at h
  have h1 : c ≠ ' ' := ne_of_toNat _ _ (by simp; omega)
  have h2 : c ≠ '\t' := ne_of_toNat _ _ (by simp; omega)
  have h3 : c ≠ '\n' := ne_of_toNat _ _ (by simp; omega)
  have h4 : c ≠ '\r' := ne_of_toNat _ _ (by simp; omega)
  simp [isSpace, h1, h2, h3, h4]; omega

theorem digit_not_sign (c : Char) (h : c.isDigit = true) : c ≠ '-' ∧ c ≠ '+' ∧ c ≠ '.' := by
  rw [isDigit_iff] at h
  exact ⟨ne_of_toNat _ _ (by simp; omega), ne_of_toNat _ _ (by simp; omega),
    ne_of_toNat _ _ (by simp; omega)⟩

theorem digitsVal_foldl (ds : List Char) (a : Nat) :
    ds.foldl (fun acc c => 10 * acc + (c.toNat - 48)) a
      = a * 10 ^ ds.length + digitsVal ds := by
  induction ds generalizing a with
  | nil => simp [digitsVal]
  | cons c ds ih =>
    simp only [List.foldl_cons, digitsVal, List.length_cons]
    rw [ih, ih (10 * 0 + (c.toNat - 48))]
    ring

theorem digitsVal_cons (c : Char) (ds : List Char) :
    digitsVal (c :: ds) = (c.toNat - 48) * 10 ^ ds.length + digitsVal ds := by
  simp only [digitsVal, List.foldl_cons]
  rw [digitsVal_foldl]; simp [digitsVal]

theorem digitsVal_lt (ds : List Char) (h : ∀ c ∈ ds, c.isDigit = true) :
    digitsVal ds < 10 ^ ds.length := by
  induction ds with
  | nil => simp [digitsVal]
  | cons c ds ih =>
    have hc := (isDigit_iff c).1 (h c (by simp))
    have := ih (fun x hx => h x (by simp [hx]))
    rw [digitsVal_cons, List.length_cons, pow_succ]
    have h9 : c.toNat - 48 ≤ 9 := by omega
    nlinarith

theorem stoi_digits (p : List Char) (hne : p ≠ []) (hd : ∀ c ∈ p, c.isDigit = true)
    (hlen : p.length ≤ 9) : stoi p = some (digitsVal p : Int) := by
  obtain ⟨c, q, rfl⟩ := List.exists_cons_of_ne_nil hne
  have hc : c.isDigit = true := hd c (by simp)
  have hs := digit_not_space c hc
  obtain ⟨hm, hp, -⟩ := digit_not_sign c hc
  have htw : (c :: q).takeWhile Char.isDigit = c :: q := by
    rw [List.takeWhile_eq_self_iff]; exact hd
  have hlt := digitsVal_lt (c :: q) hd
  have hpow : 10 ^ (c :: q).length ≤ 10 ^ 9 := Nat.pow_le_pow_right (by norm_num) hlen
  simp only [stoi, List.dropWhile_cons, hs, Bool.false_eq_true, if_false, List.head?_cons,
    List.tail_cons]
  simp [hm, hp, htw]
  omega

theorem stoi_plus (p : List Char) (hne : p ≠ []) (hd : ∀ c ∈ p, c.isDigit = true)
    (hlen : p.length ≤ 9) : stoi ('+' :: p) = some (digitsVal p : Int) := by
  have htw : p.takeWhile Char.isDigit = p := by
    rw [List.takeWhile_eq_self_iff]; exact hd
  have hlt := digitsVal_lt p hd
  have hpow : 10 ^ p.length ≤ 10 ^ 9 := Nat.pow_le_pow_right (by norm_num) hlen
  have hs : isSpace '+' = false := by decide
  simp only [stoi, List.dropWhile_cons, hs, Bool.false_eq_true, if_false, List.head?_cons,
    List.tail_cons]
  simp [htw, hne]
  omega

theorem stoi_minus (p : List Char) (hne : p ≠ []) (hd : ∀ c ∈ p, c.isDigit = true)
    (hlen : p.length ≤ 9) : stoi ('-' :: p) = some (-(digitsVal p : Int)) := by
  have htw : p.takeWhile Char.isDigit = p := by
    rw [List.takeWhile_eq_self_iff]; exact hd
  have hlt := digitsVal_lt p hd
  have hpow : 10 ^ p.length ≤ 10 ^ 9 := Nat.pow_le_pow_right (by norm_num) hlen
  have hs : isSpace '-' = false := by decide
  simp only [stoi, List.dropWhile_cons, hs, Bool.false_eq_true, if_false, List.head?_cons,
    List.tail_cons]
  simp [htw, hne]
  omega

/-! ## The matcher on texts of the shape -/

theorem repRun_digits (k : List Char → Option Caps) (p t : List Char)
    (hp : ∀ c ∈ p, c.isDigit = true) : repRun .digit k p.length (p ++ t) = k t := by
  induction p with
  | nil => simp [repRun]
  | cons c p ih =>
    have hc : c.isDigit = true := hp c (by simp)
    simp [repRun, Atom.test, hc]
    exact ih (fun x hx => hp x (by simp [hx]))

theorem run_group_rep (i n : Nat) (p t : List Char) (caps : Caps)
    (k : List Char → Caps → Option Caps) (hp : Digits n p) :
    Rx.run (.group i (.rep n .digit)) (p ++ t) caps k = k t (caps.put i p) := by
  obtain ⟨hl, hd⟩ := hp
  subst hl
  simp only [Rx.run]
  rw [repRun_digits _ _ _ hd]
  simp

theorem run_lit (c : Char) (t : List Char) (caps : Caps) (k : List Char → Caps → Option Caps) :
    Rx.run (.atom (.lit c)) (c :: t) caps k = k t caps := by
  simp [Rx.run, Atom.test]

theorem run_seq (r₁ r₂ : Rx) (s : List Char) (caps : Caps)
    (k : List Char → Caps → Option Caps) :
    Rx.run (.seq r₁ r₂) s caps k = Rx.run r₁ s caps (fun t caps₁ => Rx.run r₂ t caps₁ k) := by
  simp [Rx.run]

/-- The captures after the six date and time groups. -/
theorem run_re_front (f : DateTime) (hf : f.WF) (rest : List Char) (caps : Caps)
    (k : List Char → Caps → Option Caps) :
    Rx.run re (f.text ++ rest) caps k =
      Rx.run (Rx.cat [optFrac, optHour, optMinute]) rest
        ((((((caps.put 1 f.year).put 2 f.month).put 3 f.day).put 4 f.hour).put 5 f.minute).put 6
          f.second) k := by
  obtain ⟨h1, h2, h3, h4, h5, h6⟩ := hf
  simp only [re, Rx.cat, DateTime.text, List.append_assoc, List.cons_append]
  simp only [run_seq]
  rw [run_group_rep _ _ _ _ _ _ h1, run_lit, run_group_rep _ _ _ _ _ _ h2, run_lit,
    run_group_rep _ _ _ _ _ _ h3, run_lit, run_group_rep _ _ _ _ _ _ h4, run_lit,
    run_group_rep _ _ _ _ _ _ h5, run_lit, run_group_rep _ _ _ _ _ _ h6]
theorem starRun_digits (k : List Char → Option Caps) (frac rest : List Char) (r : Caps)
    (hd : ∀ c ∈ frac, c.isDigit = true) (hz : ∀ c ∈ rest.head?, c.isDigit = false)
    (hk : k rest = some r) : starRun .digit k (frac ++ rest) = some r := by
  induction frac with
  | nil =>
    cases rest with
    | nil => simpa [starRun] using hk
    | cons c t =>
      have : c.isDigit = false := hz c (by simp)
      simpa [starRun, Atom.test, this] using hk
  | cons c frac ih =>
    have hc : c.isDigit = true := hd c (by simp)
    have := ih (fun x hx => hd x (by simp [hx]))
    simp [starRun, Atom.test, hc, this]

theorem offsetText_head (tz : Option Offset) :
    ∀ c ∈ (offsetText tz).head?, c.isDigit = false ∧ c ≠ '.' := by
  intro c hc
  cases tz with
  | none => simp [offsetText] at hc
  | some z =>
    cases hn : z.neg <;> simp [offsetText, Offset.text, hn] at hc <;> subst hc <;> decide

theorem run_opt (r : Rx) (s : List Char) (caps : Caps) (k : List Char → Caps → Option Caps) :
    Rx.run (.opt r) s caps k =
      match Rx.run r s caps k with
      | some res => some res
      | none => k s caps := by
  simp [Rx.run]

theorem run_group (i : Nat) (r : Rx) (s : List Char) (caps : Caps)
    (k : List Char → Caps → Option Caps) :
    Rx.run (.group i r) s caps k =
      Rx.run r s caps (fun t caps₁ => k t (caps₁.put i (s.take (s.length - t.length)))) := by
  simp [Rx.run]

theorem run_rep_digits (p t : List Char) (caps : Caps) (k : List Char → Caps → Option Caps)
    (hp : ∀ c ∈ p, c.isDigit = true) :
    Rx.run (.rep p.length .digit) (p ++ t) caps k = k t caps := by
  simp only [Rx.run]
  rw [repRun_digits _ _ _ hp]

theorem run_atom_cons (a : Atom) (c : Char) (t : List Char) (caps : Caps)
    (k : List Char → Caps → Option Caps) :
    Rx.run (.atom a) (c :: t) caps k = if a.test c then k t caps else none := by
  simp [Rx.run]

theorem run_offset (tz : Option Offset) (hz : ∀ z ∈ tz, z.WF) (caps : Caps) :
    Rx.run (Rx.cat [optHour, optMinute]) (offsetText tz) caps
        (fun t caps => if t.isEmpty then some caps else none) = some (offsetCaps caps tz) := by
  cases tz with
  | none => simp [Rx.cat, optHour, optMinute, Rx.run, offsetText, repRun, offsetCaps]
  | some z =>
    obtain ⟨⟨hl, hd⟩, hm⟩ := hz z rfl
    have h9 : ∀ c : Caps, Rx.run optMinute (z.minute ++ []) c
        (fun t caps => if t.isEmpty then some caps else none) = some (c.put 9 z.minute) := by
      intro c
      rw [optMinute, run_opt, run_group_rep _ _ _ _ _ _ hm]
      simp
    have hsg : Atom.test (.oneOf ['+', '-']) (if z.neg then '-' else '+') = true := by
      cases z.neg <;> decide
    simp only [List.append_nil] at h9
    simp only [Rx.cat, offsetText, Offset.text, List.cons_append]
    rw [run_seq, optHour, run_opt, run_group, run_seq,
      run_atom_cons, if_pos hsg, ← hl, run_rep_digits _ _ _ _ hd, h9]
    have h3 : z.hour.length + z.minute.length + 1 - z.minute.length = z.hour.length + 1 := by
      omega
    simp only [List.length_cons, List.length_append, h3, List.take_succ_cons, List.take_left',
      offsetCaps]

theorem run_tail (frac : Option (List Char)) (hfr : ∀ p ∈ frac, ∀ c ∈ p, c.isDigit = true)
    (tz : Option Offset) (hz : ∀ z ∈ tz, z.WF) (caps : Caps) :
    Rx.run (Rx.cat [optFrac, optHour, optMinute]) (fracText frac ++ offsetText tz) caps
        (fun t caps => if t.isEmpty then some caps else none)
      = some (offsetCaps (fracCaps caps frac) tz) := by
  have hh := offsetText_head tz
  cases frac with
  | none =>
    have h0 : Rx.run (.seq (.atom (.lit '.')) (.group 7 (.star .digit))) (offsetText tz) caps
        (fun t caps₁ => Rx.run (Rx.cat [optHour, optMinute]) t caps₁
          (fun t caps => if t.isEmpty then some caps else none)) = none := by
      rw [run_seq]
      cases hs : offsetText tz with
      | nil => simp [Rx.run]
      | cons c t =>
        have := (hh c (by simp [hs])).2
        simp [run_atom_cons, Atom.test, this]
    have h1 := run_offset tz hz caps
    simp only [Rx.cat] at h0 h1 ⊢
    simp only [fracText, List.nil_append, fracCaps]
    rw [run_seq, optFrac, run_opt, h0]
    exact h1
  | some p =>
    have hd := hfr p rfl
    have h1 := run_offset tz hz (caps.put 7 p)
    simp only [Rx.cat] at h1 ⊢
    simp only [fracText, List.cons_append]
    rw [run_seq, optFrac, run_opt, run_seq, run_lit, run_group]
    simp only [Rx.run.eq_5]
    rw [starRun_digits _ _ _ (offsetCaps (fracCaps caps (some p)) tz) hd
      (fun c hc => (hh c hc).1)]
    simpa [fracCaps] using h1
theorem digits_ne_nil {n : Nat} {p : List Char} (h : Digits (n + 1) p) : p ≠ [] := by
  intro hp; have := h.1; simp [hp] at this

theorem padFrac_take (frac : List Char) :
    (padFrac frac).take 3 = (frac ++ List.replicate (3 - frac.length) '0').take 3 := by
  unfold padFrac
  split
  · rfl
  · have : 3 - frac.length = 0 := by omega
    simp [this]

theorem padFrac_digits (frac : List Char) (hd : ∀ c ∈ frac, c.isDigit = true) :
    Digits 3 ((frac ++ List.replicate (3 - frac.length) '0').take 3) := by
  constructor
  · simp; omega
  · intro c hc
    have := List.mem_of_mem_take hc
    rcases List.mem_append.1 this with h | h
    · exact hd c h
    · obtain ⟨-, rfl⟩ := List.mem_replicate.1 h
      decide

theorem parse_matched_eq (m : Caps) (f : DateTime) (hf : f.WF)
    (frac : Option (List Char)) (hfr : ∀ p ∈ frac, ∀ c ∈ p, c.isDigit = true)
    (tz : Option Offset) (hz : ∀ z ∈ tz, z.WF)
    (m1 : m 1 = some f.year) (m2 : m 2 = some f.month) (m3 : m 3 = some f.day)
    (m4 : m 4 = some f.hour) (m5 : m 5 = some f.minute) (m6 : m 6 = some f.second)
    (m7 : m 7 = frac)
    (m8 : m 8 = tz.map (fun z => (if z.neg then '-' else '+') :: z.hour))
    (m9 : m 9 = tz.map (fun z => z.minute)) :
    parse_matched m =
      some ((timegm f.tm - (tz.map Offset.tz_offset_sec).getD 0) * 1000 + fracMillis frac) := by
  obtain ⟨h1, h2, h3, h4, h5, h6⟩ := hf
  have s1 := stoi_digits f.year (digits_ne_nil h1) h1.2 (by rw [h1.1]; norm_num)
  have s2 := stoi_digits f.month (digits_ne_nil h2) h2.2 (by rw [h2.1]; norm_num)
  have s3 := stoi_digits f.day (digits_ne_nil h3) h3.2 (by rw [h3.1]; norm_num)
  have s4 := stoi_digits f.hour (digits_ne_nil h4) h4.2 (by rw [h4.1]; norm_num)
  have s5 := stoi_digits f.minute (digits_ne_nil h5) h5.2 (by rw [h5.1]; norm_num)
  have s6 := stoi_digits f.second (digits_ne_nil h6) h6.2 (by rw [h6.1]; norm_num)
  have hms : millis_of (m 7) = some (fracMillis frac) := by
    rw [m7]
    cases frac with
    | none => rfl
    | some p =>
      have hp := padFrac_digits p (hfr p rfl)
      have := stoi_digits _ (digits_ne_nil hp) hp.2 (by rw [hp.1]; norm_num)
      by_cases hnil : p = []
      · simp [hnil, fracMillis, millis_of]
      · simp only [millis_of, List.isEmpty_iff, hnil, if_false, fracMillis, padFrac_take, this]
  have htz : tz_offset_sec_of (m 8) (m 9) = some ((tz.map Offset.tz_offset_sec).getD 0) := by
    rw [m8, m9]
    cases tz with
    | none => rfl
    | some z =>
      obtain ⟨z1, z2⟩ := hz z rfl
      have t1 := stoi_plus z.hour (digits_ne_nil z1) z1.2 (by rw [z1.1]; norm_num)
      have t2 := stoi_minus z.hour (digits_ne_nil z1) z1.2 (by rw [z1.1]; norm_num)
      have t3 := stoi_digits z.minute (digits_ne_nil z2) z2.2 (by rw [z2.1]; norm_num)
      cases hn : z.neg
      · simp only [Option.map_some', tz_offset_sec_of, hn, Bool.false_eq_true, if_false, t1, t3,
          Option.bind_eq_bind, Option.some_bind, Option.getD_some, Offset.tz_offset_sec]
      · simp only [Option.map_some', tz_offset_sec_of, hn, if_true, t2, t3,
          Option.bind_eq_bind, Option.some_bind, Option.getD_some, Offset.tz_offset_sec]
  simp only [parse_matched, m1, m2, m3, m4, m5, m6, Option.getD_some, s1, s2, s3, s4, s5, s6,
    hms, htz, Option.bind_eq_bind, Option.some_bind, DateTime.tm]

/-- The value of `parse_iso8601_to_millis` on every text of the shape
`YYYY-MM-DDTHH:MM:SS[.fff][±HHMM]`. -/
theorem parse_shape (f : DateTime) (hf : f.WF)
    (frac : Option (List Char)) (hfr : ∀ p ∈ frac, ∀ c ∈ p, c.isDigit = true)
    (tz : Option Offset) (hz : ∀ z ∈ tz, z.WF) :
    parse_iso8601_to_millis (String.mk (f.text ++ fracText frac ++ offsetText tz)) =
      some ((timegm f.tm - (tz.map Offset.tz_offset_sec).getD 0) * 1000 + fracMillis frac) := by
  have hm : regex_match re (f.text ++ fracText frac ++ offsetText tz) =
      some (offsetCaps (fracCaps ((((((Caps.put (fun _ => none) 1 f.year).put 2 f.month).put 3
        f.day).put 4 f.hour).put 5 f.minute).put 6 f.second) frac) tz) := by
    rw [regex_match, List.append_assoc, run_re_front f hf, run_tail frac hfr tz hz]
  simp only [parse_iso8601_to_millis, String.toList, hm]
  apply parse_matched_eq _ f hf frac hfr tz hz <;>
    cases frac <;> cases tz <;> simp [offsetCaps, fracCaps, Caps.put]
/-! ## What a successful match says about the text -/

theorem repRun_some (a : Atom) (k : List Char → Option Caps) (n : Nat) (s : List Char) (r : Caps)
    (h : repRun a k n s = some r) :
    ∃ p t, s = p ++ t ∧ p.length = n ∧ (∀ c ∈ p, a.test c = true) ∧ k t = some r := by
  induction n generalizing s with
  | zero => exact ⟨[], s, by simp, rfl, by simp, by simpa [repRun] using h⟩
  | succ n ih =>
    cases s with
    | nil => simp [repRun] at h
    | cons c s =>
      simp only [repRun] at h
      split at h
      · rename_i hc
        obtain ⟨p, t, hs, hl, hp, hk⟩ := ih s h
        refine ⟨c :: p, t, by simp [hs], by simp [hl], ?_, hk⟩
        intro x hx
        rcases List.mem_cons.1 hx with rfl | hx
        · exact hc
        · exact hp x hx
      · simp at h

theorem starRun_some (a : Atom) (k : List Char → Option Caps) (s : List Char) (r : Caps)
    (h : starRun a k s = some r) :
    ∃ p t, s = p ++ t ∧ (∀ c ∈ p, a.test c = true) ∧ k t = some r := by
  induction s generalizing r with
  | nil => exact ⟨[], [], by simp, by simp, by simpa [starRun] using h⟩
  | cons c s ih =>
    simp only [starRun] at h
    split at h
    · rename_i hc
      cases hs : starRun a k s with
      | some r' =>
        rw [hs] at h
        obtain ⟨p, t, hst, hp, hk⟩ := ih _ hs
        simp only [Option.some.injEq] at h
        subst h
        refine ⟨c :: p, t, by simp [hst], ?_, hk⟩
        intro x hx
        rcases List.mem_cons.1 hx with rfl | hx
        · exact hc
        · exact hp x hx
      | none =>
        rw [hs] at h
        exact ⟨[], c :: s, by simp, by simp, h⟩
    · exact ⟨[], c :: s, by simp, by simp, h⟩

theorem run_group_rep_some (i n : Nat) (s : List Char) (caps r : Caps)
    (k : List Char → Caps → Option Caps)
    (h : Rx.run (.group i (.rep n .digit)) s caps k = some r) :
    ∃ p t, s = p ++ t ∧ Digits n p ∧ k t (caps.put i p) = some r := by
  simp only [Rx.run] at h
  obtain ⟨p, t, hs, hl, hp, hk⟩ := repRun_some _ _ _ _ _ h
  subst hs
  refine ⟨p, t, rfl, ⟨hl, fun c hc => by simpa [Atom.test] using hp c hc⟩, ?_⟩
  simpa using hk

theorem run_lit_some (c : Char) (s : List Char) (caps r : Caps)
    (k : List Char → Caps → Option Caps) (h : Rx.run (.atom (.lit c)) s caps k = some r) :
    ∃ t, s = c :: t ∧ k t caps = some r := by
  cases s with
  | nil => simp [Rx.run] at h
  | cons x t =>
    simp only [Rx.run, Atom.test] at h
    split at h
    · rename_i hx
      exact ⟨t, by simp at hx; simp [hx], h⟩
    · simp at h

theorem run_opt_some (r : Rx) (s : List Char) (caps res : Caps)
    (k : List Char → Caps → Option Caps) (h : Rx.run (.opt r) s caps k = some res) :
    Rx.run r s caps k = some res ∨ k s caps = some res := by
  rw [run_opt] at h
  cases hr : Rx.run r s caps k with
  | some x => rw [hr] at h; exact Or.inl h
  | none => rw [hr] at h; exact Or.inr h

/-- A successful match of the whole pattern splits the text into the date-time and a rest. -/
theorem run_re_front_some (s : List Char) (caps r : Caps) (k : List Char → Caps → Option Caps)
    (h : Rx.run re s caps k = some r) :
    ∃ f : DateTime, ∃ rest, f.WF ∧ s = f.text ++ rest ∧
      Rx.run (Rx.cat [optFrac, optHour, optMinute]) rest
        ((((((caps.put 1 f.year).put 2 f.month).put 3 f.day).put 4 f.hour).put 5 f.minute).put 6
          f.second) k = some r := by
  simp only [re, Rx.cat, run_seq] at h
  obtain ⟨y, t1, rfl, hy, h1⟩ := run_group_rep_some _ _ _ _ _ _ h
  clear h
  obtain ⟨t2, rfl, h2⟩ := run_lit_some _ _ _ _ _ h1
  clear h1
  obtain ⟨mo, t3, rfl, hmo, h3⟩ := run_group_rep_some _ _ _ _ _ _ h2
  clear h2
  obtain ⟨t4, rfl, h4⟩ := run_lit_some _ _ _ _ _ h3
  clear h3
  obtain ⟨d, t5, rfl, hd, h5⟩ := run_group_rep_some _ _ _ _ _ _ h4
  clear h4
  obtain ⟨t6, rfl, h6⟩ := run_lit_some _ _ _ _ _ h5
  clear h5
  obtain ⟨hh, t7, rfl, hhh, h7⟩ := run_group_rep_some _ _ _ _ _ _ h6
  clear h6
  obtain ⟨t8, rfl, h8⟩ := run_lit_some _ _ _ _ _ h7
  clear h7
  obtain ⟨mi, t9, rfl, hmi, h9⟩ := run_group_rep_some _ _ _ _ _ _ h8
  clear h8
  obtain ⟨t10, rfl, h10⟩ := run_lit_some _ _ _ _ _ h9
  clear h9
  obtain ⟨se, t, rfl, hse, h⟩ := run_group_rep_some _ _ _ _ _ _ h10
  clear h10
  refine ⟨⟨y, mo, d, hh, mi, se⟩, t, ⟨hy, hmo, hd, hhh, hmi, hse⟩, ?_, ?_⟩
  · simp [DateTime.text]
  · simpa [Rx.cat, run_seq] using h
theorem run_atom_some (a : Atom) (s : List Char) (caps r : Caps)
    (k : List Char → Caps → Option Caps) (h : Rx.run (.atom a) s caps k = some r) :
    ∃ c t, s = c :: t ∧ a.test c = true ∧ k t caps = some r := by
  cases s with
  | nil => simp [Rx.run] at h
  | cons x t =>
    simp only [Rx.run] at h
    split at h
    · rename_i hx
      exact ⟨x, t, rfl, hx, h⟩
    · simp at h

theorem run_rep_some (n : Nat) (s : List Char) (caps r : Caps)
    (k : List Char → Caps → Option Caps) (h : Rx.run (.rep n .digit) s caps k = some r) :
    ∃ p t, s = p ++ t ∧ Digits n p ∧ k t caps = some r := by
  simp only [Rx.run] at h
  obtain ⟨p, t, hs, hl, hp, hk⟩ := repRun_some _ _ _ _ _ h
  exact ⟨p, t, hs, ⟨hl, fun c hc => by simpa [Atom.test] using hp c hc⟩, hk⟩

theorem final_some (t : List Char) (c r : Caps)
    (h : (if t.isEmpty then some c else none) = some r) : t = [] ∧ r = c := by
  cases t with
  | nil => simp at h; exact ⟨rfl, h.symm⟩
  | cons x t => simp at h

theorem run_minute_some (z : List Char) (c r : Caps)
    (h : Rx.run optMinute z c (fun t caps => if t.isEmpty then some caps else none) = some r) :
    (z = [] ∧ r = c) ∨ (Digits 2 z ∧ r = c.put 9 z) := by
  rcases run_opt_some _ _ _ _ _ h with h1 | h1
  · obtain ⟨p, t, rfl, hp, hk⟩ := run_group_rep_some _ _ _ _ _ _ h1
    obtain ⟨rfl, rfl⟩ := final_some _ _ _ hk
    exact Or.inr ⟨by simpa using hp, by simp⟩
  · exact Or.inl (final_some _ _ _ h1)

theorem run_offset_some (z : List Char) (c r : Caps)
    (h : Rx.run (Rx.cat [optHour, optMinute]) z c
      (fun t caps => if t.isEmpty then some caps else none) = some r) :
    ∃ z' c', Rx.run optMinute z' c' (fun t caps => if t.isEmpty then some caps else none) = some r ∧
      ((z' = z ∧ c' = c) ∨
        ∃ sg hh, (sg = '+' ∨ sg = '-') ∧ Digits 2 hh ∧ z = sg :: hh ++ z' ∧
          c' = c.put 8 (sg :: hh)) := by
  simp only [Rx.cat, run_seq] at h
  rcases run_opt_some _ _ _ _ _ h with h1 | h1
  · rw [run_group, run_seq] at h1
    obtain ⟨sg, t, rfl, hsg, h2⟩ := run_atom_some _ _ _ _ _ h1
    obtain ⟨hh, z', rfl, hhh, h3⟩ := run_rep_some _ _ _ _ _ h2
    refine ⟨z', _, h3, Or.inr ⟨sg, hh, ?_, hhh, by simp, ?_⟩⟩
    · simpa [Atom.test] using hsg
    · have h3 : hh.length + z'.length + 1 - z'.length = hh.length + 1 := by omega
      simp only [List.length_cons, List.length_append, h3, List.take_succ_cons, List.take_left']
  · exact ⟨z, c, h1, Or.inl ⟨rfl, rfl⟩⟩

theorem run_tail_some (rest : List Char) (c r : Caps)
    (h : Rx.run (Rx.cat [optFrac, optHour, optMinute]) rest c
      (fun t caps => if t.isEmpty then some caps else none) = some r) :
    ∃ z c', Rx.run (Rx.cat [optHour, optMinute]) z c'
        (fun t caps => if t.isEmpty then some caps else none) = some r ∧
      ((z = rest ∧ c' = c) ∨
        ∃ frac, (∀ x ∈ frac, x.isDigit = true) ∧ rest = '.' :: frac ++ z ∧ c' = c.put 7 frac) := by
  have hcat : ∀ (t : List Char) (c₁ : Caps) (k : List Char → Caps → Option Caps),
      Rx.run (Rx.cat [optHour, optMinute]) t c₁ k
        = Rx.run optHour t c₁ (fun t caps₁ => Rx.run optMinute t caps₁ k) := by
    intro t c₁ k; simp only [Rx.cat, run_seq]
  simp only [Rx.cat, run_seq] at h
  rcases run_opt_some _ _ _ _ _ h with h1 | h1
  · rw [run_seq] at h1
    obtain ⟨t, rfl, h2⟩ := run_lit_some _ _ _ _ _ h1
    rw [run_group] at h2
    simp only [Rx.run.eq_5] at h2
    obtain ⟨frac, z, rfl, hfr, h3⟩ := starRun_some _ _ _ _ h2
    refine ⟨z, _, ?_, Or.inr ⟨frac, fun x hx => by simpa [Atom.test] using hfr x hx, rfl, rfl⟩⟩
    rw [hcat]
    simpa using h3
  · exact ⟨rest, c, by rw [hcat]; exact h1, Or.inl ⟨rfl, rfl⟩⟩
theorem digits_two (p : List Char) (h : Digits 2 p) :
    ∃ a b, p = [a, b] ∧ a.isDigit = true ∧ b.isDigit = true := by
  obtain ⟨hl, hd⟩ := h
  rcases p with _ | ⟨a, _ | ⟨b, _ | ⟨c, t⟩⟩⟩ <;> simp at hl
  exact ⟨a, b, rfl, hd a (by simp), hd b (by simp)⟩

theorem digits_four (p : List Char) (h : Digits 4 p) :
    ∃ a b c d, p = [a, b, c, d] ∧ a.isDigit = true ∧ b.isDigit = true ∧ c.isDigit = true ∧
      d.isDigit = true := by
  obtain ⟨hl, hd⟩ := h
  rcases p with _ | ⟨a, _ | ⟨b, _ | ⟨c, _ | ⟨d, _ | ⟨e, t⟩⟩⟩⟩⟩ <;> simp at hl
  exact ⟨a, b, c, d, rfl, hd a (by simp), hd b (by simp), hd c (by simp), hd d (by simp)⟩

theorem text_length (f : DateTime) (hf : f.WF) : f.text.length = 19 := by
  obtain ⟨h1, h2, h3, h4, h5, h6⟩ := hf
  simp [DateTime.text, h1.1, h2.1, h3.1, h4.1, h5.1, h6.1]

theorem isDateTime_text (f : DateTime) (hf : f.WF) : isDateTime f.text = true := by
  obtain ⟨h1, h2, h3, h4, h5, h6⟩ := hf
  obtain ⟨y1, y2, y3, y4, e1, a1, a2, a3, a4⟩ := digits_four _ h1
  obtain ⟨m1, m2, e2, b1, b2⟩ := digits_two _ h2
  obtain ⟨d1, d2, e3, c1, c2⟩ := digits_two _ h3
  obtain ⟨g1, g2, e4, x1, x2⟩ := digits_two _ h4
  obtain ⟨n1, n2, e5, w1, w2⟩ := digits_two _ h5
  obtain ⟨s1, s2, e6, v1, v2⟩ := digits_two _ h6
  simp [DateTime.text, e1, e2, e3, e4, e5, e6, isDateTime, a1, a2, a3, a4, b1, b2, c1, c2, x1, x2,
    w1, w2, v1, v2]

/-- The texts that the two optional offset groups accept. -/
theorem offset_shapes (z : List Char) (c r : Caps)
    (h : Rx.run (Rx.cat [optHour, optMinute]) z c
      (fun t caps => if t.isEmpty then some caps else none) = some r) :
    (z = [] ∨ isOffset z = true ∨ isSignHour z = true ∨ isTwoDigits z = true) ∧
      (∀ x ∈ z.head?, x ≠ '.') ∧
      (∀ i, i ≠ 8 → i ≠ 9 → r i = c i) ∧
      (r 8 = c 8 ∨ ∃ sg hh, (sg = '+' ∨ sg = '-') ∧ Digits 2 hh ∧ r 8 = some (sg :: hh)) ∧
      (r 9 = c 9 ∨ ∃ mm, Digits 2 mm ∧ r 9 = some mm) := by
  obtain ⟨z', c', h1, h2⟩ := run_offset_some _ _ _ h
  rcases run_minute_some _ _ _ h1 with ⟨rfl, rfl⟩ | ⟨hm, rfl⟩
  · rcases h2 with ⟨rfl, rfl⟩ | ⟨sg, hh, hsg, hhh, rfl, rfl⟩
    · simp
    · obtain ⟨a, b, rfl, ha, hb⟩ := digits_two _ hhh
      refine ⟨Or.inr (Or.inr (Or.inl ?_)), ?_, ?_, Or.inr ⟨sg, [a, b], hsg, hhh, ?_⟩, Or.inl ?_⟩
      · rcases hsg with rfl | rfl <;> simp [isSignHour, ha, hb]
      · rcases hsg with rfl | rfl <;> simp
      · intro i h8 _; simp [Caps.put, h8]
      · simp [Caps.put]
      · simp [Caps.put]
  · obtain ⟨m1, m2, rfl, hm1, hm2⟩ := digits_two _ hm
    rcases h2 with ⟨rfl, rfl⟩ | ⟨sg, hh, hsg, hhh, rfl, rfl⟩
    · refine ⟨Or.inr (Or.inr (Or.inr ?_)), ?_, ?_, Or.inl ?_, Or.inr ⟨[m1, m2], hm, ?_⟩⟩
      · simp [isTwoDigits, hm1, hm2]
      · simp; exact (digit_not_sign m1 hm1).2.2
      · intro i _ h9; simp [Caps.put, h9]
      · simp [Caps.put]
      · simp [Caps.put]
    · obtain ⟨a, b, rfl, ha, hb⟩ := digits_two _ hhh
      refine ⟨Or.inr (Or.inl ?_), ?_, ?_, Or.inr ⟨sg, [a, b], hsg, hhh, ?_⟩,
        Or.inr ⟨[m1, m2], hm, ?_⟩⟩
      · rcases hsg with rfl | rfl <;> simp [isOffset, ha, hb, hm1, hm2]
      · rcases hsg with rfl | rfl <;> simp
      · intro i h8 h9; simp [Caps.put, h8, h9]
      · simp [Caps.put]
      · simp [Caps.put]
theorem dropWhile_digits_append (frac z : List Char) (hf : ∀ x ∈ frac, x.isDigit = true) :
    (frac ++ z).dropWhile Char.isDigit = z.dropWhile Char.isDigit := by
  induction frac with
  | nil => rfl
  | cons c frac ih =>
    have hc : c.isDigit = true := hf c (by simp)
    simp only [List.cons_append, List.dropWhile_cons, hc, if_true]
    exact ih (fun x hx => hf x (by simp [hx]))

theorem tail_shape (z : List Char)
    (h : z = [] ∨ isOffset z = true ∨ isSignHour z = true ∨ isTwoDigits z = true) :
    let w := z.dropWhile Char.isDigit
    w.isEmpty = true ∨ isOffset w = true ∨ isSignHour w = true := by
  rcases h with rfl | h | h | h
  · simp
  · rcases z with _ | ⟨sg, _ | ⟨a, _ | ⟨b, _ | ⟨c, _ | ⟨d, _ | ⟨e, t⟩⟩⟩⟩⟩⟩ <;> simp [isOffset] at h
    obtain ⟨⟨⟨⟨hsg, ha⟩, hb⟩, hc⟩, hd⟩ := h
    have : sg.isDigit = false := by rcases hsg with rfl | rfl <;> decide
    simp [List.dropWhile_cons, this, isOffset, hsg, ha, hb, hc, hd]
  · rcases z with _ | ⟨sg, _ | ⟨a, _ | ⟨b, _ | ⟨c, t⟩⟩⟩⟩ <;> simp [isSignHour] at h
    obtain ⟨⟨hsg, ha⟩, hb⟩ := h
    have : sg.isDigit = false := by rcases hsg with rfl | rfl <;> decide
    simp [List.dropWhile_cons, this, isSignHour, hsg, ha, hb]
  · rcases z with _ | ⟨a, _ | ⟨b, _ | ⟨c, t⟩⟩⟩ <;> simp [isTwoDigits] at h
    simp [List.dropWhile_cons, h.1, h.2]

theorem afterFraction_of_head (z : List Char) (h : ∀ x ∈ z.head?, x ≠ '.') :
    afterFraction z = z := by
  cases z with
  | nil => rfl
  | cons c t =>
    have : c ≠ '.' := h c (by simp)
    unfold afterFraction
    split
    · rename_i heq; simp at heq; exact absurd heq.1 this
    · rfl

theorem take_drop_text (f : DateTime) (hf : f.WF) (rest : List Char) :
    (f.text ++ rest).take 19 = f.text ∧ (f.text ++ rest).drop 19 = rest := by
  constructor
  · rw [← text_length f hf, List.take_left']
    rfl
  · rw [← text_length f hf, List.drop_left']
    rfl

/-- What a successful match of the pattern says about the text and the captures. -/
theorem regex_match_some (s : List Char) (m : Caps) (h : regex_match re s = some m) :
    matchedShape s = true ∧
      ∃ f : DateTime, f.WF ∧ m 1 = some f.year ∧ m 2 = some f.month ∧ m 3 = some f.day ∧
        m 4 = some f.hour ∧ m 5 = some f.minute ∧ m 6 = some f.second ∧
        (m 7 = none ∨ ∃ p, (∀ x ∈ p, x.isDigit = true) ∧ m 7 = some p) ∧
        (m 8 = none ∨ ∃ sg hh, (sg = '+' ∨ sg = '-') ∧ Digits 2 hh ∧ m 8 = some (sg :: hh)) ∧
        (m 9 = none ∨ ∃ mm, Digits 2 mm ∧ m 9 = some mm) := by
  obtain ⟨f, rest, hf, rfl, h1⟩ := run_re_front_some _ _ _ _ h
  obtain ⟨z, c', h2, h3⟩ := run_tail_some _ _ _ h1
  obtain ⟨hz, hhead, hkeep, h8, h9⟩ := offset_shapes _ _ _ h2
  have hdt := isDateTime_text f hf
  rcases h3 with ⟨e1, e2⟩ | ⟨frac, hfr, e1, e2⟩
  · rw [e2] at hkeep h8 h9
    obtain ⟨htake, hdrop⟩ := take_drop_text f hf z
    refine ⟨?_, f, hf, ?_⟩
    · simp only [← e1, matchedShape, htake, hdrop, hdt, afterFraction_of_head z hhead,
        Bool.true_and]
      rcases hz with hz | hz | hz | hz <;> simp [hz]
    · refine ⟨?_, ?_, ?_, ?_, ?_, ?_, Or.inl ?_, ?_, ?_⟩
      · rw [hkeep 1 (by decide) (by decide)]; simp [Caps.put]
      · rw [hkeep 2 (by decide) (by decide)]; simp [Caps.put]
      · rw [hkeep 3 (by decide) (by decide)]; simp [Caps.put]
      · rw [hkeep 4 (by decide) (by decide)]; simp [Caps.put]
      · rw [hkeep 5 (by decide) (by decide)]; simp [Caps.put]
      · rw [hkeep 6 (by decide) (by decide)]; simp [Caps.put]
      · rw [hkeep 7 (by decide) (by decide)]; simp [Caps.put]
      · simpa [Caps.put] using h8
      · simpa [Caps.put] using h9
  · rw [e2] at hkeep h8 h9
    obtain ⟨htake, hdrop⟩ := take_drop_text f hf ('.' :: (frac ++ z))
    have e1' : rest = '.' :: (frac ++ z) := by simpa using e1
    refine ⟨?_, f, hf, ?_⟩
    · have := tail_shape z hz
      simp only [e1', matchedShape, htake, hdrop, hdt, afterFraction,
        Bool.true_and, dropWhile_digits_append frac z hfr]
      rcases this with h | h | h <;> simp [h]
    · refine ⟨?_, ?_, ?_, ?_, ?_, ?_, Or.inr ⟨frac, hfr, ?_⟩, ?_, ?_⟩
      · rw [hkeep 1 (by decide) (by decide)]; simp [Caps.put]
      · rw [hkeep 2 (by decide) (by decide)]; simp [Caps.put]
      · rw [hkeep 3 (by decide) (by decide)]; simp [Caps.put]
      · rw [hkeep 4 (by decide) (by decide)]; simp [Caps.put]
      · rw [hkeep 5 (by decide) (by decide)]; simp [Caps.put]
      · rw [hkeep 6 (by decide) (by decide)]; simp [Caps.put]
      · rw [hkeep 7 (by decide) (by decide)]; simp [Caps.put]
      · simpa [Caps.put] using h8
      · simpa [Caps.put] using h9

/-- After a successful match no `std::stoi` call throws. -/
theorem parse_matched_total (s : List Char) (m : Caps) (h : regex_match re s = some m) :
    ∃ v, parse_matched m = some v := by
  obtain ⟨-, f, hf, m1, m2, m3, m4, m5, m6, m7, m8, m9⟩ := regex_match_some s m h
  obtain ⟨h1, h2, h3, h4, h5, h6⟩ := hf
  have s1 := stoi_digits f.year (digits_ne_nil h1) h1.2 (by rw [h1.1]; norm_num)
  have s2 := stoi_digits f.month (digits_ne_nil h2) h2.2 (by rw [h2.1]; norm_num)
  have s3 := stoi_digits f.day (digits_ne_nil h3) h3.2 (by rw [h3.1]; norm_num)
  have s4 := stoi_digits f.hour (digits_ne_nil h4) h4.2 (by rw [h4.1]; norm_num)
  have s5 := stoi_digits f.minute (digits_ne_nil h5) h5.2 (by rw [h5.1]; norm_num)
  have s6 := stoi_digits f.second (digits_ne_nil h6) h6.2 (by rw [h6.1]; norm_num)
  have hms : ∃ v, millis_of (m 7) = some v := by
    rcases m7 with h | ⟨p, hp, h⟩
    · rw [h]; exact ⟨0, rfl⟩
    · rw [h]
      have hd := padFrac_digits p hp
      have := stoi_digits _ (digits_ne_nil hd) hd.2 (by rw [hd.1]; norm_num)
      by_cases hnil : p = []
      · exact ⟨0, by simp [hnil, millis_of]⟩
      · exact ⟨_, by simp only [millis_of, List.isEmpty_iff, hnil, if_false, padFrac_take, this]; rfl⟩
  have htz : ∃ v, tz_offset_sec_of (m 8) (m 9) = some v := by
    rcases m8 with h | ⟨sg, hh, hsg, hhh, h⟩
    · rw [h]; exact ⟨0, by simp [tz_offset_sec_of]⟩
    · rcases m9 with h' | ⟨mm, hmm, h'⟩
      · rw [h, h']; exact ⟨0, by simp [tz_offset_sec_of]⟩
      · rw [h, h']
        have t1 := stoi_plus hh (digits_ne_nil hhh) hhh.2 (by rw [hhh.1]; norm_num)
        have t2 := stoi_minus hh (digits_ne_nil hhh) hhh.2 (by rw [hhh.1]; norm_num)
        have t3 := stoi_digits mm (digits_ne_nil hmm) hmm.2 (by rw [hmm.1]; norm_num)
        rcases hsg with rfl | rfl
        · exact ⟨_, by simp only [tz_offset_sec_of, t1, t3, Option.bind_eq_bind, Option.some_bind]; rfl⟩
        · exact ⟨_, by simp only [tz_offset_sec_of, t2, t3, Option.bind_eq_bind, Option.some_bind]; rfl⟩
  obtain ⟨v7, hv7⟩ := hms
  obtain ⟨v8, hv8⟩ := htz
  exact ⟨_, by simp only [parse_matched, m1, m2, m3, m4, m5, m6, Option.getD_some, s1, s2, s3, s4,
    s5, s6, hv7, hv8, Option.bind_eq_bind, Option.some_bind]; rfl⟩

/-- The function `parse_iso8601_to_millis` returns a value on every text. -/
theorem parse_total (dt : String) : ∃ v, parse_iso8601_to_millis dt = some v := by
  unfold parse_iso8601_to_millis
  cases h : regex_match re dt.toList with
  | none => exact ⟨0, rfl⟩
  | some m => exact parse_matched_total _ m h

theorem parse_not_shape (dt : String) (h : matchedShape dt.toList = false) :
    parse_iso8601_to_millis dt = some 0 := by
  unfold parse_iso8601_to_millis
  cases hm : regex_match re dt.toList with
  | none => rfl
  | some m =>
    have := (regex_match_some _ m hm).1
    rw [h] at this
    exact absurd this (by decide)
/-! ## The resolver -/

theorem line_loop_skip (pre rest : List (List Char))
    (hpre : ∀ l ∈ pre, ∀ v, parse_iso8601_to_millis (String.mk l) = some v → v ≤ 0) :
    line_loop (pre ++ rest) = line_loop rest := by
  induction pre with
  | nil => rfl
  | cons l pre ih =>
    have ih := ih (fun x hx => hpre x (by simp [hx]))
    obtain ⟨v, hv⟩ := parse_total (String.mk l)
    have hle := hpre l (by simp) v hv
    simp only [List.cons_append, line_loop, hv]
    split
    · exact ih
    · rw [if_neg (by omega)]; exact ih

/-- C3: the line loop of `get_file_timestamp` returns the parsed value of the first line whose
parse is strictly greater than zero, whatever lines follow it. -/
theorem C3_resolver_first_positive (pre post : List (List Char)) (line : List Char) (ts : Int)
    (hpre : ∀ l ∈ pre, ∀ v, parse_iso8601_to_millis (String.mk l) = some v → v ≤ 0)
    (hline : parse_iso8601_to_millis (String.mk line) = some ts) (hpos : 0 < ts) :
    line_loop (pre ++ line :: post) = some ts := by
  rw [line_loop_skip pre _ hpre]
  have hne : line ≠ [] := by
    rintro rfl
    have h0 : parse_iso8601_to_millis (String.mk []) = some 0 := by decide
    rw [h0] at hline
    simp at hline
    omega
  simp only [line_loop, List.isEmpty_iff, hne, if_false, hline]
  rw [if_pos (by omega)]

/-- C3 at the candidates `""`, `"2025-01-01T00:00:00.000+0000"`, `"2025-01-01T12:00:00.000+0000"`:
the result is the instant of the second line, also when the lines are read from the text of the
command output. -/
theorem C3_resolver_first_positive_witness :
    line_loop ("".toList :: "2025-01-01T00:00:00.000+0000".toList ::
        ["2025-01-01T12:00:00.000+0000".toList]) = some 1735689600000 ∧
      get_file_timestamp "\n2025-01-01T00:00:00.000+0000\n2025-01-01T12:00:00.000+0000\n"
        = some 1735689600000 :=
  ⟨C3_resolver_first_positive ["".toList] ["2025-01-01T12:00:00.000+0000".toList]
      "2025-01-01T00:00:00.000+0000".toList 1735689600000
      (by
        intro l hl v hv
        simp only [List.mem_singleton] at hl
        subst hl
        have h0 : parse_iso8601_to_millis (String.mk "".toList) = some 0 := by decide
        rw [h0] at hv
        simp at hv
        omega)
      (by decide) (by decide),
    by decide⟩

theorem line_loop_none_positive (lines : List (List Char))
    (h : ∀ l ∈ lines, ∀ v, parse_iso8601_to_millis (String.mk l) = some v → v ≤ 0) :
    line_loop lines = some 0 := by
  have := line_loop_skip lines [] h
  simpa [line_loop] using this

/-- C4: when no line of the command output parses to a value greater than zero, the record
stored for the file carries the fallback instant, the last write time divided by 1000000. -/
theorem C4_fallback_unchanged (path output : String) (last_write_time : Int)
    (h : ∀ l ∈ getlines output.toList, ∀ v,
      parse_iso8601_to_millis (String.mk l) = some v → v ≤ 0) :
    get_file_timestamp output = some 0 ∧
      scan_entry path output last_write_time =
        some { path := path, timestamp_ms := last_write_time.tdiv 1000000 } := by
  have h0 : get_file_timestamp output = some 0 := by
    unfold get_file_timestamp
    split
    · rfl
    · exact line_loop_none_positive _ h
  exact ⟨h0, by simp [scan_entry, h0]⟩

/-- C4 at an output with an unparseable line and a date before 1970, and the last write time
1700000000123456789: the stored instant is 1700000000123. -/
theorem C4_fallback_unchanged_witness :
    get_file_timestamp "n/a\n1960-01-01T00:00:00\n" = some 0 ∧
      scan_entry "a.jpg" "n/a\n1960-01-01T00:00:00\n" 1700000000123456789 =
        some { path := "a.jpg", timestamp_ms := (1700000000123456789 : Int).tdiv 1000000 } :=
  C4_fallback_unchanged "a.jpg" "n/a\n1960-01-01T00:00:00\n" 1700000000123456789 (by
    have hg : getlines "n/a\n1960-01-01T00:00:00\n".toList
        = ["n/a".toList, "1960-01-01T00:00:00".toList] := by decide
    have h1 : parse_iso8601_to_millis (String.mk "n/a".toList) = some 0 := by decide
    have h2 : parse_iso8601_to_millis (String.mk "1960-01-01T00:00:00".toList)
        = some (-315619200000) := by decide
    intro l hl v hv
    rw [hg] at hl
    simp only [List.mem_cons, List.mem_singleton, List.not_mem_nil, or_false] at hl
    rcases hl with rfl | rfl
    · rw [h1] at hv; simp at hv; omega
    · rw [h2] at hv; simp at hv; omega)
/-! ## Offsets and fractions -/

/-- C6: at `1970-01-01T01:00:00-0030` the offset computed by imgsort.cpp:61-63 is `+1800`
seconds, so the code returns 1800000, while subtracting `sign * (hour * 3600 + minute * 60)`
= `-1800` from the naive 3600 seconds gives 5400000. -/
theorem C6_negative_zero_hour :
    parse_iso8601_to_millis "1970-01-01T01:00:00-0030" = some 1800000 ∧
      (Offset.mk true "00".toList "30".toList).tz_offset_sec = 1800 ∧
      (Offset.mk true "00".toList "30".toList).seconds = -1800 ∧
      (timegm { tm_year := 70, tm_mon := 0, tm_mday := 1, tm_hour := 1, tm_min := 0, tm_sec := 0 }
        - (Offset.mk true "00".toList "30".toList).seconds) * 1000 + 0 = 5400000 := by
  decide

/-- C7: for every date-time with an optional fractional group, the value with the suffix
`-0500` minus the value with the suffix `+0100` is 21600000. -/
theorem C7_offsets_six_hours (f : DateTime) (hf : f.WF)
    (frac : Option (List Char)) (hfr : ∀ p ∈ frac, ∀ c ∈ p, c.isDigit = true) :
    ∃ west east,
      parse_iso8601_to_millis (String.mk (f.text ++ fracText frac ++ "-0500".toList)) = some west ∧
      parse_iso8601_to_millis (String.mk (f.text ++ fracText frac ++ "+0100".toList)) = some east ∧
      west - east = 21600000 := by
  have hw : Offset.WF ⟨true, "05".toList, "00".toList⟩ := by
    constructor <;> constructor <;> decide
  have he : Offset.WF ⟨false, "01".toList, "00".toList⟩ := by
    constructor <;> constructor <;> decide
  have h1 := parse_shape f hf frac hfr (some ⟨true, "05".toList, "00".toList⟩)
    (by intro z hz; simp at hz; subst hz; exact hw)
  have h2 := parse_shape f hf frac hfr (some ⟨false, "01".toList, "00".toList⟩)
    (by intro z hz; simp at hz; subst hz; exact he)
  have t1 : (Offset.mk true "05".toList "00".toList).tz_offset_sec = -18000 := by decide
  have t2 : (Offset.mk false "01".toList "00".toList).tz_offset_sec = 3600 := by decide
  refine ⟨_, _, h1, h2, ?_⟩
  simp only [Option.map_some', Option.getD_some, t1, t2]
  ring

/-- C7 at `2025-06-15T12:30:45.5`. -/
theorem C7_offsets_six_hours_witness :
    ∃ west east,
      parse_iso8601_to_millis (String.mk ((DateTime.mk "2025".toList "06".toList "15".toList
        "12".toList "30".toList "45".toList).text ++ fracText (some "5".toList)
          ++ "-0500".toList)) = some west ∧
      parse_iso8601_to_millis (String.mk ((DateTime.mk "2025".toList "06".toList "15".toList
        "12".toList "30".toList "45".toList).text ++ fracText (some "5".toList)
          ++ "+0100".toList)) = some east ∧
      west - east = 21600000 :=
  C7_offsets_six_hours ⟨"2025".toList, "06".toList, "15".toList, "12".toList, "30".toList,
      "45".toList⟩
    (by refine ⟨?_, ?_, ?_, ?_, ?_, ?_⟩ <;> constructor <;> decide)
    (some "5".toList) (by intro p hp; simp at hp; subst hp; decide)

/-- C8: on every text of the shape the result is the result for the text without the fractional
group plus the millisecond component: 0 for an absent or empty group, else the first three
digits of the group padded on the right with `0` (the digits beyond the third are cut). -/
theorem C8_fraction_millis (f : DateTime) (hf : f.WF)
    (frac : Option (List Char)) (hfr : ∀ p ∈ frac, ∀ c ∈ p, c.isDigit = true)
    (tz : Option Offset) (hz : ∀ z ∈ tz, z.WF) :
    (∃ base,
      parse_iso8601_to_millis (String.mk (f.text ++ offsetText tz)) = some base ∧
      parse_iso8601_to_millis (String.mk (f.text ++ fracText frac ++ offsetText tz))
        = some (base + fracMillis frac)) ∧
      fracMillis none = 0 ∧ fracMillis (some "".toList) = 0 ∧
      fracMillis (some "1".toList) = 100 ∧ fracMillis (some "5".toList) = 500 ∧
      fracMillis (some "12".toList) = 120 ∧ fracMillis (some "123".toList) = 123 ∧
      fracMillis (some "1234".toList) = 123 := by
  refine ⟨⟨_, ?_, parse_shape f hf frac hfr tz hz⟩, by decide, by decide, by decide, by decide,
    by decide, by decide, by decide⟩
  have := parse_shape f hf none (by simp) tz hz
  simpa [fracText, fracMillis] using this

/-- C8 at `2025-06-15T12:30:45.1234-0700`: the result is that of `2025-06-15T12:30:45-0700`
plus 123. -/
theorem C8_fraction_millis_witness :
    (∃ base,
      parse_iso8601_to_millis (String.mk ((DateTime.mk "2025".toList "06".toList "15".toList
        "12".toList "30".toList "45".toList).text
          ++ offsetText (some ⟨true, "07".toList, "00".toList⟩))) = some base ∧
      parse_iso8601_to_millis (String.mk ((DateTime.mk "2025".toList "06".toList "15".toList
        "12".toList "30".toList "45".toList).text ++ fracText (some "1234".toList)
          ++ offsetText (some ⟨true, "07".toList, "00".toList⟩)))
        = some (base + fracMillis (some "1234".toList))) ∧
      fracMillis none = 0 ∧ fracMillis (some "".toList) = 0 ∧
      fracMillis (some "1".toList) = 100 ∧ fracMillis (some "5".toList) = 500 ∧
      fracMillis (some "12".toList) = 120 ∧ fracMillis (some "123".toList) = 123 ∧
      fracMillis (some "1234".toList) = 123 :=
  C8_fraction_millis ⟨"2025".toList, "06".toList, "15".toList, "12".toList, "30".toList,
      "45".toList⟩
    (by refine ⟨?_, ?_, ?_, ?_, ?_, ?_⟩ <;> constructor <;> decide)
    (some "1234".toList) (by intro p hp; simp at hp; subst hp; decide)
    (some ⟨true, "07".toList, "00".toList⟩)
    (by intro z hz; simp at hz; subst hz; constructor <;> constructor <;> decide)

/-- C9, refuted as stated: `2025-01-01T00:00:00+01` ends in a sign and two hour digits only and
`2025-01-01T00:00:0012` in two digits without a sign; neither has the fixed shape, and both parse
to the instant 1735689600000 instead of 0. -/
theorem C9_partial_offset_accepted :
    fixedShape "2025-01-01T00:00:00+01".toList = false ∧
      parse_iso8601_to_millis "2025-01-01T00:00:00+01" = some 1735689600000 ∧
      fixedShape "2025-01-01T00:00:0012".toList = false ∧
      parse_iso8601_to_millis "2025-01-01T00:00:0012" = some 1735689600000 := by
  decide

/-- C9, amended: every text that is not `YYYY-MM-DDTHH:MM:SS`, optionally followed by `.` and
digits, optionally followed by a sign with two hour digits, optionally followed by two minute
digits, is a parse failure: the result is 0. -/
theorem C9_unmatched_is_zero (dt : String) (h : matchedShape dt.toList = false) :
    parse_iso8601_to_millis dt = some 0 :=
  parse_not_shape dt h

/-- C9, amended, at `2025-01-01T00:00:00.123-070`, whose offset lacks a digit. -/
theorem C9_unmatched_is_zero_witness :
    parse_iso8601_to_millis "2025-01-01T00:00:00.123-070" = some 0 :=
  C9_unmatched_is_zero "2025-01-01T00:00:00.123-070" (by decide)
/-! ## `timegm` and the calendar -/

theorem tdiv_cases (a b : Int) (hb : 0 ≤ b) :
    a.tdiv b = if 0 ≤ a then a / b else -((-a) / b) := by
  split
  · rename_i h; exact Int.tdiv_eq_ediv h hb
  · rename_i h
    have : a = -(-a) := by omega
    rw [this, Int.neg_tdiv, Int.tdiv_eq_ediv (by omega) hb]
    simp

theorem tmod_cases (a b : Int) (hb : 0 ≤ b) :
    a.tmod b = a - b * (if 0 ≤ a then a / b else -((-a) / b)) := by
  rw [Int.tmod_def, tdiv_cases a b hb]

theorem leapyear_eq (y : Int) : leapyear (y - 1900) = isLeapYear y := by
  unfold leapyear isLeapYear
  rw [tmod_cases _ 100 (by norm_num), tdiv_cases _ 100 (by norm_num)]
  rw [Bool.eq_iff_iff]
  simp only [Bool.and_eq_true, Bool.or_eq_true, beq_iff_eq, bne_iff_ne, ne_eq]
  split <;> omega

theorem month_carry (mon : Int) :
    mon.tdiv 12 - (if mon.tmod 12 < 0 then 1 else 0) = mon / 12 ∧
      (mon.tmod 12 + 12 * (if mon.tmod 12 < 0 then 1 else 0)).toNat = (mon % 12).toNat := by
  rw [tmod_cases _ 12 (by norm_num), tdiv_cases _ 12 (by norm_num)]
  constructor
  · split <;> split <;> omega
  · congr 1
    split <;> split <;> omega

theorem mon_yday_eq (y : Int) (m : Nat) (hm : m < 12) :
    mon_yday (isLeapYear y) m = monthStart y m := by
  have h : ∀ k, k ≤ 12 → ∀ j, j = k → mon_yday (isLeapYear y) j = monthStart y j := by
    intro k hk
    interval_cases k <;> intro j hj <;> subst hj <;>
      cases hl : isLeapYear y <;> simp [mon_yday, monthStart, daysInMonth, hl]
  exact h m (by omega) m rfl

theorem floor25 (a : Int) :
    (a + (if a < 0 then 1 else 0)).tdiv 25 - (if a < 0 then 1 else 0) = a / 25 := by
  rw [tdiv_cases _ 25 (by norm_num)]
  split <;> split <;> omega

theorem leap_days_step (y : Int) :
    leap_days (y + 1 - 1900) - leap_days (y - 1900) = if isLeapYear y then 1 else 0 := by
  simp only [leap_days, isLeapYear, Bool.and_eq_true, Bool.or_eq_true, beq_iff_eq, bne_iff_ne,
    ne_eq]
  split <;> split <;> split <;> omega

theorem ydhms_diff_eq (year1 yday1 hour1 min1 sec1 : Int) :
    ydhms_diff year1 yday1 hour1 min1 sec1 70 0 0 0 0 =
      ((((365 * (year1 - 70) + yday1 + (leap_days year1 - leap_days 70)) * 24 + hour1) * 60
        + min1) * 60) + sec1 := by
  simp only [ydhms_diff, leap_days, floor25]
  ring

theorem daysOfYearsFrom0_eq (n : Nat) :
    daysOfYearsFrom0 n = 365 * (n : Int) + (leap_days ((n : Int) - 1900) - leap_days (0 - 1900)) := by
  induction n with
  | zero => simp [daysOfYearsFrom0]
  | succ n ih =>
    have := leap_days_step (n : Int)
    have hs : daysOfYearsFrom0 (n + 1) = daysOfYearsFrom0 n + daysInYear (n : Int) := by
      simp [daysOfYearsFrom0, List.range_succ]
    simp only [hs, ih, daysInYear]
    push_cast
    split at this <;> rename_i hl <;> simp [hl] <;> linarith

theorem daysOfYearsBefore0_eq (n : Nat) :
    daysOfYearsBefore0 n
      = 365 * (n : Int) + (leap_days (0 - 1900) - leap_days (-(n : Int) - 1900)) := by
  induction n with
  | zero => simp [daysOfYearsBefore0]
  | succ n ih =>
    have := leap_days_step (-((n : Int) + 1))
    have e : -((n : Int) + 1) + 1 - 1900 = -(n : Int) - 1900 := by ring
    rw [e] at this
    have hc : ((n + 1 : Nat) : Int) = (n : Int) + 1 := by push_cast; ring
    have hs : daysOfYearsBefore0 (n + 1)
        = daysOfYearsBefore0 n + daysInYear (-((n : Int) + 1)) := by
      simp [daysOfYearsBefore0, List.range_succ]
    simp only [hs, ih, daysInYear, hc]
    split at this <;> rename_i hl <;>
      simp only [hl, if_true, if_false, Bool.false_eq_true] <;> linarith

theorem yearStart_eq (y : Int) :
    yearStart y = 365 * y + (leap_days (y - 1900) - leap_days (0 - 1900)) := by
  unfold yearStart
  split
  · rename_i h
    rw [daysOfYearsFrom0_eq, Int.toNat_of_nonneg h]
  · rename_i h
    rw [daysOfYearsBefore0_eq, Int.toNat_of_nonneg (by omega)]
    have : - -y - 1900 = y - 1900 := by ring
    rw [this]
    ring

/-- The model of `timegm` computes the calendar conversion of the specification. -/
theorem timegm_eq_gregorian (year month day hour minute second : Int) :
    timegm ⟨second, minute, hour, day, month - 1, year - 1900⟩
      = gregorianEpochSeconds year month day hour minute second := by
  obtain ⟨h1, h2⟩ := month_carry (month - 1)
  have hlt : ((month - 1) % 12).toNat < 12 := by omega
  have hy : year - 1900 + (month - 1) / 12 = (year + (month - 1) / 12) - 1900 := by ring
  have e : (1970 : Int) - 1900 = 70 := by norm_num
  simp only [timegm, gregorianEpochSeconds, h1, h2, hy, leapyear_eq, mon_yday_eq _ _ hlt, e]
  rw [ydhms_diff_eq, yearStart_eq, yearStart_eq, e]
  ring
theorem digitsVal_zeros (p : List Char) (h : ∀ c ∈ p, c = '0') : digitsVal p = 0 := by
  induction p with
  | nil => rfl
  | cons c p ih =>
    have hc : c = '0' := h c (by simp)
    rw [digitsVal_cons, ih (fun x hx => h x (by simp [hx])), hc]
    have : '0'.toNat - 48 = 0 := by decide
    rw [this]; simp

theorem fracMillis_zeros (k : Nat) : fracMillis (some (List.replicate k '0')) = 0 := by
  have : digitsVal ((List.replicate k '0' ++ List.replicate (3 - (List.replicate k '0').length)
      '0').take 3) = 0 := by
    apply digitsVal_zeros
    intro c hc
    have := List.mem_of_mem_take hc
    rcases List.mem_append.1 this with h | h <;> exact (List.mem_replicate.1 h).2
  simp only [fracMillis, this]
  split <;> rfl

/-- C5: on every text `YYYY-MM-DDTHH:MM:SS.fff+0000` whose fractional digits are absent or all
zero the result is the Gregorian-calendar-to-Unix-epoch seconds of the stated year, month, day,
hour, minute and second, times 1000. -/
theorem C5_utc_epoch_millis (f : DateTime) (hf : f.WF) (k : Nat) :
    parse_iso8601_to_millis
        (String.mk (f.text ++ '.' :: List.replicate k '0' ++ "+0000".toList)) =
      some (gregorianEpochSeconds (digitsVal f.year) (digitsVal f.month) (digitsVal f.day)
        (digitsVal f.hour) (digitsVal f.minute) (digitsVal f.second) * 1000) := by
  have hz : Offset.WF ⟨false, "00".toList, "00".toList⟩ := by
    constructor <;> constructor <;> decide
  have h := parse_shape f hf (some (List.replicate k '0'))
    (by intro p hp c hc; simp at hp; subst hp; rw [(List.mem_replicate.1 hc).2]; decide)
    (some ⟨false, "00".toList, "00".toList⟩) (by intro z hz'; simp at hz'; subst hz'; exact hz)
  have t : (Offset.mk false ['0', '0'] ['0', '0']).tz_offset_sec = 0 := by decide
  have e := timegm_eq_gregorian (digitsVal f.year) (digitsVal f.month) (digitsVal f.day)
    (digitsVal f.hour) (digitsVal f.minute) (digitsVal f.second)
  have e' : timegm f.tm = gregorianEpochSeconds (digitsVal f.year) (digitsVal f.month)
      (digitsVal f.day) (digitsVal f.hour) (digitsVal f.minute) (digitsVal f.second) := e
  simpa [fracText, offsetText, Offset.text, fracMillis_zeros, t, e'] using h

/-- C5 at `2025-12-25T16:07:57.000+0000`. -/
theorem C5_utc_epoch_millis_witness :
    parse_iso8601_to_millis (String.mk ((DateTime.mk "2025".toList "12".toList "25".toList
        "16".toList "07".toList "57".toList).text ++ '.' :: List.replicate 3 '0'
          ++ "+0000".toList)) =
      some (gregorianEpochSeconds (digitsVal "2025".toList) (digitsVal "12".toList)
        (digitsVal "25".toList) (digitsVal "16".toList) (digitsVal "07".toList)
        (digitsVal "57".toList) * 1000) :=
  C5_utc_epoch_millis ⟨"2025".toList, "12".toList, "25".toList, "16".toList, "07".toList,
      "57".toList⟩
    (by refine ⟨?_, ?_, ?_, ?_, ?_, ?_⟩ <;> constructor <;> decide) 3
/-! ## The sequence string -/

theorem toDigitsCore_append (fuel n : Nat) (ds : List Char) :
    Nat.toDigitsCore 10 fuel n ds = Nat.toDigitsCore 10 fuel n [] ++ ds := by
  induction fuel generalizing n ds with
  | zero => simp [Nat.toDigitsCore]
  | succ fuel ih =>
    simp only [Nat.toDigitsCore]
    split
    · simp
    · rw [ih, ih (n / 10) [_]]
      simp

theorem toDigitsCore_fuel (fuel n : Nat) (h : n < fuel) :
    Nat.toDigitsCore 10 fuel n [] = Nat.toDigitsCore 10 (n + 1) n [] := by
  induction fuel using Nat.strong_induction_on generalizing n with
  | _ fuel ih =>
    cases fuel with
    | zero => omega
    | succ fuel =>
      simp only [Nat.toDigitsCore]
      split
      · rfl
      · rename_i hn
        have hlt : n / 10 < n := Nat.div_lt_self (by omega) (by norm_num)
        rw [toDigitsCore_append fuel, toDigitsCore_append n]
        rw [ih fuel (by omega) (n / 10) (by omega), ih n (by omega) (n / 10) hlt]

theorem toDigits_small (n : Nat) (h : n < 10) : Nat.toDigits 10 n = [Nat.digitChar n] := by
  simp [Nat.toDigits, Nat.toDigitsCore, Nat.mod_eq_of_lt h, Nat.div_eq_of_lt h]

theorem toDigits_step (n : Nat) (h : 10 ≤ n) :
    Nat.toDigits 10 n = Nat.toDigits 10 (n / 10) ++ [Nat.digitChar (n % 10)] := by
  have hne : n / 10 ≠ 0 := by omega
  have hlt : n / 10 < n := Nat.div_lt_self (by omega) (by norm_num)
  have e1 : Nat.toDigits 10 n = Nat.toDigitsCore 10 n (n / 10) [Nat.digitChar (n % 10)] := by
    simp [Nat.toDigits, Nat.toDigitsCore, hne]
  rw [e1, toDigitsCore_append, toDigitsCore_fuel n (n / 10) hlt]
  rfl

theorem digitChar_spec (d : Nat) (h : d < 10) :
    (Nat.digitChar d).isDigit = true ∧ (Nat.digitChar d).toNat - 48 = d := by
  interval_cases d <;> exact ⟨by decide, by decide⟩

theorem toDigits_spec (n : Nat) :
    (∀ c ∈ Nat.toDigits 10 n, c.isDigit = true) ∧ digitsVal (Nat.toDigits 10 n) = n ∧
      (0 < n → (Nat.toDigits 10 n).length = (Nat.digits 10 n).length) ∧
      0 < (Nat.toDigits 10 n).length := by
  induction n using Nat.strong_induction_on with
  | _ n ih =>
    rcases Nat.lt_or_ge n 10 with h | h
    · obtain ⟨h1, h2⟩ := digitChar_spec n h
      rw [toDigits_small n h]
      refine ⟨by simpa using h1, by simp [digitsVal, h2], ?_, by simp⟩
      intro hn
      rw [Nat.digits_of_lt 10 n (by omega) h]
      rfl
    · obtain ⟨i1, i2, i3, i4⟩ := ih (n / 10) (Nat.div_lt_self (by omega) (by norm_num))
      obtain ⟨h1, h2⟩ := digitChar_spec (n % 10) (Nat.mod_lt _ (by norm_num))
      rw [toDigits_step n h]
      refine ⟨?_, ?_, ?_, by simp⟩
      · intro c hc
        rcases List.mem_append.1 hc with hc | hc
        · exact i1 c hc
        · simp at hc; subst hc; exact h1
      · simp only [digitsVal, List.foldl_append, List.foldl_cons, List.foldl_nil] at i2 ⊢
        rw [i2, h2]
        omega
      · intro hn
        rw [Nat.digits_def' (by norm_num) hn]
        simp [i3 (by omega)]
theorem digitsVal_zeros_append (k : Nat) (s : List Char) :
    digitsVal (List.replicate k '0' ++ s) = digitsVal s := by
  induction k with
  | zero => simp
  | succ k ih =>
    rw [List.replicate_succ, List.cons_append, digitsVal_cons, ih]
    have : '0'.toNat - 48 = 0 := by decide
    rw [this]; simp

theorem to_string_nat (n : Nat) : to_string (n : Int) = Nat.toDigits 10 n := by
  simp [to_string]

/-- C10, refuted as stated: for 2147483648 items `static_cast<int>` yields -2147483648, whose
text has 11 characters, so the first sequence string has 11 characters, while the total has 10
decimal digits. -/
theorem C10_width_wraps :
    total_files 2147483648 = -2147483648 ∧
      (num_str (width 2147483648) 1).length = 11 ∧
      max 3 (Nat.digits 10 2147483648).length = 10 := by
  refine ⟨by decide, by decide, ?_⟩
  norm_num

/-- C10, amended: for every total `n` that fits a 32-bit `int` and every position `i` from 1 to
`n`, the sequence string has `max(3, number of decimal digits of n)` characters, all of them
decimal digits, and denotes `i`. For 7 items the strings are `001` to `007`, for 1200 items they
have four characters. -/
theorem C10_sequence_string (n i : Nat) (hi : 1 ≤ i) (hin : i ≤ n) (hn : n < 2147483648) :
    (num_str (width n) i).length = max 3 (Nat.digits 10 n).length ∧
      (∀ c ∈ num_str (width n) i, c.isDigit = true) ∧
      digitsVal (num_str (width n) i) = i ∧
      (List.range 7).map (fun k => String.mk (num_str (width 7) ((k : Int) + 1)))
        = ["001", "002", "003", "004", "005", "006", "007"] ∧
      (num_str (width 1200) 1).length = 4 ∧ (num_str (width 1200) 1200).length = 4 := by
  obtain ⟨n1, n2, n3, n4⟩ := toDigits_spec n
  obtain ⟨i1, i2, i3, i4⟩ := toDigits_spec i
  have htot : total_files n = (n : Int) := by unfold total_files; omega
  have hlen : (Nat.toDigits 10 i).length ≤ (Nat.toDigits 10 n).length := by
    rw [n3 (by omega), i3 (by omega)]
    exact Nat.le_digits_len_le 10 i n hin
  have hw : (width n).toNat = max 3 (Nat.toDigits 10 n).length := by
    simp only [width, htot, to_string_nat]
    omega
  refine ⟨?_, ?_, ?_, by decide, by decide, by decide⟩
  · simp only [num_str, to_string_nat, hw, List.length_append, List.length_replicate]
    rw [← n3 (by omega)]
    exact Nat.sub_add_cancel (le_trans hlen (le_max_right _ _))
  · intro c hc
    simp only [num_str, to_string_nat, List.mem_append] at hc
    rcases hc with hc | hc
    · rw [(List.mem_replicate.1 hc).2]; decide
    · exact i1 c hc
  · simp only [num_str, to_string_nat, digitsVal_zeros_append, i2]

/-- C10, amended, at 1200 items and position 7: the string is `0007`. -/
theorem C10_sequence_string_witness :
    (num_str (width 1200) (7 : Nat)).length = max 3 (Nat.digits 10 1200).length ∧
      (∀ c ∈ num_str (width 1200) (7 : Nat), c.isDigit = true) ∧
      digitsVal (num_str (width 1200) (7 : Nat)) = 7 ∧
      (List.range 7).map (fun k => String.mk (num_str (width 7) ((k : Int) + 1)))
        = ["001", "002", "003", "004", "005", "006", "007"] ∧
      (num_str (width 1200) 1).length = 4 ∧ (num_str (width 1200) 1200).length = 4 :=
  C10_sequence_string 1200 7 (by decide) (by decide) (by decide)
/-! ## The ordering step -/

set_option maxRecDepth 100000 in
/-- C1: on the seventeen records of `burst`, which share one timestamp, the ordering step of
`main` returns them in another order than they were discovered (`IMG_08.jpg` first, `IMG_00.jpg`
tenth): the sort is not stable. -/
theorem C1_sort_not_stable :
    sort_items burst =
      some (["IMG_08.jpg", "IMG_16.jpg", "IMG_15.jpg", "IMG_14.jpg", "IMG_13.jpg", "IMG_12.jpg",
        "IMG_11.jpg", "IMG_10.jpg", "IMG_09.jpg", "IMG_00.jpg", "IMG_07.jpg", "IMG_06.jpg",
        "IMG_05.jpg", "IMG_04.jpg", "IMG_03.jpg", "IMG_02.jpg", "IMG_01.jpg"].map
        (fun p => { path := p, timestamp_ms := 1735689600000 })) ∧
      ∀ out, sort_items burst = some out → ¬ Stable burst out := by
  have h : sort_items burst =
      some (["IMG_08.jpg", "IMG_16.jpg", "IMG_15.jpg", "IMG_14.jpg", "IMG_13.jpg", "IMG_12.jpg",
        "IMG_11.jpg", "IMG_10.jpg", "IMG_09.jpg", "IMG_00.jpg", "IMG_07.jpg", "IMG_06.jpg",
        "IMG_05.jpg", "IMG_04.jpg", "IMG_03.jpg", "IMG_02.jpg", "IMG_01.jpg"].map
        (fun p => { path := p, timestamp_ms := 1735689600000 })) := by
    decide
  refine ⟨h, ?_⟩
  intro out hout hst
  rw [h] at hout
  have := hst 1735689600000
  rw [← Option.some.inj hout] at this
  revert this
  decide
/-! ## `std::sort`: the insertion sorts -/

section SortProofs

variable {α : Type} (key : α → Int)

theorem store_some (v : List α) (i : Nat) (x : α) (h : i < v.length) :
    store v i x = some (v.set i x) := by
  simp [store, h]

theorem getElem?_mid (a : List α) (x : α) (b : List α) :
    (a ++ x :: b)[a.length]? = some x := by
  rw [List.getElem?_append_right (le_refl _)]
  simp

theorem set_mid (a : List α) (x y : α) (b : List α) :
    (a ++ x :: b).set a.length y = a ++ y :: b := by
  simp

/-- The loop of `__unguarded_linear_insert` moves the saved value left over the greater elements
and stops in range as soon as some element before it is not greater. -/
theorem uli_loop (val : α) (pre : List α) :
    ∀ (hole : α) (post : List α), (∃ y ∈ pre, key y ≤ key val) →
      ∃ p1 p2, pre = p1 ++ p2 ∧ (∀ y ∈ p2, key val < key y) ∧
        (∃ q y, p1 = q ++ [y] ∧ key y ≤ key val) ∧
        unguarded_linear_insert_loop (fun a b => decide (key a < key b)) val
          (pre ++ hole :: post) pre.length = some (p1 ++ val :: p2 ++ post) := by
  induction pre using List.reverseRecOn with
  | nil => intro hole post h; simp at h
  | append_singleton q x ih =>
    intro hole post hex
    have hv : (q ++ [x] ++ hole :: post) = q ++ x :: hole :: post := by simp
    have hlen : (q ++ [x]).length = q.length + 1 := by simp
    rw [hv, hlen]
    simp only [unguarded_linear_insert_loop]
    rw [getElem?_mid]
    simp only [Option.bind_eq_bind, Option.some_bind]
    by_cases hlt : key val < key x
    · have hst : store (q ++ x :: hole :: post) (q.length + 1) x
          = some (q ++ x :: x :: post) := by
        rw [store_some _ _ _ (by simp)]
        have := set_mid (q ++ [x]) hole x post
        simp only [List.append_assoc, List.singleton_append, List.length_append,
          List.length_singleton] at this
        rw [this]
      simp only [hlt, decide_True, if_true, hst, Option.some_bind]
      have hex' : ∃ y ∈ q, key y ≤ key val := by
        obtain ⟨y, hy, hle⟩ := hex
        rcases List.mem_append.1 hy with h | h
        · exact ⟨y, h, hle⟩
        · simp at h; subst h; omega
      obtain ⟨p1, p2, hq, hp2, hp1, hrun⟩ := ih x (x :: post) hex'
      refine ⟨p1, p2 ++ [x], by simp [hq], ?_, hp1, ?_⟩
      · intro y hy
        rcases List.mem_append.1 hy with h | h
        · exact hp2 y h
        · simp at h; subst h; exact hlt
      · rw [hrun]; simp
    · have hst : store (q ++ x :: hole :: post) (q.length + 1) val
          = some (q ++ x :: val :: post) := by
        rw [store_some _ _ _ (by simp)]
        have := set_mid (q ++ [x]) hole val post
        simp only [List.append_assoc, List.singleton_append, List.length_append,
          List.length_singleton] at this
        rw [this]
      simp only [hlt, decide_False, if_false, hst]
      exact ⟨q ++ [x], [], by simp, by simp, ⟨q, x, rfl, by omega⟩, by simp⟩

theorem sorted_insert (pre p1 p2 : List α) (val : α)
    (hs : pre.Pairwise (fun a b => key a ≤ key b)) (hp : pre = p1 ++ p2)
    (h2 : ∀ y ∈ p2, key val < key y) (h1 : ∃ q y, p1 = q ++ [y] ∧ key y ≤ key val) :
    (p1 ++ val :: p2).Pairwise (fun a b => key a ≤ key b) := by
  subst hp
  obtain ⟨hs1, hs2, -⟩ := List.pairwise_append.1 hs
  obtain ⟨q, y0, rfl, hy0⟩ := h1
  have hle : ∀ a ∈ q ++ [y0], key a ≤ key val := by
    intro a ha
    rcases List.mem_append.1 ha with h | h
    · have := (List.pairwise_append.1 hs1).2.2 a h y0 (by simp)
      omega
    · simp at h; subst h; exact hy0
  rw [List.pairwise_append]
  refine ⟨hs1, ?_, ?_⟩
  · rw [List.pairwise_cons]
    exact ⟨fun b hb => by have := h2 b hb; omega, hs2⟩
  · intro a ha b hb
    have h1 := hle a ha
    rcases List.mem_cons.1 hb with rfl | hb
    · exact h1
    · have := h2 b hb; omega

theorem split_at (v : List α) (i : Nat) (x : α) (h : v[i]? = some x) :
    v = v.take i ++ x :: v.drop (i + 1) ∧ (v.take i).length = i := by
  have hi : i < v.length := by
    by_contra hc
    rw [List.getElem?_eq_none (by omega)] at h
    simp at h
  have hx : v[i] = x := by
    rw [List.getElem?_eq_getElem hi] at h
    exact Option.some.inj h
  refine ⟨?_, by simp; omega⟩
  rw [← hx, List.getElem_cons_drop, List.take_append_drop]

theorem take_drop_of_append (a b : List α) :
    (a ++ b).take a.length = a ∧ (a ++ b).drop a.length = b := by
  simp

theorem stepOk_of_split (v : List α) (i : Nat) (x : α) (h : v[i]? = some x) (pre' : List α)
    (hs : pre'.Pairwise (fun a b => key a ≤ key b)) (hp : pre'.Perm (v.take i ++ [x])) :
    SortedUpTo key v (pre' ++ v.drop (i + 1)) (i + 1) := by
  obtain ⟨hv, hl⟩ := split_at v i x h
  have hl' : pre'.length = i + 1 := by rw [hp.length_eq]; simp [hl]
  have htake : v.take (i + 1) = v.take i ++ [x] := by
    conv_lhs => rw [hv]
    rw [List.take_append_eq_append_take]
    simp [hl]
  obtain ⟨t1, t2⟩ := take_drop_of_append pre' (v.drop (i + 1))
  rw [hl'] at t1 t2
  refine ⟨?_, by rw [t1]; exact hs, by rw [t1, htake]; exact hp, t2⟩
  have : v.length = (v.take i ++ x :: v.drop (i + 1)).length := by rw [← hv]
  simp only [List.length_append, hl', this, hl, List.length_cons]
  omega

/-- One call of `__unguarded_linear_insert` on a range whose first `i` elements are sorted and
hold an element that is not greater than the element at `i`. -/
theorem unguarded_linear_insert_ok (v : List α) (i : Nat) (x : α) (h : v[i]? = some x)
    (hs : (v.take i).Pairwise (fun a b => key a ≤ key b))
    (hex : ∃ y ∈ v.take i, key y ≤ key x) :
    ∃ w, unguarded_linear_insert (fun a b => decide (key a < key b)) v i = some w ∧
      SortedUpTo key v w (i + 1) := by
  obtain ⟨hv, hl⟩ := split_at v i x h
  obtain ⟨p1, p2, hp, h2, h1, hrun⟩ := uli_loop key x (v.take i) x (v.drop (i + 1)) hex
  rw [← hv, hl] at hrun
  refine ⟨p1 ++ x :: p2 ++ v.drop (i + 1), ?_, ?_⟩
  · simp only [unguarded_linear_insert, h, Option.bind_eq_bind, Option.some_bind]
    rw [hrun]
  · have := stepOk_of_split key v i x h (p1 ++ x :: p2) (sorted_insert key _ p1 p2 x hs hp h2 h1)
      (by rw [hp, List.append_assoc]
          exact List.Perm.append_left _ (List.perm_append_singleton x p2).symm)
    simpa using this

theorem move_backward_shift (mid : List α) :
    ∀ (hole : α) (post : List α), ∃ s,
      move_backward mid.length (mid ++ hole :: post) mid.length (mid.length + 1)
        = some (s :: mid ++ post) := by
  induction mid using List.reverseRecOn with
  | nil => intro hole post; exact ⟨hole, by simp [move_backward]⟩
  | append_singleton q x ih =>
    intro hole post
    have hv : (q ++ [x] ++ hole :: post) = q ++ x :: hole :: post := by simp
    have hlen : (q ++ [x]).length = q.length + 1 := by simp
    have hst : store (q ++ x :: hole :: post) (q.length + 1) x
        = some (q ++ x :: x :: post) := by
      rw [store_some _ _ _ (by simp)]
      have := set_mid (q ++ [x]) hole x post
      simp only [List.append_assoc, List.singleton_append, List.length_append,
        List.length_singleton] at this
      rw [this]
    obtain ⟨s, hs⟩ := ih x (x :: post)
    refine ⟨s, ?_⟩
    rw [hv, hlen]
    simp only [move_backward, Nat.add_sub_cancel, getElem?_mid, Option.bind_eq_bind,
      Option.some_bind, hst]
    rw [hs]
    simp

theorem take_head (v : List α) (i : Nat) (f : α) (hi : 1 ≤ i) (hf : v[0]? = some f) :
    ∃ t, v.take i = f :: t := by
  cases v with
  | nil => simp at hf
  | cons a v =>
    simp at hf
    subst hf
    cases i with
    | zero => omega
    | succ i => exact ⟨v.take i, rfl⟩

/-- One round of the loop of `__insertion_sort` on a range whose first `i` elements are
sorted. -/
theorem insertion_sort_body_ok (v : List α) (i : Nat) (hi : 1 ≤ i) (hlt : i < v.length)
    (hs : (v.take i).Pairwise (fun a b => key a ≤ key b)) :
    ∃ w, insertion_sort_body (fun a b => decide (key a < key b)) 0 v i = some w ∧
      SortedUpTo key v w (i + 1) := by
  obtain ⟨x, hx⟩ : ∃ x, v[i]? = some x := ⟨v[i], List.getElem?_eq_getElem hlt⟩
  obtain ⟨f, hf⟩ : ∃ f, v[0]? = some f := ⟨v[0], List.getElem?_eq_getElem (by omega)⟩
  obtain ⟨hv, hl⟩ := split_at v i x hx
  obtain ⟨t, ht⟩ := take_head v i f hi hf
  have hfmem : f ∈ v.take i := by rw [ht]; simp
  have hfle : ∀ b ∈ v.take i, key f ≤ key b := by
    intro b hb
    rw [ht] at hb hs
    rcases List.mem_cons.1 hb with rfl | hb
    · exact le_refl _
    · exact (List.pairwise_cons.1 hs).1 b hb
  by_cases hc : key x < key f
  · obtain ⟨s, hmb⟩ := move_backward_shift (v.take i) x (v.drop (i + 1))
    rw [← hv, hl] at hmb
    have hst : store (s :: v.take i ++ v.drop (i + 1)) 0 x
        = some (x :: v.take i ++ v.drop (i + 1)) := by
      rw [store_some _ _ _ (by simp)]; rfl
    refine ⟨x :: v.take i ++ v.drop (i + 1), ?_, ?_⟩
    · simp only [insertion_sort_body, hx, hf, Option.bind_eq_bind, Option.some_bind, hc,
        decide_True, if_true, Nat.sub_zero, hmb, hst]
    · have hsx : (x :: v.take i).Pairwise (fun a b => key a ≤ key b) := by
        rw [List.pairwise_cons]
        refine ⟨?_, hs⟩
        intro b hb
        have := hfle b hb
        omega
      exact stepOk_of_split key v i x hx (x :: v.take i) hsx
        (List.perm_append_singleton x (v.take i)).symm
  · simp only [insertion_sort_body, hx, hf, Option.bind_eq_bind, Option.some_bind, hc,
      decide_False, if_false]
    exact unguarded_linear_insert_ok key v i x hx hs ⟨f, hfmem, by omega⟩

theorem prefix_extend (v w : List α) (k m : Nat) (hkm : k ≤ m)
    (hp : (w.take k).Perm (v.take k)) (hd : w.drop k = v.drop k) :
    (w.take m).Perm (v.take m) ∧ w.drop m = v.drop m := by
  obtain ⟨j, rfl⟩ := Nat.exists_eq_add_of_le hkm
  constructor
  · rw [List.take_add, List.take_add, hd]
    exact List.Perm.append_right _ hp
  · rw [← List.drop_drop, ← List.drop_drop, hd]

theorem sortedUpTo_refl (v : List α) (m : Nat)
    (hs : (v.take m).Pairwise (fun a b => key a ≤ key b)) : SortedUpTo key v v m :=
  ⟨rfl, hs, List.Perm.refl _, rfl⟩

theorem sortedUpTo_trans (v w u : List α) (k m : Nat) (hkm : k ≤ m)
    (h1 : SortedUpTo key v w k) (h2 : SortedUpTo key w u m) : SortedUpTo key v u m := by
  obtain ⟨l1, -, p1, d1⟩ := h1
  obtain ⟨l2, s2, p2, d2⟩ := h2
  obtain ⟨p1', d1'⟩ := prefix_extend v w k m hkm p1 d1
  exact ⟨l2.trans l1, s2, p2.trans p1', d2.trans d1'⟩

theorem mem_drop_of_getElem? (v : List α) (i j : Nat) (x : α) (h : v[j]? = some x)
    (hij : i ≤ j) : x ∈ v.drop i := by
  apply List.getElem?_mem (n := j - i)
  rw [List.getElem?_drop]
  have : i + (j - i) = j := by omega
  rw [this]; exact h

theorem insertion_sort_loop_ok (n : Nat) :
    ∀ (v : List α) (i : Nat), 1 ≤ i → i + n ≤ v.length →
      (v.take i).Pairwise (fun a b => key a ≤ key b) →
      ∃ w, insertion_sort_loop (fun a b => decide (key a < key b)) 0 n v i = some w ∧
        SortedUpTo key v w (i + n) := by
  induction n with
  | zero => intro v i _ _ hs; exact ⟨v, rfl, sortedUpTo_refl key v i hs⟩
  | succ n ih =>
    intro v i hi hn hs
    obtain ⟨w1, hb, h1⟩ := insertion_sort_body_ok key v i hi (by omega) hs
    obtain ⟨w, hw, h2⟩ := ih w1 (i + 1) (by omega) (by rw [h1.1]; omega) h1.2.1
    refine ⟨w, ?_, ?_⟩
    · simp only [insertion_sort_loop, hb, Option.bind_eq_bind, Option.some_bind, hw]
    · have e : i + (n + 1) = i + 1 + n := by omega
      rw [e]
      exact sortedUpTo_trans key v w1 w (i + 1) (i + 1 + n) (by omega) h1 h2

theorem unguarded_insertion_sort_ok (n : Nat) :
    ∀ (v : List α) (i : Nat), i + n ≤ v.length →
      (v.take i).Pairwise (fun a b => key a ≤ key b) →
      (∀ z ∈ v.drop i, ∃ y ∈ v.take i, key y ≤ key z) →
      ∃ w, unguarded_insertion_sort (fun a b => decide (key a < key b)) n v i = some w ∧
        SortedUpTo key v w (i + n) := by
  induction n with
  | zero => intro v i _ hs _; exact ⟨v, rfl, sortedUpTo_refl key v i hs⟩
  | succ n ih =>
    intro v i hn hs hg
    obtain ⟨x, hx⟩ : ∃ x, v[i]? = some x := ⟨v[i], List.getElem?_eq_getElem (by omega)⟩
    have hxmem : x ∈ v.drop i := mem_drop_of_getElem? v i i x hx (le_refl _)
    obtain ⟨w1, hb, h1⟩ := unguarded_linear_insert_ok key v i x hx hs (hg x hxmem)
    have hg1 : ∀ z ∈ w1.drop (i + 1), ∃ y ∈ w1.take (i + 1), key y ≤ key z := by
      intro z hz
      rw [h1.2.2.2] at hz
      have hz' : z ∈ v.drop i := by
        obtain ⟨k, hk⟩ := List.mem_iff_getElem?.1 hz
        rw [List.getElem?_drop] at hk
        exact mem_drop_of_getElem? v i (i + 1 + k) z hk (by omega)
      obtain ⟨y, hy, hle⟩ := hg z hz'
      refine ⟨y, ?_, hle⟩
      rw [h1.2.2.1.mem_iff]
      obtain ⟨k, hk⟩ := List.mem_iff_getElem?.1 hy
      rw [List.getElem?_take] at hk
      split at hk
      · rename_i hki
        exact List.getElem?_mem (n := k)
          (by rw [List.getElem?_take_of_lt (by omega)]; exact hk)
      · simp at hk
    obtain ⟨w, hw, h2⟩ := ih w1 (i + 1) (by rw [h1.1]; omega) h1.2.1 hg1
    refine ⟨w, ?_, ?_⟩
    · simp only [unguarded_insertion_sort, hb, Option.bind_eq_bind, Option.some_bind, hw]
    · have e : i + (n + 1) = i + 1 + n := by omega
      rw [e]
      exact sortedUpTo_trans key v w1 w (i + 1) (i + 1 + n) (by omega) h1 h2

theorem sorted_take_one (v : List α) : (v.take 1).Pairwise (fun a b => key a ≤ key b) := by
  cases v with
  | nil => simp
  | cons a v => simp

theorem sortedUpTo_all (v w : List α) (h : SortedUpTo key v w v.length) :
    w.Perm v ∧ w.Pairwise (fun a b => key a ≤ key b) := by
  obtain ⟨hl, hs, hp, -⟩ := h
  have e1 : w.take v.length = w := by rw [← hl]; exact List.take_length w
  have e2 : v.take v.length = v := List.take_length v
  rw [e1] at hs hp
  rw [e2] at hp
  exact ⟨hp, hs⟩

/-- The final insertion sort returns and sorts every range that `__introsort_loop` has
prepared. -/
theorem final_insertion_sort_ok (v : List α) (hg : Guarded key v) :
    ∃ w, final_insertion_sort (fun a b => decide (key a < key b)) v = some w ∧
      w.Perm v ∧ w.Pairwise (fun a b => key a ≤ key b) := by
  unfold final_insertion_sort
  split
  · rename_i hlen
    obtain ⟨w1, hw1, h1⟩ := insertion_sort_loop_ok key 15 v 1 (by omega) (by omega)
      (sorted_take_one key v)
    have hg1 : ∀ z ∈ w1.drop 16, ∃ y ∈ w1.take 16, key y ≤ key z := by
      intro z hz
      rw [h1.2.2.2] at hz
      obtain ⟨y, hy, hle⟩ := hg z hz
      exact ⟨y, h1.2.2.1.mem_iff.2 hy, hle⟩
    obtain ⟨w, hw, h2⟩ := unguarded_insertion_sort_ok key (w1.length - 16) w1 16
      (by rw [h1.1]; omega) h1.2.1 hg1
    have e : 16 + (w1.length - 16) = v.length := by rw [h1.1]; omega
    rw [e] at h2
    refine ⟨w, ?_, sortedUpTo_all key v w
      (sortedUpTo_trans key v w1 w 16 v.length (by omega) h1 h2)⟩
    have hi : insertion_sort (fun a b => decide (key a < key b)) v 0 16 = some w1 := by
      simp only [insertion_sort]
      exact hw1
    simp only [hi, Option.bind_eq_bind, Option.some_bind, hw]
  · rename_i hlen
    by_cases h0 : v.length = 0
    · have : v = [] := List.length_eq_zero.1 h0
      subst this
      exact ⟨[], by simp [insertion_sort], List.Perm.refl _, List.Pairwise.nil⟩
    · obtain ⟨w, hw, h1⟩ := insertion_sort_loop_ok key (v.length - 1) v 1 (by omega) (by omega)
        (sorted_take_one key v)
      have e : 1 + (v.length - 1) = v.length := by omega
      rw [e] at h1
      refine ⟨w, ?_, sortedUpTo_all key v w h1⟩
      simp only [insertion_sort]
      rw [if_neg (by omega)]
      exact hw

end SortProofs
/-! ## `std::sort`: the partition -/

section PartitionProofs

variable {α : Type} (key : α → Int)

theorem cons_set_perm (t : List α) :
    ∀ (j : Nat) (y a : α), t[j]? = some y → (y :: t.set j a).Perm (a :: t) := by
  induction t with
  | nil => intro j y a h; simp at h
  | cons b t ih =>
    intro j y a h
    cases j with
    | zero =>
      simp at h; subst h
      exact List.Perm.swap _ _ _
    | succ k =>
      simp at h
      have h1 := ih k y a h
      simp only [List.set_cons_succ]
      exact ((List.Perm.swap b y _).trans (List.Perm.cons b h1)).trans (List.Perm.swap a b t)

/-- Exchanging two elements of a range gives a permutation. -/
theorem swap_perm (v : List α) :
    ∀ (i j : Nat) (x y : α), v[i]? = some x → v[j]? = some y →
      ((v.set i y).set j x).Perm v := by
  induction v with
  | nil => intro i j x y h; simp at h
  | cons a t ih =>
    intro i j x y hx hy
    cases i with
    | zero =>
      simp at hx; subst hx
      cases j with
      | zero => simp at hy; subst hy; simp
      | succ k =>
        simp at hy
        simpa using cons_set_perm t k y a hy
    | succ i =>
      simp at hx
      cases j with
      | zero =>
        simp at hy; subst hy
        simpa using cons_set_perm t i x a hx
      | succ k =>
        simp at hy
        simpa using List.Perm.cons a (ih i k x y hx hy)

theorem getElem?_some_of_lt (v : List α) (i : Nat) (h : i < v.length) : ∃ x, v[i]? = some x :=
  ⟨v[i], List.getElem?_eq_getElem h⟩

theorem keyAt_of_getElem? (v : List α) (i : Nat) (x : α) (h : v[i]? = some x) :
    keyAt key v i = key x := by
  simp [keyAt, h]

theorem keyAt_set (v : List α) (i j : Nat) (x : α) (hj : j < v.length) :
    keyAt key (v.set j x) i = if i = j then key x else keyAt key v i := by
  unfold keyAt
  rw [List.getElem?_set]
  by_cases h : j = i
  · subst h; simp [hj]
  · have h' : ¬ i = j := fun e => h e.symm
    simp [h, h']

theorem iter_swap_ok (v : List α) (i j : Nat) (hi : i < v.length) (hj : j < v.length) :
    ∃ w, iter_swap v i j = some w ∧ w.Perm v ∧ w.length = v.length ∧
      ∀ k, keyAt key w k =
        if k = j then keyAt key v i else if k = i then keyAt key v j else keyAt key v k := by
  obtain ⟨x, hx⟩ := getElem?_some_of_lt v i hi
  obtain ⟨y, hy⟩ := getElem?_some_of_lt v j hj
  refine ⟨(v.set i y).set j x, ?_, swap_perm v i j x y hx hy, by simp, ?_⟩
  · simp only [iter_swap, hx, hy, Option.bind_eq_bind, Option.some_bind,
      store_some v i y hi, store_some (v.set i y) j x (by simpa using hj)]
  · intro k
    rw [keyAt_set key _ _ _ _ (by simpa using hj), keyAt_set key _ _ _ _ hi,
      keyAt_of_getElem? key v i x hx, keyAt_of_getElem? key v j y hy]

theorem scan_up_step (v : List α) (fuel first : Nat) (hf : first < v.length) :
    scan_up (fun a b => decide (key a < key b)) v 0 (fuel + 1) first =
      if keyAt key v first < keyAt key v 0
      then scan_up (fun a b => decide (key a < key b)) v 0 fuel (first + 1)
      else some first := by
  obtain ⟨x, hx⟩ := getElem?_some_of_lt v first hf
  obtain ⟨p, hp⟩ := getElem?_some_of_lt v 0 (by omega)
  simp only [scan_up, hx, hp, Option.bind_eq_bind, Option.some_bind,
    keyAt_of_getElem? key v first x hx, keyAt_of_getElem? key v 0 p hp, decide_eq_true_eq]

theorem scan_up_ok (v : List α) (j : Nat) (hj : j < v.length)
    (hs : keyAt key v 0 ≤ keyAt key v j) :
    ∀ (fuel first : Nat), first ≤ j → j - first < fuel →
      ∃ f, scan_up (fun a b => decide (key a < key b)) v 0 fuel first = some f ∧
        first ≤ f ∧ f ≤ j ∧ keyAt key v 0 ≤ keyAt key v f ∧
        ∀ i, first ≤ i → i < f → keyAt key v i < keyAt key v 0 := by
  intro fuel
  induction fuel with
  | zero => intro first _ h; omega
  | succ fuel ih =>
    intro first hle hfuel
    rw [scan_up_step key v fuel first (by omega)]
    by_cases hc : keyAt key v first < keyAt key v 0
    · rw [if_pos hc]
      have hne : first ≠ j := by rintro rfl; omega
      obtain ⟨f, hf, h1, h2, h3, h4⟩ := ih (first + 1) (by omega) (by omega)
      refine ⟨f, hf, by omega, h2, h3, ?_⟩
      intro i hi1 hi2
      rcases Nat.eq_or_lt_of_le hi1 with rfl | hlt
      · exact hc
      · exact h4 i (by omega) hi2
    · rw [if_neg hc]
      exact ⟨first, rfl, le_refl _, hle, by omega, fun i h1 h2 => by omega⟩

theorem scan_down_ok (v : List α) :
    ∀ (last : Nat), last < v.length →
      ∃ l, scan_down (fun a b => decide (key a < key b)) v 0 last = some l ∧
        l ≤ last ∧ keyAt key v l ≤ keyAt key v 0 ∧
        ∀ i, l < i → i ≤ last → keyAt key v 0 < keyAt key v i := by
  intro last
  induction last with
  | zero =>
    intro h
    obtain ⟨p, hp⟩ := getElem?_some_of_lt v 0 h
    refine ⟨0, ?_, le_refl _, le_refl _, fun i h1 h2 => by omega⟩
    simp [scan_down, hp]
  | succ last ih =>
    intro h
    obtain ⟨x, hx⟩ := getElem?_some_of_lt v (last + 1) h
    obtain ⟨p, hp⟩ := getElem?_some_of_lt v 0 (by omega)
    have e1 := keyAt_of_getElem? key v (last + 1) x hx
    have e0 := keyAt_of_getElem? key v 0 p hp
    by_cases hc : key p < key x
    · obtain ⟨l, hl, h1, h2, h3⟩ := ih (by omega)
      refine ⟨l, ?_, by omega, h2, ?_⟩
      · simp only [scan_down, hx, hp, Option.bind_eq_bind, Option.some_bind, hc, decide_True,
          if_true, hl]
      · intro i hi1 hi2
        rcases Nat.eq_or_lt_of_le hi2 with rfl | hlt
        · rw [e0, e1]; exact hc
        · exact h3 i hi1 (by omega)
    · refine ⟨last + 1, ?_, le_refl _, by rw [e0, e1]; omega, fun i h1 h2 => by omega⟩
      simp only [scan_down, hx, hp, Option.bind_eq_bind, Option.some_bind, hc, decide_False,
        if_false, Bool.false_eq_true]

/-- The partition loop returns a cut with the elements before it not greater than the pivot
and the elements from it on not smaller. -/
theorem unguarded_partition_ok (p : Int) :
    ∀ (fuel : Nat) (v : List α) (first last : Nat),
      1 ≤ first → first ≤ last → last ≤ v.length → last - first < fuel → keyAt key v 0 = p →
      (∀ i, 1 ≤ i → i < first → keyAt key v i ≤ p) →
      (∀ i, last ≤ i → i < v.length → p ≤ keyAt key v i) →
      (∃ j, first ≤ j ∧ j < v.length ∧ p ≤ keyAt key v j) →
      ∃ cut w, unguarded_partition (fun a b => decide (key a < key b)) 0 fuel v first last
          = some (cut, w) ∧ w.Perm v ∧ 1 ≤ cut ∧ cut < v.length ∧
        (∀ i, i < cut → keyAt key w i ≤ p) ∧
        (∀ i, cut ≤ i → i < w.length → p ≤ keyAt key w i) := by
  intro fuel
  induction fuel with
  | zero => intro v first last _ _ _ h; omega
  | succ fuel ih =>
    intro v first last h1 h2 h3 hfuel hp hlo hhi hsent
    obtain ⟨j, hj1, hj2, hj3⟩ := hsent
    obtain ⟨f, hf, f1, f2, f3, f4⟩ := scan_up_ok key v j hj2 (by rw [hp]; exact hj3)
      (v.length + 1) first hj1 (by omega)
    obtain ⟨l, hl, l1, l2, l3⟩ := scan_down_ok key v (last - 1) (by omega)
    have hlast : ¬ last = 0 := by omega
    by_cases hc : f < l
    · obtain ⟨w, hw, wp, wl, wk⟩ := iter_swap_ok key v f l (by omega) (by omega)
      have hw0 : keyAt key w 0 = p := by
        rw [wk 0, if_neg (by omega), if_neg (by omega)]; exact hp
      obtain ⟨cut, u, hu, up, c1, c2, c3, c4⟩ := ih w (f + 1) l (by omega) (by omega)
        (by omega) (by omega) hw0
        (by
          intro i hi1 hi2
          rw [wk i, if_neg (by omega)]
          split
          · omega
          · rcases Nat.lt_or_ge i first with h | h
            · exact hlo i hi1 h
            · have := f4 i h (by omega); omega)
        (by
          intro i hi1 hi2
          rw [wk i]
          split
          · omega
          · rw [if_neg (by omega)]
            rcases Nat.lt_or_ge i last with h | h
            · have := l3 i (by omega) (by omega); omega
            · exact hhi i h (by omega))
        ⟨l, by omega, by omega, by rw [wk l, if_pos rfl]; omega⟩
      refine ⟨cut, u, ?_, up.trans wp, c1, by omega, c3, c4⟩
      simp only [unguarded_partition, hf, Option.bind_eq_bind, Option.some_bind, hlast, if_false,
        hl, hc, not_true_eq_false, hw, hu]
    · refine ⟨f, v, ?_, List.Perm.refl _, by omega, by omega, ?_, ?_⟩
      · simp only [unguarded_partition, hf, Option.bind_eq_bind, Option.some_bind, hlast,
          if_false, hl, hc, not_false_eq_true, if_true]
      · intro i hi
        rcases Nat.eq_zero_or_pos i with rfl | hpos
        · omega
        · rcases Nat.lt_or_ge i first with h | h
          · exact hlo i hpos h
          · have := f4 i h hi; omega
      · intro i hi1 hi2
        rcases Nat.eq_or_lt_of_le hi1 with rfl | hlt
        · omega
        · rcases Nat.lt_or_ge i last with h | h
          · have := l3 i (by omega) (by omega); omega
          · exact hhi i h hi2

/-- After `__move_median_to_first` some element behind the first one is not smaller than the
first one. -/
theorem move_median_to_first_ok (v : List α) (b c : Nat) (hb1 : 1 < b) (hbc : b < c)
    (hc : c < v.length) :
    ∃ w, move_median_to_first (fun a b => decide (key a < key b)) v 0 1 b c = some w ∧
      w.Perm v ∧ w.length = v.length ∧
      ∃ j, 1 ≤ j ∧ j < w.length ∧ keyAt key w 0 ≤ keyAt key w j := by
  obtain ⟨xa, ha⟩ := getElem?_some_of_lt v 1 (by omega)
  obtain ⟨xb, hb⟩ := getElem?_some_of_lt v b (by omega)
  obtain ⟨xc, hcc⟩ := getElem?_some_of_lt v c hc
  have ea := keyAt_of_getElem? key v 1 xa ha
  have eb := keyAt_of_getElem? key v b xb hb
  have ec := keyAt_of_getElem? key v c xc hcc
  obtain ⟨wa, hwa, pa, la, ka⟩ := iter_swap_ok key v 0 1 (by omega) (by omega)
  obtain ⟨wb, hwb, pb, lb, kb⟩ := iter_swap_ok key v 0 b (by omega) (by omega)
  obtain ⟨wc, hwc, pc, lc, kc⟩ := iter_swap_ok key v 0 c (by omega) (by omega)
  have k1 : ∀ (w : List α) (m : Nat),
      (∀ k, keyAt key w k =
        if k = m then keyAt key v 0 else if k = 0 then keyAt key v m else keyAt key v k) →
      1 ≤ m → ∀ j, 1 ≤ j → j ≠ m → keyAt key v m ≤ keyAt key v j →
      keyAt key w 0 ≤ keyAt key w j := by
    intro w m hk hm j hj hjm hle
    rw [hk 0, hk j, if_neg (by omega), if_pos rfl, if_neg hjm, if_neg (by omega)]
    exact hle
  simp only [move_median_to_first, ha, hb, hcc, Option.bind_eq_bind, Option.some_bind,
    decide_eq_true_eq]
  by_cases h1 : key xa < key xb
  · by_cases h2 : key xb < key xc
    · rw [if_pos h1, if_pos h2]
      exact ⟨wb, hwb, pb, lb, c, by omega, by omega,
        k1 wb b kb (by omega) c (by omega) (by omega) (by omega)⟩
    · by_cases h3 : key xa < key xc
      · rw [if_pos h1, if_neg h2, if_pos h3]
        exact ⟨wc, hwc, pc, lc, b, by omega, by omega,
          k1 wc c kc (by omega) b (by omega) (by omega) (by omega)⟩
      · rw [if_pos h1, if_neg h2, if_neg h3]
        exact ⟨wa, hwa, pa, la, b, by omega, by omega,
          k1 wa 1 ka (by omega) b (by omega) (by omega) (by omega)⟩
  · by_cases h3 : key xa < key xc
    · rw [if_neg h1, if_pos h3]
      exact ⟨wa, hwa, pa, la, c, by omega, by omega,
        k1 wa 1 ka (by omega) c (by omega) (by omega) (by omega)⟩
    · by_cases h2 : key xb < key xc
      · rw [if_neg h1, if_neg h3, if_pos h2]
        exact ⟨wc, hwc, pc, lc, 1, by omega, by omega,
          k1 wc c kc (by omega) 1 (by omega) (by omega) (by omega)⟩
      · rw [if_neg h1, if_neg h3, if_neg h2]
        exact ⟨wb, hwb, pb, lb, 1, by omega, by omega,
          k1 wb b kb (by omega) 1 (by omega) (by omega) (by omega)⟩

theorem key_of_mem_take (w : List α) (cut : Nat) (x : α) (h : x ∈ w.take cut) :
    ∃ i, i < cut ∧ i < w.length ∧ keyAt key w i = key x := by
  obtain ⟨k, hk⟩ := List.mem_iff_getElem?.1 h
  rw [List.getElem?_take] at hk
  split at hk
  · rename_i hlt
    refine ⟨k, hlt, ?_, keyAt_of_getElem? key w k x hk⟩
    by_contra hc
    rw [List.getElem?_eq_none (by omega)] at hk
    simp at hk
  · simp at hk

theorem key_of_mem_drop (w : List α) (cut : Nat) (x : α) (h : x ∈ w.drop cut) :
    ∃ i, cut ≤ i ∧ i < w.length ∧ keyAt key w i = key x := by
  obtain ⟨k, hk⟩ := List.mem_iff_getElem?.1 h
  rw [List.getElem?_drop] at hk
  refine ⟨cut + k, by omega, ?_, keyAt_of_getElem? key w _ x hk⟩
  by_contra hc
  rw [List.getElem?_eq_none (by omega)] at hk
  simp at hk

/-- The partition step of `__introsort_loop` returns on every range of more than sixteen
elements: both parts are non-empty and no element of the first part is greater than an element
of the second part. -/
theorem unguarded_partition_pivot_ok (v : List α) (hlen : 16 < v.length) :
    ∃ cut w, unguarded_partition_pivot (fun a b => decide (key a < key b)) v = some (cut, w) ∧
      w.Perm v ∧ 1 ≤ cut ∧ cut < v.length ∧
      ∀ x ∈ w.take cut, ∀ y ∈ w.drop cut, key x ≤ key y := by
  obtain ⟨u, hu, up, ul, j, j1, j2, j3⟩ :=
    move_median_to_first_ok key v (v.length / 2) (v.length - 1) (by omega) (by omega) (by omega)
  obtain ⟨cut, w, hw, wp, c1, c2, c3, c4⟩ :=
    unguarded_partition_ok key (keyAt key u 0) (u.length + 1) u 1 u.length (le_refl _)
      (by omega) (le_refl _) (by omega) rfl (fun i h1 h2 => by omega)
      (fun i h1 h2 => by omega) ⟨j, j1, j2, j3⟩
  refine ⟨cut, w, ?_, wp.trans up, c1, by omega, ?_⟩
  · simp only [unguarded_partition_pivot, hu, Option.bind_eq_bind, Option.some_bind, hw]
  · intro x hx y hy
    obtain ⟨i, i1, -, i3⟩ := key_of_mem_take key w cut x hx
    obtain ⟨k, k1, k2, k3⟩ := key_of_mem_drop key w cut y hy
    have := c3 i i1
    have := c4 k k1 k2
    omega

end PartitionProofs

/-! ## `std::sort`: the heap sort -/

section HeapProofs

variable {α : Type} (key : α → Int)

theorem desc_le {top h : Nat} (d : Desc top h) : top ≤ h := by
  induction d with
  | refl => exact le_refl _
  | left h _ ih => omega
  | right h _ ih => omega

theorem desc_parent {top h : Nat} (d : Desc top h) (hlt : top < h) :
    Desc top ((h - 1) / 2) := by
  cases d with
  | refl => omega
  | left h' d' =>
    have : (2 * h' + 1 - 1) / 2 = h' := by omega
    rw [this]; exact d'
  | right h' d' =>
    have : (2 * h' + 2 - 1) / 2 = h' := by omega
    rw [this]; exact d'

theorem desc_child {top h c : Nat} (d : Desc top h) (hc1 : 1 ≤ c) (hc : (c - 1) / 2 = h) :
    Desc top c := by
  have : c = 2 * h + 1 ∨ c = 2 * h + 2 := by omega
  rcases this with rfl | rfl
  · exact Desc.left h d
  · exact Desc.right h d

/-- Moving the child `c` of the hole into the hole makes `c` the hole. -/
theorem hole_move (v : List α) (len top h c : Nat) (x : α) (hinv : HoleInv key v len top h)
    (hc1 : 1 ≤ c) (hc2 : c < len) (hc3 : (c - 1) / 2 = h) (hx : v[c]? = some x)
    (hmax : ∀ c', 1 ≤ c' → c' < len → (c' - 1) / 2 = h → keyAt key v c' ≤ keyAt key v c) :
    HoleInv key (v.set h x) len top c := by
  obtain ⟨hd, hlt, hlen, ha, hb⟩ := hinv
  have hk : ∀ i, keyAt key (v.set h x) i = if i = h then keyAt key v c else keyAt key v i := by
    intro i
    rw [keyAt_set key v i h x (by omega), keyAt_of_getElem? key v c x hx]
  have htop := desc_le hd
  refine ⟨desc_child hd hc1 hc3, hc2, by simpa using hlen, ?_, ?_⟩
  · intro i i1 i2 i3 i4 i5
    rw [hk i, hk ((i - 1) / 2)]
    by_cases e1 : i = h
    · subst e1
      rw [if_pos rfl, if_neg (by omega)]
      exact hb (by omega) c hc1 hc2 hc3
    · rw [if_neg e1]
      by_cases e2 : (i - 1) / 2 = h
      · rw [if_pos e2]
        exact hmax i i1 i2 e2
      · rw [if_neg e2]
        exact ha i i1 i2 i3 e1 e2
  · intro _ d d1 d2 d3
    rw [hk d, hk ((c - 1) / 2), if_neg (by omega), if_pos hc3]
    have := ha d d1 d2 (by omega) (by omega) (by omega)
    rw [d3] at this
    exact this

theorem hole_perm (v : List α) (h c : Nat) (x value : α) (hne : h ≠ c) (hh : h < v.length)
    (hx : v[c]? = some x) : ((v.set h x).set c value).Perm (v.set h value) := by
  have h1 : (v.set h value)[h]? = some value := by simp [hh]
  have h2 : (v.set h value)[c]? = some x := by
    rw [List.getElem?_set_ne hne]; exact hx
  have := swap_perm (v.set h value) h c value x h1 h2
  rwa [List.set_set] at this

theorem drop_set_lt (v : List α) (h len : Nat) (x : α) (hlt : h < len) :
    (v.set h x).drop len = v.drop len := by
  rw [List.drop_set]
  simp [hlt]

/-- The first loop of `__adjust_heap` returns and moves the hole down to a position without two
children in range. -/
theorem adjust_heap_loop_ok (len top : Nat) :
    ∀ (fuel : Nat) (v : List α) (h : Nat), HoleInv key v len top h → len - h < fuel →
      ∃ w h', adjust_heap_loop (fun a b => decide (key a < key b)) len fuel v h = some (w, h') ∧
        HoleInv key w len top h' ∧ ¬ h' < (len - 1) / 2 ∧ w.length = v.length ∧
        w.drop len = v.drop len ∧ ∀ value, (w.set h' value).Perm (v.set h value) := by
  intro fuel
  induction fuel with
  | zero => intro v h _ hf; omega
  | succ fuel ih =>
    intro v h hinv hf
    have hlt := hinv.2.1
    have hlen := hinv.2.2.1
    by_cases hc : h < (len - 1) / 2
    · obtain ⟨r, hr⟩ := getElem?_some_of_lt v (2 * (h + 1)) (by omega)
      obtain ⟨l, hl⟩ := getElem?_some_of_lt v (2 * (h + 1) - 1) (by omega)
      have er := keyAt_of_getElem? key v _ r hr
      have el := keyAt_of_getElem? key v _ l hl
      by_cases hrl : key r < key l
      · have hmv := hole_move key v len top h (2 * (h + 1) - 1) l hinv (by omega) (by omega)
          (by omega) hl (by
            intro c' c1 c2 c3
            have : c' = 2 * (h + 1) - 1 ∨ c' = 2 * (h + 1) := by omega
            rcases this with rfl | rfl
            · exact le_refl _
            · rw [er, el]; omega)
        obtain ⟨w, h', hw, i1, i2, i3, i4, i5⟩ := ih (v.set h l) (2 * (h + 1) - 1) hmv (by omega)
        refine ⟨w, h', ?_, i1, i2, by simpa using i3, ?_, ?_⟩
        · simp only [adjust_heap_loop, hc, if_true, hr, hl, Option.bind_eq_bind,
            Option.some_bind, hrl, decide_True, store_some v h l (by omega), hw]
        · rw [i4, drop_set_lt v h len l hlt]
        · intro value
          exact (i5 value).trans (hole_perm v h _ l value (by omega) (by omega) hl)
      · have hmv := hole_move key v len top h (2 * (h + 1)) r hinv (by omega) (by omega)
          (by omega) hr (by
            intro c' c1 c2 c3
            have : c' = 2 * (h + 1) - 1 ∨ c' = 2 * (h + 1) := by omega
            rcases this with rfl | rfl
            · rw [er, el]; omega
            · exact le_refl _)
        obtain ⟨w, h', hw, i1, i2, i3, i4, i5⟩ := ih (v.set h r) (2 * (h + 1)) hmv (by omega)
        refine ⟨w, h', ?_, i1, i2, by simpa using i3, ?_, ?_⟩
        · simp only [adjust_heap_loop, hc, if_true, hr, hl, Option.bind_eq_bind,
            Option.some_bind, hrl, decide_False, Bool.false_eq_true, if_false,
            store_some v h r (by omega), hw]
        · rw [i4, drop_set_lt v h len r hlt]
        · intro value
          exact (i5 value).trans (hole_perm v h _ r value (by omega) (by omega) hr)
    · exact ⟨v, h, by simp only [adjust_heap_loop, hc, if_false], hinv, hc, rfl, rfl,
        fun _ => List.Perm.refl _⟩

/-- Moving the parent of the hole into the hole makes the parent the hole. -/
theorem hole_up (v : List α) (len top h : Nat) (y : α) (val : Int)
    (hinv : HoleInv key v len top h) (hth : top < h) (hy : v[(h - 1) / 2]? = some y)
    (hd : ∀ c, 1 ≤ c → c < len → (c - 1) / 2 = h → keyAt key v c ≤ val)
    (hlt : key y < val) :
    HoleInv key (v.set h y) len top ((h - 1) / 2) ∧
      ∀ c, 1 ≤ c → c < len → (c - 1) / 2 = (h - 1) / 2 → keyAt key (v.set h y) c ≤ val := by
  obtain ⟨hdesc, hl, hlen, ha, hb⟩ := hinv
  have ey := keyAt_of_getElem? key v _ y hy
  have hk : ∀ i, keyAt key (v.set h y) i
      = if i = h then keyAt key v ((h - 1) / 2) else keyAt key v i := by
    intro i
    rw [keyAt_set key v i h y (by omega), ey]
  have hdp := desc_parent hdesc hth
  have htp := desc_le hdp
  have hsib : ∀ c, 1 ≤ c → c < len → (c - 1) / 2 = (h - 1) / 2 → c ≠ h →
      keyAt key v c ≤ keyAt key v ((h - 1) / 2) := by
    intro c c1 c2 c3 c4
    have := ha c c1 c2 (by omega) c4 (by omega)
    rw [c3] at this
    exact this
  refine ⟨⟨hdp, by omega, by simpa using hlen, ?_, ?_⟩, ?_⟩
  · intro i i1 i2 i3 i4 i5
    rw [hk i, hk ((i - 1) / 2)]
    have e1 : i ≠ h := by rintro rfl; exact i5 rfl
    rw [if_neg e1]
    by_cases e2 : (i - 1) / 2 = h
    · rw [if_pos e2]
      exact hb hth i i1 i2 e2
    · rw [if_neg e2]
      exact ha i i1 i2 i3 e1 e2
  · intro htp2 c c1 c2 c3
    have hpp := desc_le (desc_parent hdp htp2)
    have hgrand : keyAt key v ((h - 1) / 2) ≤ keyAt key v (((h - 1) / 2 - 1) / 2) :=
      ha ((h - 1) / 2) (by omega) (by omega) hpp (by omega) (by omega)
    have e0 : ¬ ((h - 1) / 2 - 1) / 2 = h := by omega
    rw [hk c, hk (((h - 1) / 2 - 1) / 2), if_neg e0]
    by_cases e : c = h
    · rw [if_pos e]; exact hgrand
    · rw [if_neg e]
      have := hsib c c1 c2 c3 e
      omega
  · intro c c1 c2 c3
    rw [hk c]
    by_cases e : c = h
    · rw [if_pos e, ey]; omega
    · rw [if_neg e]
      have := hsib c c1 c2 c3 e
      rw [ey] at this
      omega

/-- The loop of `__push_heap` returns and restores the heap order from `top` on. -/
theorem push_heap_ok (len top : Nat) (value : α) :
    ∀ (fuel : Nat) (v : List α) (h : Nat), HoleInv key v len top h → h < fuel →
      (∀ c, 1 ≤ c → c < len → (c - 1) / 2 = h → keyAt key v c ≤ key value) →
      ∃ w, push_heap (fun a b => decide (key a < key b)) top value fuel v h = some w ∧
        HeapFrom key w len top ∧ w.length = v.length ∧ w.drop len = v.drop len ∧
        w.Perm (v.set h value) := by
  intro fuel
  induction fuel with
  | zero => intro v h _ hf; omega
  | succ fuel ih =>
    intro v h hinv hf hd
    have hl := hinv.2.1
    have hlen := hinv.2.2.1
    have hdesc := hinv.1
    have hstore : ∀ (hexit : top < h → key value ≤ keyAt key v ((h - 1) / 2)),
        HeapFrom key (v.set h value) len top := by
      intro hexit i i1 i2 i3
      obtain ⟨-, -, -, ha, hb⟩ := hinv
      rw [keyAt_set key v i h value (by omega), keyAt_set key v _ h value (by omega)]
      by_cases e1 : i = h
      · subst e1
        rw [if_pos rfl, if_neg (by omega)]
        exact hexit (by omega)
      · rw [if_neg e1]
        by_cases e2 : (i - 1) / 2 = h
        · rw [if_pos e2]; exact hd i i1 i2 e2
        · rw [if_neg e2]; exact ha i i1 i2 i3 e1 e2
    by_cases hth : top < h
    · obtain ⟨y, hy⟩ := getElem?_some_of_lt v ((h - 1) / 2) (by omega)
      have ey := keyAt_of_getElem? key v _ y hy
      by_cases hc : key y < key value
      · obtain ⟨hinv', hd'⟩ := hole_up key v len top h y (key value) hinv hth hy hd hc
        obtain ⟨w, hw, w1, w2, w3, w4⟩ := ih (v.set h y) ((h - 1) / 2) hinv' (by omega) hd'
        refine ⟨w, ?_, w1, by simpa using w2, ?_, ?_⟩
        · simp only [push_heap, gt_iff_lt, hth, if_true, hy, Option.bind_eq_bind,
            Option.some_bind, hc, decide_True, store_some v h y (by omega), hw]
        · rw [w3, drop_set_lt v h len y hl]
        · refine w4.trans ?_
          exact hole_perm v h ((h - 1) / 2) y value (by omega) (by omega) hy
      · refine ⟨v.set h value, ?_, hstore (fun _ => by rw [ey]; omega), by simp,
          drop_set_lt v h len value hl, List.Perm.refl _⟩
        simp only [push_heap, gt_iff_lt, hth, if_true, hy, Option.bind_eq_bind,
          Option.some_bind, hc, decide_False, Bool.false_eq_true, if_false,
          store_some v h value (by omega)]
    · refine ⟨v.set h value, ?_, hstore (fun h' => absurd h' hth), by simp,
        drop_set_lt v h len value hl, List.Perm.refl _⟩
      simp only [push_heap, gt_iff_lt, hth, if_false, store_some v h value (by omega)]

/-- The routine `__adjust_heap` returns and restores the heap order at `top`. -/
theorem adjust_heap_ok (v : List α) (top len : Nat) (value : α) (htl : top < len)
    (hlen : len ≤ v.length) (hheap : HeapFrom key v len (top + 1)) :
    ∃ w, adjust_heap (fun a b => decide (key a < key b)) v top len value = some w ∧
      HeapFrom key w len top ∧ w.length = v.length ∧ w.drop len = v.drop len ∧
      w.Perm (v.set top value) := by
  have hinv : HoleInv key v len top top := by
    refine ⟨Desc.refl, htl, hlen, ?_, fun h => absurd h (lt_irrefl _)⟩
    intro i i1 i2 i3 i4 i5
    exact hheap i i1 i2 (by omega)
  obtain ⟨w, h', hw, hinv', hleaf, hwl, hwd, hwp⟩ :=
    adjust_heap_loop_ok key len top (len + 1) v top hinv (by omega)
  have hl' := hinv'.2.1
  by_cases hc : len % 2 = 0 ∧ 2 ≤ len ∧ h' = (len - 2) / 2
  · obtain ⟨x, hx⟩ := getElem?_some_of_lt w (2 * (h' + 1) - 1) (by omega)
    have hmove : HoleInv key (w.set h' x) len top (2 * (h' + 1) - 1) := by
      refine hole_move key w len top h' _ x hinv' (by omega) (by omega) (by omega) hx ?_
      intro c c1 c2 c3
      have : c = 2 * (h' + 1) - 1 := by omega
      rw [this]
    obtain ⟨u, hu, u1, u2, u3, u4⟩ := push_heap_ok key len top value (len + 1) (w.set h' x)
      (2 * (h' + 1) - 1) hmove (by omega) (by intro c c1 c2 c3; omega)
    refine ⟨u, ?_, u1, by simpa [hwl] using u2, ?_, ?_⟩
    · simp only [adjust_heap, hw, Option.bind_eq_bind, Option.some_bind]
      rw [if_pos hc]
      simp only [Option.bind_eq_bind, hx, Option.some_bind, store_some w h' x (by omega), hu]
    · rw [u3, drop_set_lt w h' len x hl', hwd]
    · exact (u4.trans (hole_perm w h' _ x value (by omega) (by omega) hx)).trans (hwp value)
  · obtain ⟨u, hu, u1, u2, u3, u4⟩ := push_heap_ok key len top value (len + 1) w h' hinv'
      (by omega) (by intro c c1 c2 c3; omega)
    refine ⟨u, ?_, u1, by rw [u2, hwl], by rw [u3, hwd], u4.trans (hwp value)⟩
    simp only [adjust_heap, hw, Option.bind_eq_bind, Option.some_bind, hc, if_false, hu]

/-- In a heap every element is at most the root. -/
theorem heap_root_max (v : List α) (len : Nat) (hheap : HeapFrom key v len 0) :
    ∀ i, i < len → keyAt key v i ≤ keyAt key v 0 := by
  intro i
  induction i using Nat.strong_induction_on with
  | _ i ih =>
    intro hi
    by_cases h0 : i = 0
    · rw [h0]
    · have h1 := hheap i (by omega) hi (Nat.zero_le _)
      have h2 := ih ((i - 1) / 2) (by omega) (by omega)
      omega

theorem set_self (v : List α) (i : Nat) (x : α) (hx : v[i]? = some x) : v.set i x = v := by
  induction v generalizing i with
  | nil => rfl
  | cons a v ih =>
    cases i with
    | zero => simp at hx; simp [hx]
    | succ i => simp at hx; simp [ih i hx]

/-- The loop of `__make_heap` returns a heap that is a rearrangement of the range. -/
theorem make_heap_loop_ok (len : Nat) :
    ∀ (parent : Nat) (v : List α), parent < len → len ≤ v.length →
      HeapFrom key v len (parent + 1) →
      ∃ w, make_heap_loop (fun a b => decide (key a < key b)) len v parent = some w ∧
        HeapFrom key w len 0 ∧ w.Perm v := by
  intro parent
  induction parent with
  | zero =>
    intro v hp hlen hheap
    obtain ⟨x, hx⟩ := getElem?_some_of_lt v 0 (by omega)
    obtain ⟨w, hw, w1, w2, w3, w4⟩ := adjust_heap_ok key v 0 len x hp hlen hheap
    refine ⟨w, ?_, w1, ?_⟩
    · simp only [make_heap_loop, hx, Option.bind_eq_bind, Option.some_bind, hw]
    · rwa [set_self v 0 x hx] at w4
  | succ p ih =>
    intro v hp hlen hheap
    obtain ⟨x, hx⟩ := getElem?_some_of_lt v (p + 1) (by omega)
    obtain ⟨w, hw, w1, w2, w3, w4⟩ := adjust_heap_ok key v (p + 1) len x hp hlen hheap
    rw [set_self v (p + 1) x hx] at w4
    obtain ⟨u, hu, u1, u2⟩ := ih w (by omega) (by omega) w1
    refine ⟨u, ?_, u1, u2.trans w4⟩
    simp only [make_heap_loop, hx, Option.bind_eq_bind, Option.some_bind, hw, hu]

/-- The routine `__make_heap` returns a heap that is a rearrangement of the range. -/
theorem make_heap_ok (v : List α) (len : Nat) (hlen : len ≤ v.length) :
    ∃ w, make_heap (fun a b => decide (key a < key b)) v len = some w ∧
      HeapFrom key w len 0 ∧ w.Perm v := by
  by_cases h2 : len < 2
  · refine ⟨v, by simp only [make_heap, h2, if_true], ?_, List.Perm.refl _⟩
    intro i i1 i2 _
    omega
  · obtain ⟨w, hw, w1, w2⟩ := make_heap_loop_ok key len ((len - 2) / 2) v (by omega) hlen
      (by intro i i1 i2 i3; omega)
    exact ⟨w, by simp only [make_heap, h2, if_false, hw], w1, w2⟩

/-- The routine `__pop_heap` moves the root behind the heap and keeps the rest a heap. -/
theorem pop_heap_ok (v : List α) (n : Nat) (hn : 1 ≤ n) (hlen : n < v.length)
    (hheap : HeapFrom key v (n + 1) 0) :
    ∃ w, pop_heap (fun a b => decide (key a < key b)) v n n = some w ∧
      HeapFrom key w n 0 ∧ w.Perm v ∧ w.drop (n + 1) = v.drop (n + 1) ∧
      ∃ x, v[0]? = some x ∧ w[n]? = some x := by
  obtain ⟨value, hvalue⟩ := getElem?_some_of_lt v n hlen
  obtain ⟨x, hx⟩ := getElem?_some_of_lt v 0 (by omega)
  have hheap1 : HeapFrom key (v.set n x) n 1 := by
    intro i i1 i2 i3
    rw [keyAt_set key v i n x hlen, keyAt_set key v _ n x hlen, if_neg (by omega),
      if_neg (by omega)]
    exact hheap i i1 (by omega) (Nat.zero_le _)
  obtain ⟨w, hw, w1, w2, w3, w4⟩ :=
    adjust_heap_ok key (v.set n x) 0 n value (by omega) (by simp; omega) hheap1
  refine ⟨w, ?_, w1, w4.trans (swap_perm v n 0 value x hvalue hx), ?_, x, hx, ?_⟩
  · simp only [pop_heap, hvalue, hx, Option.bind_eq_bind, Option.some_bind,
      store_some v n x hlen, hw]
  · have h1 : (w.drop n).drop 1 = ((v.set n x).drop n).drop 1 := by rw [w3]
    rw [List.drop_drop, List.drop_drop] at h1
    rw [h1, drop_set_lt v n (n + 1) x (by omega)]
  · have h1 : (w.drop n)[0]? = ((v.set n x).drop n)[0]? := by rw [w3]
    rw [List.getElem?_drop, List.getElem?_drop] at h1
    simp only [Nat.add_zero] at h1
    rw [h1]
    simp [hlen]

/-- Two rearrangements with the same tail have rearranged fronts. -/
theorem perm_take_of_drop (w v : List α) (n : Nat) (hp : w.Perm v)
    (hd : w.drop n = v.drop n) : (w.take n).Perm (v.take n) := by
  have h1 : (w.take n ++ w.drop n).Perm (v.take n ++ v.drop n) := by
    rw [List.take_append_drop, List.take_append_drop]; exact hp
  rw [hd] at h1
  exact (List.perm_append_right_iff _).1 h1

/-- The routine `__sort_heap` returns a rearrangement whose first element is a least one. -/
theorem sort_heap_ok :
    ∀ (last : Nat) (v : List α), 1 ≤ last → last ≤ v.length → HeapFrom key v last 0 →
      (∀ x ∈ v.take last, ∀ z ∈ v.drop last, key x ≤ key z) →
      ∃ w, sort_heap (fun a b => decide (key a < key b)) v last = some w ∧ w.Perm v ∧
        ∀ x ∈ w.take 1, ∀ z ∈ w.drop 1, key x ≤ key z := by
  intro last
  induction last with
  | zero => intro v h; omega
  | succ n ih =>
    intro v _ hlen hheap hsep
    by_cases h1 : n + 1 > 1
    · obtain ⟨w, hw, w1, w2, w3, x, hx, hwx⟩ := pop_heap_ok key v n (by omega) (by omega) hheap
      have hroot := heap_root_max key v (n + 1) hheap
      have hk0 := keyAt_of_getElem? key v 0 x hx
      have hwl : w.length = v.length := w2.length_eq
      have htake := perm_take_of_drop w v (n + 1) w2 w3
      have hsep2 : ∀ y ∈ w.take n, ∀ z ∈ w.drop n, key y ≤ key z := by
        intro y hy z hz
        have hy1 : y ∈ v.take (n + 1) :=
          htake.subset (List.take_subset_take_left w (Nat.le_succ n) hy)
        have hdn : w.drop n = x :: v.drop (n + 1) := by
          have hnl : n < w.length := by omega
          rw [← w3, List.drop_eq_getElem_cons hnl]
          rw [List.getElem?_eq_getElem hnl] at hwx
          rw [Option.some.inj hwx]
        rw [hdn] at hz
        rcases List.mem_cons.1 hz with hz | hz
        · obtain ⟨i, i1, i2, i3⟩ := key_of_mem_take key v (n + 1) y hy1
          have := hroot i i1
          rw [hz]
          omega
        · exact hsep y hy1 z hz
      obtain ⟨u, hu, u1, u2⟩ := ih w (by omega) (by omega) w1 hsep2
      refine ⟨u, ?_, u1.trans w2, u2⟩
      simp only [sort_heap, h1, if_true, hw, Option.bind_eq_bind, Option.some_bind, hu]
    · have hn : n = 0 := by omega
      subst hn
      exact ⟨v, by simp only [sort_heap, h1, if_false], List.Perm.refl _, hsep⟩

/-- A range whose first element is a least one is guarded. -/
theorem guarded_of_head (w : List α)
    (h : ∀ x ∈ w.take 1, ∀ z ∈ w.drop 1, key x ≤ key z) : Guarded key w := by
  intro z hz
  cases w with
  | nil => simp at hz
  | cons a w =>
    refine ⟨a, by simp, ?_⟩
    have hz1 : z ∈ (a :: w).drop 1 := by
      have : ((a :: w).drop 1).drop 15 = (a :: w).drop 16 := by rw [List.drop_drop]
      rw [← this] at hz
      exact List.mem_of_mem_drop hz
    exact h a (by simp) z hz1

/-- The heap sort fallback `__partial_sort(first, last, last)` returns a guarded
rearrangement. -/
theorem partial_sort_ok (v : List α) (hlen : 1 ≤ v.length) :
    ∃ w, partial_sort (fun a b => decide (key a < key b)) v v.length v.length = some w ∧
      w.Perm v ∧ Guarded key w := by
  obtain ⟨h, hh, h1, h2⟩ := make_heap_ok key v v.length (le_refl _)
  have hl : h.length = v.length := h2.length_eq
  obtain ⟨w, hw, w1, w2⟩ := sort_heap_ok key v.length h hlen (by omega) h1
    (by intro x _ z hz; rw [← hl, List.drop_length] at hz; simp at hz)
  refine ⟨w, ?_, w1.trans h2, guarded_of_head key w w2⟩
  simp only [partial_sort, heap_select, hh, Option.bind_eq_bind, Option.some_bind,
    Nat.sub_self, heap_select_loop, hw]

/-- The routine `__introsort_loop` returns a guarded rearrangement of the range. -/
theorem introsort_loop_ok :
    ∀ (depth : Nat) (v : List α),
      ∃ w, introsort_loop (fun a b => decide (key a < key b)) depth v = some w ∧
        w.Perm v ∧ Guarded key w := by
  intro depth
  induction depth with
  | zero =>
    intro v
    by_cases hlen : v.length > 16
    · obtain ⟨w, hw, w1, w2⟩ := partial_sort_ok key v (by omega)
      exact ⟨w, by simp only [introsort_loop, hlen, if_true, hw], w1, w2⟩
    · refine ⟨v, by simp only [introsort_loop, hlen, if_false], List.Perm.refl _, ?_⟩
      intro z hz
      rw [List.drop_of_length_le (by omega)] at hz
      simp at hz
  | succ d ih =>
    intro v
    by_cases hlen : v.length > 16
    · obtain ⟨cut, u, hu, u1, u2, u3, u4⟩ := unguarded_partition_pivot_ok key v hlen
      obtain ⟨r, hr, r1, r2⟩ := ih (u.drop cut)
      obtain ⟨l, hl, l1, l2⟩ := ih (u.take cut)
      have hul : u.length = v.length := u1.length_eq
      have hll : l.length = cut := by
        rw [l1.length_eq, List.length_take]; omega
      refine ⟨l ++ r, ?_, ?_, ?_⟩
      · simp only [introsort_loop, hlen, if_true, hu, Option.bind_eq_bind, Option.some_bind,
          hr, hl]
      · have := l1.append r1
        rw [List.take_append_drop] at this
        exact this.trans u1
      · intro z hz
        rw [List.drop_append_eq_append_drop] at hz
        rcases List.mem_append.1 hz with hz | hz
        · obtain ⟨y, hy, hyz⟩ := l2 z hz
          refine ⟨y, ?_, hyz⟩
          rw [List.take_append_eq_append_take]
          exact List.mem_append_left _ hy
        · cases l with
          | nil => simp at hll; omega
          | cons a l =>
            refine ⟨a, by simp, ?_⟩
            exact u4 a (l1.subset (by simp)) z (r1.subset (List.mem_of_mem_drop hz))
    · refine ⟨v, by simp only [introsort_loop, hlen, if_false], List.Perm.refl _, ?_⟩
      intro z hz
      rw [List.drop_of_length_le (by omega)] at hz
      simp at hz

/-- The model of `std::sort` under a comparison by key returns a rearrangement of its input that
is in non-decreasing order of the key. -/
theorem sort_ok (v : List α) :
    ∃ w, sort (fun a b => decide (key a < key b)) v = some w ∧ w.Perm v ∧
      w.Pairwise (fun a b => key a ≤ key b) := by
  by_cases he : v.isEmpty = true
  · refine ⟨v, by simp only [sort, he, if_true], List.Perm.refl _, ?_⟩
    rw [List.isEmpty_iff.1 he]
    exact List.Pairwise.nil
  · obtain ⟨u, hu, u1, u2⟩ := introsort_loop_ok key (lg v.length * 2) v
    obtain ⟨w, hw, w1, w2⟩ := final_insertion_sort_ok key u u2
    refine ⟨w, ?_, w1.trans u1, w2⟩
    simp only [sort, he, Bool.false_eq_true, if_false, hu, Option.bind_eq_bind,
      Option.some_bind, hw]

end HeapProofs

/-- C2: the ordering step of `main` returns, for every list of records, a rearrangement of the
list in which the timestamps never decrease from one record to the next. -/
theorem C2_sort_ascending (items : List media) :
    ∃ out, sort_items items = some out ∧ out.Perm items ∧
      out.Pairwise (fun a b => a.timestamp_ms ≤ b.timestamp_ms) :=
  sort_ok media.timestamp_ms items
/-! ## The renaming loop -/

theorem rename_step_dry (dir base_name : String) (w c : Int) (m : media) (fs : Finset String) :
    rename_step dir base_name true w c m fs =
      some (fs, "[dry-run] " ++ filename m.path ++ " -> " ++ new_name base_name w c m ++ "\n") := by
  simp only [rename_step, if_true]

theorem rename_step_exists (dir base_name : String) (w c : Int) (m : media) (fs : Finset String)
    (h : path_append dir (new_name base_name w c m) ∈ fs) :
    rename_step dir base_name false w c m fs =
      some (fs, "file exists, skipping: " ++ new_name base_name w c m ++ "\n") := by
  simp only [rename_step, Bool.false_eq_true, if_false, fs_exists, h, decide_True, if_true]

theorem rename_step_free (dir base_name : String) (w c : Int) (m : media) (fs : Finset String)
    (h : path_append dir (new_name base_name w c m) ∉ fs) (hs : m.path ∈ fs) :
    rename_step dir base_name false w c m fs =
      some (insert (path_append dir (new_name base_name w c m)) (fs.erase m.path),
        "renamed: " ++ filename m.path ++ " -> " ++ new_name base_name w c m ++ "\n") := by
  simp only [rename_step, Bool.false_eq_true, if_false, fs_exists, h, decide_False, fs_rename, hs,
    if_true, Option.bind_eq_bind, Option.some_bind]

theorem rename_loop_cons (dir base_name : String) (dry_run : Bool) (w c : Int) (x : media)
    (xs : List media) (fs : Finset String) :
    rename_loop dir base_name dry_run w c (x :: xs) fs =
      (rename_step dir base_name dry_run w c x fs).bind (fun s =>
        if c = 2147483647 then none
        else (rename_loop dir base_name dry_run w (c + 1) xs s.1).bind (fun r =>
          some (r.1, s.2 :: r.2))) := by
  simp only [rename_loop, Option.bind_eq_bind]

/-- The loop over a list with one more record at its end is the loop over the list, then one
round for that record, then the increment. -/
theorem rename_loop_snoc (dir base_name : String) (dry_run : Bool) (w : Int) (m : media) :
    ∀ (xs : List media) (c : Int) (fs : Finset String),
      rename_loop dir base_name dry_run w c (xs ++ [m]) fs =
        (rename_loop dir base_name dry_run w c xs fs).bind (fun r =>
          (rename_step dir base_name dry_run w (c + xs.length) m r.1).bind (fun s =>
            if c + xs.length = 2147483647 then none else some (s.1, r.2 ++ [s.2]))) := by
  intro xs
  induction xs with
  | nil =>
    intro c fs
    rw [List.nil_append, rename_loop_cons]
    simp only [rename_loop, List.length_nil, Nat.cast_zero, add_zero, Option.some_bind,
      List.nil_append]
  | cons x xs ih =>
    intro c fs
    rw [List.cons_append, rename_loop_cons, rename_loop_cons]
    have e : c + ((x :: xs).length : Int) = c + 1 + (xs.length : Int) := by
      simp only [List.length_cons, Nat.cast_add, Nat.cast_one]; ring
    rw [e]
    cases rename_step dir base_name dry_run w c x fs with
    | none => rfl
    | some s =>
      simp only [Option.some_bind]
      split
      · rfl
      · rw [ih (c + 1) s.1]
        cases rename_loop dir base_name dry_run w (c + 1) xs s.1 with
        | none => rfl
        | some r =>
          simp only [Option.some_bind]
          cases rename_step dir base_name dry_run w (c + 1 + (xs.length : Int)) m r.1 with
          | none => rfl
          | some t =>
            simp only [Option.some_bind]
            split
            · rfl
            · simp only [Option.some_bind, List.cons_append]

/-! ### Names and paths -/

theorem takeWhile_stop (q : Char → Bool) (l r : List Char) (a : Char) (hl : ∀ x ∈ l, q x = true)
    (ha : q a = false) : (l ++ a :: r).takeWhile q = l := by
  rw [List.takeWhile_append_of_pos hl, List.takeWhile_cons_of_neg (by simp [ha])]
  simp

theorem filename_no_sep (p : String) : ∀ x ∈ (filename p).data, x ≠ '/' := by
  intro x hx
  simp only [filename, List.mem_reverse] at hx
  have := List.mem_takeWhile_imp hx
  simpa using this

theorem filename_of_no_sep (name : String) (h : ∀ x ∈ name.data, x ≠ '/') :
    filename name = name := by
  apply String.ext
  simp only [filename]
  rw [List.takeWhile_eq_self_iff.2 (by intro x hx; simpa using h x (List.mem_reverse.1 hx)),
    List.reverse_reverse]

theorem filename_append_sep (pre name : List Char) (h : ∀ x ∈ name, x ≠ '/') :
    filename (String.mk (pre ++ '/' :: name)) = String.mk name := by
  apply String.ext
  simp only [filename, List.reverse_append, List.reverse_cons, List.append_assoc,
    List.singleton_append]
  rw [takeWhile_stop _ name.reverse _ '/' (by intro x hx; simpa using h x (List.mem_reverse.1 hx))
    (by decide), List.reverse_reverse]

/-- A name without separator appended to a directory is an entry of the directory that has this
name. -/
theorem filename_path_append (dir name : String)
    (h : ∀ x ∈ name.data, x ≠ '/') :
    filename (path_append dir name) = name ∧
      path_append dir (filename (path_append dir name)) = path_append dir name := by
  have hhead : ¬ name.data.head? = some '/' := by
    intro hc
    obtain ⟨ys, hys⟩ := List.head?_eq_some_iff.1 hc
    exact h '/' (by rw [hys]; simp) rfl
  have key : filename (path_append dir name) = name := by
    unfold path_append
    by_cases hd : dir.data = []
    · simp only [hhead, hd, or_true, if_true]
      exact filename_of_no_sep name h
    · simp only [hhead, hd, or_false, if_false]
      split
      · rename_i hl
        obtain ⟨ys, hys⟩ := List.getLast?_eq_some_iff.1 hl
        have e : dir ++ name = String.mk (ys ++ '/' :: name.data) := by
          apply String.ext
          simp [hys]
        rw [e, filename_append_sep ys name.data h]
      · have e : dir ++ "/" ++ name = String.mk (dir.data ++ '/' :: name.data) := by
          apply String.ext
          simp
        rw [e, filename_append_sep dir.data name.data h]
  exact ⟨key, by rw [key]⟩

theorem extension_subset (p : String) : ∀ x ∈ (extension p).data, x ∈ (filename p).data := by
  intro x hx
  unfold extension at hx
  simp only at hx
  split at hx
  · simp at hx
  · split at hx
    · simp at hx
    · split at hx
      · simp at hx
      · exact List.mem_of_mem_drop hx

theorem to_string_no_sep (c : Int) : ∀ x ∈ to_string c, x ≠ '/' := by
  intro x hx
  have hd : ∀ n : Nat, ∀ y ∈ Nat.toDigits 10 n, y ≠ '/' := by
    intro n y hy hc
    have := (toDigits_spec n).1 y hy
    rw [hc] at this
    exact absurd this (by decide)
  unfold to_string at hx
  split at hx
  · rcases List.mem_cons.1 hx with h | h
    · rw [h]; decide
    · exact hd _ x h
  · exact hd _ x hx

theorem new_name_data (base_name : String) (w c : Int) (m : media) :
    (new_name base_name w c m).data =
      base_name.data ++ '_' :: (num_str w c ++ (extension m.path).data) := by
  simp [new_name]

theorem new_name_no_sep (base_name : String) (w c : Int) (m : media)
    (h : ∀ x ∈ base_name.data, x ≠ '/') : ∀ x ∈ (new_name base_name w c m).data, x ≠ '/' := by
  intro x hx
  rw [new_name_data] at hx
  simp only [List.mem_append, List.mem_cons, num_str, List.mem_replicate] at hx
  rcases hx with hx | hx | (hx | hx) | hx
  · exact h x hx
  · rw [hx]; decide
  · rw [hx.2]; decide
  · exact to_string_no_sep c x hx
  · exact filename_no_sep m.path x (extension_subset m.path x hx)

theorem new_name_ne_nil (base_name : String) (w c : Int) (m : media) :
    (new_name base_name w c m).data ≠ [] := by
  rw [new_name_data]
  simp

/-! ### The loop position by position -/

theorem rename_loop_take_succ (dir base_name : String) (dry_run : Bool) (w c : Int)
    (items : List media) (fs : Finset String) (k : Nat) (m : media) (hk : items[k]? = some m) :
    rename_loop dir base_name dry_run w c (items.take (k + 1)) fs =
      (rename_loop dir base_name dry_run w c (items.take k) fs).bind (fun r =>
        (rename_step dir base_name dry_run w (c + k) m r.1).bind (fun s =>
          if c + k = 2147483647 then none else some (s.1, r.2 ++ [s.2]))) := by
  have hlt : k < items.length := by
    by_contra hc
    rw [List.getElem?_eq_none (by omega)] at hk
    exact absurd hk (by simp)
  have hlen : (items.take k).length = k := by
    rw [List.length_take]; omega
  rw [List.take_succ, hk, Option.toList_some, rename_loop_snoc, hlen]

theorem rename_loop_dry_ok (dir base_name : String) (w : Int) :
    ∀ (items : List media) (c : Int) (fs : Finset String), c + items.length ≤ 2147483647 →
      ∃ lines, rename_loop dir base_name true w c items fs = some (fs, lines) ∧
        lines.length = items.length ∧
        ∀ (k : Nat) (m : media), items[k]? = some m →
          lines[k]? = some ("[dry-run] " ++ filename m.path ++ " -> "
            ++ new_name base_name w (c + k) m ++ "\n") := by
  intro items
  induction items with
  | nil =>
    intro c fs _
    exact ⟨[], rfl, rfl, by intro k m h; simp at h⟩
  | cons x xs ih =>
    intro c fs hc
    simp only [List.length_cons, Nat.cast_add, Nat.cast_one] at hc
    obtain ⟨lines, h1, h2, h3⟩ := ih (c + 1) fs (by omega)
    have hne : ¬ c = 2147483647 := by omega
    refine ⟨("[dry-run] " ++ filename x.path ++ " -> " ++ new_name base_name w c x ++ "\n")
      :: lines, ?_, by simp [h2], ?_⟩
    · rw [rename_loop_cons, rename_step_dry]
      simp only [Option.some_bind, hne, if_false, h1]
    · intro k m hk
      cases k with
      | zero =>
        simp only [List.getElem?_cons_zero, Option.some.injEq] at hk
        simp [hk]
      | succ k =>
        simp only [List.getElem?_cons_succ] at hk
        have := h3 k m hk
        simp only [List.getElem?_cons_succ, this, Nat.cast_add, Nat.cast_one]
        have e : c + 1 + (k : Int) = c + ((k : Int) + 1) := by ring
        rw [e]

theorem rename_step_real_line (dir base_name : String) (w c : Int) (m : media)
    (fs fs' : Finset String) (line : String)
    (h : rename_step dir base_name false w c m fs = some (fs', line)) :
    line = "renamed: " ++ filename m.path ++ " -> " ++ new_name base_name w c m ++ "\n" ∨
      line = "file exists, skipping: " ++ new_name base_name w c m ++ "\n" := by
  by_cases hex : path_append dir (new_name base_name w c m) ∈ fs
  · rw [rename_step_exists dir base_name w c m fs hex] at h
    simp only [Option.some.injEq, Prod.mk.injEq] at h
    exact Or.inr h.2.symm
  · by_cases hs : m.path ∈ fs
    · rw [rename_step_free dir base_name w c m fs hex hs] at h
      simp only [Option.some.injEq, Prod.mk.injEq] at h
      exact Or.inl h.2.symm
    · simp [rename_step, fs_exists, hex, fs_rename, hs] at h

theorem rename_loop_real_lines (dir base_name : String) (w : Int) :
    ∀ (items : List media) (c : Int) (fs fs' : Finset String) (lines : List String),
      rename_loop dir base_name false w c items fs = some (fs', lines) →
      lines.length = items.length ∧
      ∀ (k : Nat) (m : media), items[k]? = some m →
        lines[k]? = some ("renamed: " ++ filename m.path ++ " -> "
          ++ new_name base_name w (c + k) m ++ "\n") ∨
        lines[k]? = some ("file exists, skipping: " ++ new_name base_name w (c + k) m ++ "\n") := by
  intro items
  induction items with
  | nil =>
    intro c fs fs' lines h
    simp only [rename_loop, Option.some.injEq, Prod.mk.injEq] at h
    exact ⟨by rw [← h.2]; rfl, by intro k m hk; simp at hk⟩
  | cons x xs ih =>
    intro c fs fs' lines h
    rw [rename_loop_cons] at h
    cases hs : rename_step dir base_name false w c x fs with
    | none => rw [hs] at h; simp at h
    | some s =>
      rw [hs] at h
      simp only [Option.some_bind] at h
      split at h
      · simp at h
      · cases hr : rename_loop dir base_name false w (c + 1) xs s.1 with
        | none => rw [hr] at h; simp at h
        | some r =>
          rw [hr] at h
          simp only [Option.some_bind, Option.some.injEq, Prod.mk.injEq] at h
          obtain ⟨r1, r2⟩ := ih (c + 1) s.1 r.1 r.2 hr
          refine ⟨by rw [← h.2]; simp [r1], ?_⟩
          intro k m hk
          rw [← h.2]
          cases k with
          | zero =>
            simp only [List.getElem?_cons_zero, Option.some.injEq] at hk
            simp only [List.getElem?_cons_zero, Nat.cast_zero, add_zero, Option.some.injEq]
            rw [← hk]
            exact rename_step_real_line dir base_name w c x fs s.1 s.2 hs
          | succ k =>
            simp only [List.getElem?_cons_succ] at hk
            have := r2 k m hk
            simp only [List.getElem?_cons_succ, Nat.cast_add, Nat.cast_one]
            have e : c + ((k : Int) + 1) = c + 1 + (k : Int) := by ring
            rw [e]
            exact this

/-- At 2147483647 or more records the loop reaches the increment of the counter 2147483647 (or
an exception before it): it returns no value. -/
theorem rename_loop_overflow (dir base_name : String) (dry_run : Bool) (w : Int) :
    ∀ (items : List media) (c : Int) (fs : Finset String), c ≤ 2147483647 →
      2147483647 < c + items.length → rename_loop dir base_name dry_run w c items fs = none := by
  intro items
  induction items with
  | nil =>
    intro c fs h1 h2
    simp only [List.length_nil, Nat.cast_zero, add_zero] at h2
    omega
  | cons x xs ih =>
    intro c fs h1 h2
    simp only [List.length_cons, Nat.cast_add, Nat.cast_one] at h2
    rw [rename_loop_cons]
    cases rename_step dir base_name dry_run w c x fs with
    | none => rfl
    | some s =>
      simp only [Option.some_bind]
      split
      · rfl
      · rw [ih (c + 1) s.1 (by omega) (by omega)]
        rfl

/-! ### The real run on distinct sources of the directory -/

theorem entries_rename (dir : String) (fs : Finset String) (src dst : String)
    (hdst : filename dst ≠ "" ∧ path_append dir (filename dst) = dst) :
    directory_entries dir (insert dst (fs.erase src)) =
      insert dst ((directory_entries dir fs).erase src) := by
  ext x
  simp only [directory_entries, Finset.mem_filter, Finset.mem_insert, Finset.mem_erase]
  constructor
  · rintro ⟨h | h, h2⟩
    · exact Or.inl h
    · exact Or.inr ⟨h.1, h.2, h2⟩
  · rintro (h | ⟨h1, h2, h3⟩)
    · subst h
      exact ⟨Or.inl rfl, hdst⟩
    · exact ⟨Or.inr ⟨h1, h2⟩, h3⟩

theorem ne_empty_of_data (s : String) (h : s.data ≠ []) : s ≠ "" := by
  intro hc
  rw [hc] at h
  exact h rfl

/-- The state of the real run before each position: the run got there, the number of existing
paths and the number of entries of the directory are those of the start, and the sources not
yet processed are entries of the directory. -/
theorem rename_loop_real_inv (dir base_name : String) (w : Int) (items : List media)
    (fs : Finset String) (hn : items.length < 2147483647)
    (hbase : ∀ x ∈ base_name.data, x ≠ '/') (hnd : (items.map media.path).Nodup)
    (hsrc : ∀ m ∈ items, m.path ∈ directory_entries dir fs) :
    ∀ k, k ≤ items.length → ∃ fsk outk,
      rename_loop dir base_name false w 1 (items.take k) fs = some (fsk, outk) ∧
      fsk.card = fs.card ∧
      (directory_entries dir fsk).card = (directory_entries dir fs).card ∧
      ∀ (j : Nat) (m : media), k ≤ j → items[j]? = some m →
        m.path ∈ directory_entries dir fsk := by
  intro k
  induction k with
  | zero =>
    intro _
    refine ⟨fs, [], by simp [rename_loop], rfl, rfl, ?_⟩
    intro j m _ hj
    exact hsrc m (List.getElem?_mem hj)
  | succ k ih =>
    intro hk
    obtain ⟨fsk, outk, h1, h2, h3, h4⟩ := ih (by omega)
    obtain ⟨m, hm⟩ := getElem?_some_of_lt items k (by omega)
    have hme := h4 k m (le_refl _) hm
    have hmem : m.path ∈ fsk := (Finset.mem_filter.1 hme).1
    have hc : ¬ (1 : Int) + (k : Int) = 2147483647 := by omega
    rw [rename_loop_take_succ dir base_name false w 1 items fs k m hm, h1]
    simp only [Option.some_bind]
    by_cases hex : path_append dir (new_name base_name w (1 + k) m) ∈ fsk
    · rw [rename_step_exists dir base_name w (1 + k) m fsk hex]
      simp only [Option.some_bind, hc, if_false]
      exact ⟨fsk, _, rfl, h2, h3, fun j mj hj hmj => h4 j mj (by omega) hmj⟩
    · rw [rename_step_free dir base_name w (1 + k) m fsk hex hmem]
      simp only [Option.some_bind, hc, if_false]
      have hns := new_name_no_sep base_name w (1 + k) m hbase
      have hfp := filename_path_append dir (new_name base_name w (1 + k) m) hns
      have hdst : filename (path_append dir (new_name base_name w (1 + k) m)) ≠ "" ∧
          path_append dir (filename (path_append dir (new_name base_name w (1 + k) m)))
            = path_append dir (new_name base_name w (1 + k) m) := by
        refine ⟨?_, hfp.2⟩
        rw [hfp.1]
        exact ne_empty_of_data _ (new_name_ne_nil base_name w (1 + k) m)
      refine ⟨_, _, rfl, ?_, ?_, ?_⟩
      · rw [Finset.card_insert_of_not_mem (fun hc' => hex (Finset.mem_of_mem_erase hc')),
          Finset.card_erase_add_one hmem, h2]
      · have hnot : path_append dir (new_name base_name w (1 + k) m) ∉
            (directory_entries dir fsk).erase m.path := fun hc' =>
          hex (Finset.mem_filter.1 (Finset.mem_of_mem_erase hc')).1
        rw [entries_rename dir fsk m.path _ hdst, Finset.card_insert_of_not_mem hnot,
          Finset.card_erase_add_one hme, h3]
      · intro j mj hj hmj
        rw [entries_rename dir fsk m.path _ hdst]
        refine Finset.mem_insert_of_mem (Finset.mem_erase.2 ⟨?_, h4 j mj (by omega) hmj⟩)
        intro heq
        have e1 : (items.map media.path)[k]? = (items.map media.path)[j]? := by
          rw [List.getElem?_map, List.getElem?_map, hm, hmj, Option.map_some', Option.map_some',
            heq]
        have := List.getElem?_inj (by rw [List.length_map]; omega) hnd e1
        omega

/-- The real run over distinct sources that exist returns: no source is missing at its turn. -/
theorem rename_loop_real_returns (dir base_name : String) (w : Int) (items : List media)
    (fs : Finset String) (hn : items.length < 2147483647)
    (hnd : (items.map media.path).Nodup) (hsrc : ∀ m ∈ items, m.path ∈ fs) :
    ∃ fs' lines, rename_loop dir base_name false w 1 items fs = some (fs', lines) := by
  have inv : ∀ k, k ≤ items.length → ∃ fsk outk,
      rename_loop dir base_name false w 1 (items.take k) fs = some (fsk, outk) ∧
      ∀ (j : Nat) (m : media), k ≤ j → items[j]? = some m → m.path ∈ fsk := by
    intro k
    induction k with
    | zero =>
      intro _
      exact ⟨fs, [], by simp [rename_loop], fun j m _ hj => hsrc m (List.getElem?_mem hj)⟩
    | succ k ih =>
      intro hk
      obtain ⟨fsk, outk, h1, h4⟩ := ih (by omega)
      obtain ⟨m, hm⟩ := getElem?_some_of_lt items k (by omega)
      have hmem : m.path ∈ fsk := h4 k m (le_refl _) hm
      have hc : ¬ (1 : Int) + (k : Int) = 2147483647 := by omega
      rw [rename_loop_take_succ dir base_name false w 1 items fs k m hm, h1]
      simp only [Option.some_bind]
      by_cases hex : path_append dir (new_name base_name w (1 + k) m) ∈ fsk
      · rw [rename_step_exists dir base_name w (1 + k) m fsk hex]
        simp only [Option.some_bind, hc, if_false]
        exact ⟨fsk, _, rfl, fun j mj hj hmj => h4 j mj (by omega) hmj⟩
      · rw [rename_step_free dir base_name w (1 + k) m fsk hex hmem]
        simp only [Option.some_bind, hc, if_false]
        refine ⟨_, _, rfl, ?_⟩
        intro j mj hj hmj
        refine Finset.mem_insert_of_mem (Finset.mem_erase.2 ⟨?_, h4 j mj (by omega) hmj⟩)
        intro heq
        have e1 : (items.map media.path)[k]? = (items.map media.path)[j]? := by
          rw [List.getElem?_map, List.getElem?_map, hm, hmj, Option.map_some', Option.map_some',
            heq]
        have := List.getElem?_inj (by rw [List.length_map]; omega) hnd e1
        omega
  obtain ⟨fs', lines, h, -⟩ := inv items.length (le_refl _)
  rw [List.take_length] at h
  exact ⟨fs', lines, h⟩

/-- C13, refuted as stated: over a list of 2147483647 records the counter stands at 2147483647
behind the last record and its increment `counter++` has no defined result: the dry run returns
no value. -/
theorem C13_counter_overflow :
    rename_loop "/d" "trip" true (width 2147483647) 1
      (List.replicate 2147483647 ⟨"/d/a.jpg", 0⟩) {"/d/a.jpg"} = none :=
  rename_loop_overflow "/d" "trip" true _ _ 1 _ (by norm_num)
    (by rw [List.length_replicate]; norm_num)

/-- C13, amended: a dry run over any list of fewer than 2147483647 records (the range of the `int`
counter) returns with the filesystem it started from and prints, for the record at each position
`k` (from 0), the line with the record's filename and the destination name of position `k + 1`;
a real run over the same list prints for that position a line with the same destination name,
either as a rename of the same filename or as a skip. -/
theorem C13_dry_run_changes_nothing (dir base_name : String) (items : List media)
    (fs : Finset String) (hn : items.length < 2147483647) :
    ∃ lines,
      rename_loop dir base_name true (width items.length) 1 items fs = some (fs, lines) ∧
      lines.length = items.length ∧
      ∀ (k : Nat) (m : media), items[k]? = some m →
        lines[k]? = some ("[dry-run] " ++ filename m.path ++ " -> "
          ++ new_name base_name (width items.length) ((k : Int) + 1) m ++ "\n") ∧
        ∀ (fs' : Finset String) (lines' : List String),
          rename_loop dir base_name false (width items.length) 1 items fs = some (fs', lines') →
          lines'[k]? = some ("renamed: " ++ filename m.path ++ " -> "
            ++ new_name base_name (width items.length) ((k : Int) + 1) m ++ "\n") ∨
          lines'[k]? = some ("file exists, skipping: "
            ++ new_name base_name (width items.length) ((k : Int) + 1) m ++ "\n") := by
  obtain ⟨lines, h1, h2, h3⟩ :=
    rename_loop_dry_ok dir base_name (width items.length) items 1 fs (by omega)
  refine ⟨lines, h1, h2, ?_⟩
  intro k m hk
  rw [add_comm (k : Int) 1]
  refine ⟨h3 k m hk, ?_⟩
  intro fs' lines' hr
  exact (rename_loop_real_lines dir base_name (width items.length) items 1 fs fs' lines' hr).2
    k m hk

/-- C13, amended, on the three files of `/d` with base name `trip`. -/
theorem C13_dry_run_changes_nothing_witness :
    ordered_files.length < 2147483647 ∧
    ∃ lines,
      rename_loop "/d" "trip" true (width ordered_files.length) 1 ordered_files files_of_d
        = some (files_of_d, lines) ∧
      lines.length = ordered_files.length ∧
      ∀ (k : Nat) (m : media), ordered_files[k]? = some m →
        lines[k]? = some ("[dry-run] " ++ filename m.path ++ " -> "
          ++ new_name "trip" (width ordered_files.length) ((k : Int) + 1) m ++ "\n") ∧
        ∀ (fs' : Finset String) (lines' : List String),
          rename_loop "/d" "trip" false (width ordered_files.length) 1 ordered_files files_of_d
            = some (fs', lines') →
          lines'[k]? = some ("renamed: " ++ filename m.path ++ " -> "
            ++ new_name "trip" (width ordered_files.length) ((k : Int) + 1) m ++ "\n") ∨
          lines'[k]? = some ("file exists, skipping: "
            ++ new_name "trip" (width ordered_files.length) ((k : Int) + 1) m ++ "\n") :=
  ⟨by decide, C13_dry_run_changes_nothing "/d" "trip" ordered_files files_of_d (by decide)⟩

/-- C12: in a real run that has reached position `k` (from 0) with the destination path of that
position in the filesystem, the round for that position leaves the filesystem as it was and
prints the line of the skip, and so does the run up to and with that position (it has no result
only where the `int` counter stands at 2147483647 and cannot be incremented). At every later
position `j` that the run reaches with the source present and the destination path of index
`j + 1` free, the round renames the source to that path. -/
theorem C12_existing_destination_skipped (dir base_name : String) (items : List media)
    (fs fsk : Finset String) (outk : List String) (k : Nat) (m : media)
    (hk : items[k]? = some m)
    (hpre : rename_loop dir base_name false (width items.length) 1 (items.take k) fs
      = some (fsk, outk))
    (hex : path_append dir (new_name base_name (width items.length) ((k : Int) + 1) m) ∈ fsk) :
    rename_step dir base_name false (width items.length) ((k : Int) + 1) m fsk
      = some (fsk, "file exists, skipping: "
          ++ new_name base_name (width items.length) ((k : Int) + 1) m ++ "\n") ∧
    rename_loop dir base_name false (width items.length) 1 (items.take (k + 1)) fs
      = (if (k : Int) + 1 = 2147483647 then none
        else some (fsk, outk ++ ["file exists, skipping: "
          ++ new_name base_name (width items.length) ((k : Int) + 1) m ++ "\n"])) ∧
    ∀ (j : Nat) (mj : media) (fsj : Finset String) (outj : List String),
      k < j → items[j]? = some mj →
      rename_loop dir base_name false (width items.length) 1 (items.take j) fs
        = some (fsj, outj) →
      mj.path ∈ fsj →
      path_append dir (new_name base_name (width items.length) ((j : Int) + 1) mj) ∉ fsj →
      rename_step dir base_name false (width items.length) ((j : Int) + 1) mj fsj
        = some (insert (path_append dir
              (new_name base_name (width items.length) ((j : Int) + 1) mj)) (fsj.erase mj.path),
            "renamed: " ++ filename mj.path ++ " -> "
              ++ new_name base_name (width items.length) ((j : Int) + 1) mj ++ "\n") ∧
      rename_loop dir base_name false (width items.length) 1 (items.take (j + 1)) fs
        = (if (j : Int) + 1 = 2147483647 then none
          else some (insert (path_append dir
              (new_name base_name (width items.length) ((j : Int) + 1) mj)) (fsj.erase mj.path),
            outj ++ ["renamed: " ++ filename mj.path ++ " -> "
              ++ new_name base_name (width items.length) ((j : Int) + 1) mj ++ "\n"])) := by
  refine ⟨rename_step_exists dir base_name _ _ m fsk hex, ?_, ?_⟩
  · rw [add_comm (k : Int) 1] at hex ⊢
    rw [rename_loop_take_succ dir base_name false _ 1 items fs k m hk, hpre]
    simp only [Option.some_bind]
    rw [rename_step_exists dir base_name _ (1 + k) m fsk hex]
    simp only [Option.some_bind]
  · intro j mj fsj outj _ hj hprej hsrc hfree
    refine ⟨rename_step_free dir base_name _ _ mj fsj hfree hsrc, ?_⟩
    rw [add_comm (j : Int) 1] at hfree ⊢
    rw [rename_loop_take_succ dir base_name false _ 1 items fs j mj hj, hprej]
    simp only [Option.some_bind]
    rw [rename_step_free dir base_name _ (1 + j) mj fsj hfree hsrc]
    simp only [Option.some_bind]

/-- C12 on the three files of `/d` with `/d/trip_001.PNG` in the way of the first one. -/
theorem C12_existing_destination_skipped_witness :
    ordered_files[0]? = some ⟨"/d/m.PNG", 10⟩ ∧
    rename_loop "/d" "trip" false (width ordered_files.length) 1 (ordered_files.take 0)
      (insert "/d/trip_001.PNG" files_of_d) = some (insert "/d/trip_001.PNG" files_of_d, []) ∧
    path_append "/d" (new_name "trip" (width ordered_files.length) (((0 : Nat) : Int) + 1)
      ⟨"/d/m.PNG", 10⟩) ∈ insert "/d/trip_001.PNG" files_of_d ∧
    (rename_step "/d" "trip" false (width ordered_files.length) (((0 : Nat) : Int) + 1)
        ⟨"/d/m.PNG", 10⟩ (insert "/d/trip_001.PNG" files_of_d)
      = some (insert "/d/trip_001.PNG" files_of_d, "file exists, skipping: "
          ++ new_name "trip" (width ordered_files.length) (((0 : Nat) : Int) + 1)
            ⟨"/d/m.PNG", 10⟩ ++ "\n") ∧
    rename_loop "/d" "trip" false (width ordered_files.length) 1 (ordered_files.take (0 + 1))
      (insert "/d/trip_001.PNG" files_of_d)
      = (if ((0 : Nat) : Int) + 1 = 2147483647 then none
        else some (insert "/d/trip_001.PNG" files_of_d, [] ++ ["file exists, skipping: "
          ++ new_name "trip" (width ordered_files.length) (((0 : Nat) : Int) + 1)
            ⟨"/d/m.PNG", 10⟩ ++ "\n"])) ∧
    ∀ (j : Nat) (mj : media) (fsj : Finset String) (outj : List String),
      0 < j → ordered_files[j]? = some mj →
      rename_loop "/d" "trip" false (width ordered_files.length) 1 (ordered_files.take j)
        (insert "/d/trip_001.PNG" files_of_d) = some (fsj, outj) →
      mj.path ∈ fsj →
      path_append "/d" (new_name "trip" (width ordered_files.length) ((j : Int) + 1) mj) ∉ fsj →
      rename_step "/d" "trip" false (width ordered_files.length) ((j : Int) + 1) mj fsj
        = some (insert (path_append "/d"
              (new_name "trip" (width ordered_files.length) ((j : Int) + 1) mj))
              (fsj.erase mj.path),
            "renamed: " ++ filename mj.path ++ " -> "
              ++ new_name "trip" (width ordered_files.length) ((j : Int) + 1) mj ++ "\n") ∧
      rename_loop "/d" "trip" false (width ordered_files.length) 1 (ordered_files.take (j + 1))
        (insert "/d/trip_001.PNG" files_of_d)
        = (if (j : Int) + 1 = 2147483647 then none
          else some (insert (path_append "/d"
              (new_name "trip" (width ordered_files.length) ((j : Int) + 1) mj))
              (fsj.erase mj.path),
            outj ++ ["renamed: " ++ filename mj.path ++ " -> "
              ++ new_name "trip" (width ordered_files.length) ((j : Int) + 1) mj ++ "\n"]))) :=
  ⟨by decide, rfl, by decide,
    C12_existing_destination_skipped "/d" "trip" ordered_files
      (insert "/d/trip_001.PNG" files_of_d) (insert "/d/trip_001.PNG" files_of_d) [] 0
      ⟨"/d/m.PNG", 10⟩ (by decide) rfl (by decide)⟩

/-- C19, refuted as stated: with the base name `../x` the one file `/d/a.jpg` of the directory
`/d` is renamed to `/d/../x_001.jpg`, which is no entry of `/d`: the directory has one file
before the run and none after it. -/
theorem C19_base_name_leaves_directory :
    "/d/a.jpg" ∈ directory_entries "/d" {"/d/a.jpg"} ∧
      rename_loop "/d" "../x" false (width 1) 1 [⟨"/d/a.jpg", 5⟩] {"/d/a.jpg"}
        = some ({"/d/../x_001.jpg"}, ["renamed: a.jpg -> ../x_001.jpg\n"]) ∧
      (directory_entries "/d" {"/d/a.jpg"}).card = 1 ∧
      (directory_entries "/d" {"/d/../x_001.jpg"}).card = 0 := by
  decide

/-- C19, amended: for a base name without `/`, fewer than 2147483647 records and sources that
are distinct entries of the directory, the real run returns; the number of existing paths and the
number of entries of the directory are after the run what they were before; and at every
position the run arrives with the source still present, and then either the destination path
exists and nothing changes, or it does not exist and the source is renamed to it. -/
theorem C19_renames_keep_files (dir base_name : String) (items : List media)
    (fs : Finset String) (hn : items.length < 2147483647)
    (hbase : ∀ x ∈ base_name.data, x ≠ '/') (hnd : (items.map media.path).Nodup)
    (hsrc : ∀ m ∈ items, m.path ∈ directory_entries dir fs) :
    (∃ fs' lines,
      rename_loop dir base_name false (width items.length) 1 items fs = some (fs', lines) ∧
      fs'.card = fs.card ∧
      (directory_entries dir fs').card = (directory_entries dir fs).card) ∧
    ∀ (k : Nat) (m : media), items[k]? = some m →
      ∃ fsk outk,
        rename_loop dir base_name false (width items.length) 1 (items.take k) fs
          = some (fsk, outk) ∧
        m.path ∈ fsk ∧
        (path_append dir (new_name base_name (width items.length) ((k : Int) + 1) m) ∈ fsk →
          rename_loop dir base_name false (width items.length) 1 (items.take (k + 1)) fs
            = some (fsk, outk ++ ["file exists, skipping: "
                ++ new_name base_name (width items.length) ((k : Int) + 1) m ++ "\n"])) ∧
        (path_append dir (new_name base_name (width items.length) ((k : Int) + 1) m) ∉ fsk →
          rename_loop dir base_name false (width items.length) 1 (items.take (k + 1)) fs
            = some (insert (path_append dir
                  (new_name base_name (width items.length) ((k : Int) + 1) m))
                  (fsk.erase m.path),
                outk ++ ["renamed: " ++ filename m.path ++ " -> "
                  ++ new_name base_name (width items.length) ((k : Int) + 1) m ++ "\n"])) := by
  have inv := rename_loop_real_inv dir base_name (width items.length) items fs hn hbase hnd hsrc
  constructor
  · obtain ⟨fs', lines, h1, h2, h3, -⟩ := inv items.length (le_refl _)
    rw [List.take_length] at h1
    exact ⟨fs', lines, h1, h2, h3⟩
  · intro k m hk
    have hlt : k < items.length := by
      by_contra hc
      rw [List.getElem?_eq_none (by omega)] at hk
      exact absurd hk (by simp)
    have hc : ¬ (1 : Int) + (k : Int) = 2147483647 := by omega
    obtain ⟨fsk, outk, h1, -, -, h4⟩ := inv k (by omega)
    have hmem : m.path ∈ fsk := (Finset.mem_filter.1 (h4 k m (le_refl _) hk)).1
    refine ⟨fsk, outk, h1, hmem, ?_, ?_⟩
    · intro hex
      rw [add_comm (k : Int) 1] at hex ⊢
      rw [rename_loop_take_succ dir base_name false _ 1 items fs k m hk, h1]
      simp only [Option.some_bind]
      rw [rename_step_exists dir base_name _ (1 + k) m fsk hex]
      simp only [Option.some_bind, hc, if_false]
    · intro hfree
      rw [add_comm (k : Int) 1] at hfree ⊢
      rw [rename_loop_take_succ dir base_name false _ 1 items fs k m hk, h1]
      simp only [Option.some_bind]
      rw [rename_step_free dir base_name _ (1 + k) m fsk hfree hmem]
      simp only [Option.some_bind, hc, if_false]

/-- C19, amended, on the two files `/d/a.jpg` and `/d/x_001.jpg` with the base name `x`: the
destination of the first position is the second source. -/
theorem C19_renames_keep_files_witness :
    clashing_files.length < 2147483647 ∧
    (∀ x ∈ "x".data, x ≠ '/') ∧
    (clashing_files.map media.path).Nodup ∧
    (∀ m ∈ clashing_files, m.path ∈ directory_entries "/d" {"/d/a.jpg", "/d/x_001.jpg"}) ∧
    ((∃ fs' lines,
      rename_loop "/d" "x" false (width clashing_files.length) 1 clashing_files
        {"/d/a.jpg", "/d/x_001.jpg"} = some (fs', lines) ∧
      fs'.card = ({"/d/a.jpg", "/d/x_001.jpg"} : Finset String).card ∧
      (directory_entries "/d" fs').card
        = (directory_entries "/d" {"/d/a.jpg", "/d/x_001.jpg"}).card) ∧
    ∀ (k : Nat) (m : media), clashing_files[k]? = some m →
      ∃ fsk outk,
        rename_loop "/d" "x" false (width clashing_files.length) 1 (clashing_files.take k)
          {"/d/a.jpg", "/d/x_001.jpg"} = some (fsk, outk) ∧
        m.path ∈ fsk ∧
        (path_append "/d" (new_name "x" (width clashing_files.length) ((k : Int) + 1) m) ∈ fsk →
          rename_loop "/d" "x" false (width clashing_files.length) 1 (clashing_files.take (k + 1))
            {"/d/a.jpg", "/d/x_001.jpg"}
            = some (fsk, outk ++ ["file exists, skipping: "
                ++ new_name "x" (width clashing_files.length) ((k : Int) + 1) m ++ "\n"])) ∧
        (path_append "/d" (new_name "x" (width clashing_files.length) ((k : Int) + 1) m) ∉ fsk →
          rename_loop "/d" "x" false (width clashing_files.length) 1 (clashing_files.take (k + 1))
            {"/d/a.jpg", "/d/x_001.jpg"}
            = some (insert (path_append "/d"
                  (new_name "x" (width clashing_files.length) ((k : Int) + 1) m))
                  (fsk.erase m.path),
                outk ++ ["renamed: " ++ filename m.path ++ " -> "
                  ++ new_name "x" (width clashing_files.length) ((k : Int) + 1) m ++ "\n"]))) :=
  ⟨by decide, by decide, by decide, by decide,
    C19_renames_keep_files "/d" "x" clashing_files {"/d/a.jpg", "/d/x_001.jpg"} (by decide)
      (by decide) (by decide) (by decide)⟩

/-! ### Sequence strings and names -/

theorem num_str_digits (w : Int) (i : Nat) : ∀ c ∈ num_str w i, c.isDigit = true := by
  intro c hc
  simp only [num_str, to_string_nat, List.mem_append] at hc
  rcases hc with hc | hc
  · rw [(List.mem_replicate.1 hc).2]; decide
  · exact (toDigits_spec i).1 c hc

theorem num_str_val (w : Int) (i : Nat) : digitsVal (num_str w i) = i := by
  simp only [num_str, to_string_nat, digitsVal_zeros_append, (toDigits_spec i).2.1]

theorem num_str_length (n i : Nat) (hi : 1 ≤ i) (hin : i ≤ n) (hn : n ≤ 2147483647) :
    (num_str (width n) i).length = max 3 (Nat.toDigits 10 n).length := by
  obtain ⟨-, -, n3, -⟩ := toDigits_spec n
  obtain ⟨-, -, i3, -⟩ := toDigits_spec i
  have htot : total_files n = (n : Int) := by unfold total_files; omega
  have hlen : (Nat.toDigits 10 i).length ≤ (Nat.toDigits 10 n).length := by
    rw [n3 (by omega), i3 (by omega)]
    exact Nat.le_digits_len_le 10 i n hin
  have hw : (width n).toNat = max 3 (Nat.toDigits 10 n).length := by
    simp only [width, htot, to_string_nat]
    omega
  simp only [num_str, to_string_nat, hw, List.length_append, List.length_replicate]
  exact Nat.sub_add_cancel (le_trans hlen (le_max_right _ _))

/-- The extension of a path is empty or starts with a dot. -/
theorem extension_head (p : String) :
    (extension p).data = [] ∨ (extension p).data.head? = some '.' := by
  unfold extension
  simp only
  split
  · exact Or.inl rfl
  · split
    · exact Or.inl rfl
    · split
      · exact Or.inl rfl
      · rename_i h1 h2
        right
        generalize (filename p).data = s at h1 h2 ⊢
        have hsplit := List.takeWhile_append_dropWhile (fun c => c != '.') s.reverse
        have hne : s.reverse.dropWhile (fun c => c != '.') ≠ [] := by
          intro hc
          rw [hc, List.append_nil] at hsplit
          apply h1
          rw [hsplit, List.length_reverse]
        obtain ⟨a, rest, hcons⟩ := List.exists_cons_of_ne_nil hne
        have ha : a = '.' := by
          have := List.head?_dropWhile_not (fun c => c != '.') s.reverse
          rw [hcons] at this
          simpa using this
        subst ha
        rw [hcons] at hsplit
        generalize List.takeWhile (fun c => c != '.') s.reverse = b at h1 h2 hsplit ⊢
        have hs : s = rest.reverse ++ '.' :: b.reverse := by
          have := congrArg List.reverse hsplit
          rw [List.reverse_reverse] at this
          rw [← this]
          simp
        subst hs
        have hd : (rest.reverse ++ '.' :: b.reverse).length - (b.length + 1)
            = rest.reverse.length := by
          simp only [List.length_append, List.length_cons, List.length_reverse]
          omega
        rw [hd, List.drop_left]
        rfl

theorem takeWhile_digits_ext (d e : List Char) (hd : ∀ c ∈ d, c.isDigit = true)
    (he : e = [] ∨ e.head? = some '.') : (d ++ e).takeWhile Char.isDigit = d := by
  rcases he with he | he
  · rw [he, List.append_nil]
    exact List.takeWhile_eq_self_iff.2 hd
  · obtain ⟨r, hr⟩ := List.head?_eq_some_iff.1 he
    rw [hr]
    exact takeWhile_stop _ d r '.' hd (by decide)

/-- C18: the destination names of two different positions `i` and `j` in `1..n` are different
texts, for every base name and whatever the records are (an extension is empty or starts with a
dot). For a total `n` in the range of `int` the two sequence strings have the same number of
characters, and the names differ for arbitrary texts in the place of the extensions. -/
theorem C18_names_distinct (base_name : String) (n i j : Nat) (hi : 1 ≤ i) (hin : i ≤ n)
    (hj : 1 ≤ j) (hjn : j ≤ n) (hij : i ≠ j) :
    (∀ m1 m2 : media, new_name base_name (width n) i m1 ≠ new_name base_name (width n) j m2) ∧
    (n ≤ 2147483647 →
      (num_str (width n) i).length = (num_str (width n) j).length ∧
      ∀ e1 e2 : String,
        base_name ++ "_" ++ String.mk (num_str (width n) i) ++ e1
          ≠ base_name ++ "_" ++ String.mk (num_str (width n) j) ++ e2) := by
  constructor
  · intro m1 m2 heq
    have h := congrArg String.data heq
    rw [new_name_data, new_name_data] at h
    have h2 := List.cons_injective (List.append_cancel_left h)
    have h3 := congrArg (List.takeWhile Char.isDigit) h2
    rw [takeWhile_digits_ext _ _ (num_str_digits _ i) (extension_head m1.path),
      takeWhile_digits_ext _ _ (num_str_digits _ j) (extension_head m2.path)] at h3
    have h4 := congrArg digitsVal h3
    rw [num_str_val, num_str_val] at h4
    exact hij h4
  · intro hn
    have li := num_str_length n i hi hin hn
    have lj := num_str_length n j hj hjn hn
    refine ⟨by rw [li, lj], ?_⟩
    intro e1 e2 heq
    have h := congrArg String.data heq
    simp only [String.data_append] at h
    rw [List.append_assoc, List.append_assoc, List.append_assoc, List.append_assoc] at h
    have h2 := List.append_cancel_left (List.append_cancel_left h)
    have h3 := (List.append_inj h2 (by rw [li, lj])).1
    have h4 := congrArg digitsVal h3
    rw [num_str_val, num_str_val] at h4
    exact hij h4

/-- C18 at 1200 records, positions 7 and 1200. -/
theorem C18_names_distinct_witness :
    1 ≤ 7 ∧ 7 ≤ 1200 ∧ 1 ≤ 1200 ∧ 1200 ≤ 1200 ∧ 7 ≠ 1200 ∧
    ((∀ m1 m2 : media,
      new_name "trip" (width 1200) (7 : Nat) m1 ≠ new_name "trip" (width 1200) (1200 : Nat) m2) ∧
    (1200 ≤ 2147483647 →
      (num_str (width 1200) (7 : Nat)).length = (num_str (width 1200) (1200 : Nat)).length ∧
      ∀ e1 e2 : String,
        "trip" ++ "_" ++ String.mk (num_str (width 1200) (7 : Nat)) ++ e1
          ≠ "trip" ++ "_" ++ String.mk (num_str (width 1200) (1200 : Nat)) ++ e2)) :=
  ⟨by decide, by decide, by decide, by decide, by decide,
    C18_names_distinct "trip" 1200 7 1200 (by decide) (by decide) (by decide) (by decide)
      (by decide)⟩

/-! ### The name of a record by the rank of its timestamp -/

/-- In a list in strictly ascending order the position of an element is the number of elements
with a smaller key. -/
theorem countP_of_sorted {α : Type} (key : α → Int) :
    ∀ (l : List α) (i : Nat) (m : α), l.Pairwise (fun a b => key a < key b) → l[i]? = some m →
      l.countP (fun x => decide (key x < key m)) = i := by
  intro l
  induction l with
  | nil => intro i m _ h; simp at h
  | cons a t ih =>
    intro i m hp hi
    rw [List.pairwise_cons] at hp
    cases i with
    | zero =>
      simp only [List.getElem?_cons_zero, Option.some.injEq] at hi
      subst hi
      rw [List.countP_cons_of_neg _ _ (by simp)]
      rw [List.countP_eq_zero]
      intro b hb
      have := hp.1 b hb
      simp only [decide_eq_true_eq, not_lt]
      omega
    | succ i =>
      simp only [List.getElem?_cons_succ] at hi
      have hm : m ∈ t := List.getElem?_mem hi
      have := hp.1 m hm
      rw [List.countP_cons_of_pos _ _ (by simpa using this), ih i m hp.2 hi]

theorem sorted_strict {α : Type} (key : α → Int) (l : List α)
    (h1 : l.Pairwise (fun a b => key a ≤ key b)) (h2 : (l.map key).Nodup) :
    l.Pairwise (fun a b => key a < key b) := by
  rw [List.Nodup, List.pairwise_map] at h2
  exact (h1.and h2).imp (fun h => lt_of_le_of_ne h.1 h.2)

theorem numbered_files_spec (n : Nat) :
    (numbered_files n).length = n ∧ ((numbered_files n).map media.timestamp_ms).Nodup := by
  constructor
  · rw [numbered_files, List.length_map, List.length_range]
  · have e : (numbered_files n).map media.timestamp_ms
        = (List.range n).map (fun (i : Nat) => (i : Int)) := by
      rw [numbered_files, List.map_map]
      rfl
    rw [e]
    exact List.Nodup.map Nat.cast_injective (List.nodup_range n)

/-- C11, refuted as stated: over the 2147483647 records of `numbered_files`, whose timestamps are
pairwise distinct, the counter stands at 2147483647 behind the last record and cannot be
incremented: the run returns no value and assigns no names. -/
theorem C11_counter_overflow :
    ((numbered_files 2147483647).map media.timestamp_ms).Nodup ∧
      main_rename "/d" "trip" true (numbered_files 2147483647) {"/d/a.jpg"} = none := by
  obtain ⟨hlen, hnd⟩ := numbered_files_spec 2147483647
  refine ⟨hnd, ?_⟩
  generalize numbered_files 2147483647 = items at hlen
  obtain ⟨out, ho, hperm, -⟩ := sort_ok media.timestamp_ms items
  have he : items.isEmpty = false := by
    cases items with
    | nil => simp at hlen
    | cons a l => rfl
  have hol : out.length = 2147483647 := by rw [hperm.length_eq, hlen]
  simp only [main_rename, he, Bool.false_eq_true, if_false, sort_items] at ho ⊢
  simp only [ho, Option.bind_eq_bind, Option.some_bind]
  exact rename_loop_overflow "/d" "trip" true _ out 1 _ (by norm_num) (by rw [hol]; norm_num)

/-- C11, amended: for fewer than 2147483647 records with pairwise distinct timestamps the run
goes over the records in the sorted order, in which every record stands at the position given by
the number of records with a smaller timestamp. The dry run lists the record there with the
destination name made of the base name, `_`, the sequence string of that rank counted from 1
(digits that denote the rank) and the extension of the record's own path; the real run, whenever
it returns, prints for the record a line with the same name, as a rename or as a skip, and it
returns when the sources are distinct paths that exist. The three files of `discovered_files`
get `trip_001.PNG`, `trip_002.mov`, `trip_003.jpg` in the order of their timestamps. -/
theorem C11_name_by_rank (dir base_name : String) (items : List media) (fs : Finset String)
    (hn : items.length < 2147483647) (hd : (items.map media.timestamp_ms).Nodup) :
    (∃ out,
      sort_items items = some out ∧
      (∀ dry_run : Bool, main_rename dir base_name dry_run items fs
        = rename_loop dir base_name dry_run (width items.length) 1 out fs) ∧
      ∀ m ∈ items, ∀ k : Nat,
        k = items.countP (fun x => decide (x.timestamp_ms < m.timestamp_ms)) + 1 →
        out[k - 1]? = some m) ∧
    (∃ lines,
      main_rename dir base_name true items fs = some (fs, lines) ∧
      lines.length = items.length ∧
      ∀ m ∈ items, ∀ k : Nat,
        k = items.countP (fun x => decide (x.timestamp_ms < m.timestamp_ms)) + 1 →
        lines[k - 1]? = some ("[dry-run] " ++ filename m.path ++ " -> "
          ++ (base_name ++ "_" ++ String.mk (num_str (width items.length) k)
            ++ extension m.path) ++ "\n") ∧
        (∀ c ∈ num_str (width items.length) k, c.isDigit = true) ∧
        digitsVal (num_str (width items.length) k) = k) ∧
    (∀ (fs' : Finset String) (lines' : List String),
      main_rename dir base_name false items fs = some (fs', lines') →
      lines'.length = items.length ∧
      ∀ m ∈ items, ∀ k : Nat,
        k = items.countP (fun x => decide (x.timestamp_ms < m.timestamp_ms)) + 1 →
        lines'[k - 1]? = some ("renamed: " ++ filename m.path ++ " -> "
          ++ (base_name ++ "_" ++ String.mk (num_str (width items.length) k)
            ++ extension m.path) ++ "\n") ∨
        lines'[k - 1]? = some ("file exists, skipping: "
          ++ (base_name ++ "_" ++ String.mk (num_str (width items.length) k)
            ++ extension m.path) ++ "\n")) ∧
    ((items.map media.path).Nodup → (∀ m ∈ items, m.path ∈ fs) →
      ∃ fs' lines', main_rename dir base_name false items fs = some (fs', lines')) ∧
    main_rename "/d" "trip" true discovered_files files_of_d
      = some (files_of_d, ["[dry-run] m.PNG -> trip_001.PNG\n",
          "[dry-run] a.mov -> trip_002.mov\n", "[dry-run] z.jpg -> trip_003.jpg\n"]) ∧
    (main_rename "/d" "trip" false discovered_files files_of_d).map
        (fun r => (r.2, r.1.card, decide ("/d/trip_001.PNG" ∈ r.1),
          decide ("/d/trip_002.mov" ∈ r.1), decide ("/d/trip_003.jpg" ∈ r.1)))
      = some (["renamed: m.PNG -> trip_001.PNG\n", "renamed: a.mov -> trip_002.mov\n",
          "renamed: z.jpg -> trip_003.jpg\n"], 3, true, true, true) := by
  obtain ⟨out, ho, hperm, hsorted⟩ := sort_ok media.timestamp_ms items
  have hlen : out.length = items.length := hperm.length_eq
  have hstrict := sorted_strict media.timestamp_ms out hsorted
    ((hperm.map media.timestamp_ms).nodup_iff.2 hd)
  have hmain : ∀ dry_run : Bool, main_rename dir base_name dry_run items fs
      = rename_loop dir base_name dry_run (width items.length) 1 out fs := by
    intro dry_run
    by_cases he : items.isEmpty = true
    · rw [List.isEmpty_iff] at he
      subst he
      have : out = [] := List.eq_nil_of_length_eq_zero (by simpa using hlen)
      subst this
      simp [main_rename, rename_loop]
    · simp only [main_rename, he, Bool.false_eq_true, if_false, sort_items] at ho ⊢
      simp only [ho, Option.bind_eq_bind, Option.some_bind, hlen]
  have hpos : ∀ m ∈ items, ∀ k : Nat,
      k = items.countP (fun x => decide (x.timestamp_ms < m.timestamp_ms)) + 1 →
      out[k - 1]? = some m := by
    intro m hm k hk
    obtain ⟨i, hi⟩ := List.mem_iff_getElem?.1 (hperm.symm.subset hm)
    have hrank := countP_of_sorted media.timestamp_ms out i m hstrict hi
    rw [hperm.countP_eq] at hrank
    rw [hk, hrank, Nat.add_sub_cancel]
    exact hi
  have hcast : ∀ k : Nat, 1 ≤ k → (1 : Int) + ((k - 1 : Nat) : Int) = (k : Int) := by
    intro k hk
    omega
  obtain ⟨lines, h1, h2, h3⟩ :=
    rename_loop_dry_ok dir base_name (width items.length) out 1 fs (by omega)
  refine ⟨⟨out, ho, hmain, hpos⟩, ⟨lines, ?_, by rw [h2, hlen], ?_⟩, ?_, ?_, by decide,
    by decide⟩
  · rw [hmain, h1]
  · intro m hm k hk
    refine ⟨?_, num_str_digits _ _, num_str_val _ _⟩
    have := h3 (k - 1) m (hpos m hm k hk)
    rw [hcast k (by omega)] at this
    rw [this]
    rfl
  · intro fs' lines' hr
    rw [hmain] at hr
    obtain ⟨r1, r2⟩ :=
      rename_loop_real_lines dir base_name (width items.length) out 1 fs fs' lines' hr
    refine ⟨by rw [r1, hlen], ?_⟩
    intro m hm k hk
    have := r2 (k - 1) m (hpos m hm k hk)
    rw [hcast k (by omega)] at this
    exact this
  · intro hnd hsrc
    rw [hmain]
    exact rename_loop_real_returns dir base_name (width items.length) out fs (by omega)
      ((hperm.map media.path).nodup_iff.2 hnd) (fun m hm => hsrc m (hperm.subset hm))

/-- C11, amended, on the three files of `discovered_files`. -/
theorem C11_name_by_rank_witness :
    discovered_files.length < 2147483647 ∧
    (discovered_files.map media.timestamp_ms).Nodup ∧
    ((∃ out,
      sort_items discovered_files = some out ∧
      (∀ dry_run : Bool, main_rename "/d" "trip" dry_run discovered_files files_of_d
        = rename_loop "/d" "trip" dry_run (width discovered_files.length) 1 out files_of_d) ∧
      ∀ m ∈ discovered_files, ∀ k : Nat,
        k = discovered_files.countP (fun x => decide (x.timestamp_ms < m.timestamp_ms)) + 1 →
        out[k - 1]? = some m) ∧
    (∃ lines,
      main_rename "/d" "trip" true discovered_files files_of_d = some (files_of_d, lines) ∧
      lines.length = discovered_files.length ∧
      ∀ m ∈ discovered_files, ∀ k : Nat,
        k = discovered_files.countP (fun x => decide (x.timestamp_ms < m.timestamp_ms)) + 1 →
        lines[k - 1]? = some ("[dry-run] " ++ filename m.path ++ " -> "
          ++ ("trip" ++ "_" ++ String.mk (num_str (width discovered_files.length) k)
            ++ extension m.path) ++ "\n") ∧
        (∀ c ∈ num_str (width discovered_files.length) k, c.isDigit = true) ∧
        digitsVal (num_str (width discovered_files.length) k) = k) ∧
    (∀ (fs' : Finset String) (lines' : List String),
      main_rename "/d" "trip" false discovered_files files_of_d = some (fs', lines') →
      lines'.length = discovered_files.length ∧
      ∀ m ∈ discovered_files, ∀ k : Nat,
        k = discovered_files.countP (fun x => decide (x.timestamp_ms < m.timestamp_ms)) + 1 →
        lines'[k - 1]? = some ("renamed: " ++ filename m.path ++ " -> "
          ++ ("trip" ++ "_" ++ String.mk (num_str (width discovered_files.length) k)
            ++ extension m.path) ++ "\n") ∨
        lines'[k - 1]? = some ("file exists, skipping: "
          ++ ("trip" ++ "_" ++ String.mk (num_str (width discovered_files.length) k)
            ++ extension m.path) ++ "\n")) ∧
    ((discovered_files.map media.path).Nodup → (∀ m ∈ discovered_files, m.path ∈ files_of_d) →
      ∃ fs' lines',
        main_rename "/d" "trip" false discovered_files files_of_d = some (fs', lines')) ∧
    main_rename "/d" "trip" true discovered_files files_of_d
      = some (files_of_d, ["[dry-run] m.PNG -> trip_001.PNG\n",
          "[dry-run] a.mov -> trip_002.mov\n", "[dry-run] z.jpg -> trip_003.jpg\n"]) ∧
    (main_rename "/d" "trip" false discovered_files files_of_d).map
        (fun r => (r.2, r.1.card, decide ("/d/trip_001.PNG" ∈ r.1),
          decide ("/d/trip_002.mov" ∈ r.1), decide ("/d/trip_003.jpg" ∈ r.1)))
      = some (["renamed: m.PNG -> trip_001.PNG\n", "renamed: a.mov -> trip_002.mov\n",
          "renamed: z.jpg -> trip_003.jpg\n"], 3, true, true, true)) :=
  ⟨by decide, by decide,
    C11_name_by_rank "/d" "trip" discovered_files files_of_d (by decide) (by decide)⟩

/-! ## Totality and the value of a parse -/

theorem line_loop_total : ∀ lines : List (List Char), ∃ v, line_loop lines = some v := by
  intro lines
  induction lines with
  | nil => exact ⟨0, rfl⟩
  | cons l rest ih =>
    obtain ⟨v, hv⟩ := ih
    obtain ⟨t, ht⟩ := parse_total (String.mk l)
    simp only [line_loop, ht]
    split
    · exact ⟨v, hv⟩
    · split
      · exact ⟨t, rfl⟩
      · exact ⟨v, hv⟩

/-- The text that matched starts with the date-time whose groups are the captures 1 to 6. -/
theorem regex_match_text (s : List Char) (m : Caps) (h : regex_match re s = some m) :
    ∃ (f : DateTime) (rest : List Char), f.WF ∧ s = f.text ++ rest ∧
      m 1 = some f.year ∧ m 2 = some f.month ∧ m 3 = some f.day ∧
      m 4 = some f.hour ∧ m 5 = some f.minute ∧ m 6 = some f.second := by
  obtain ⟨f, rest, hf, hs, h1⟩ := run_re_front_some _ _ _ _ h
  obtain ⟨z, c', h2, h3⟩ := run_tail_some _ _ _ h1
  obtain ⟨-, -, hkeep, -, -⟩ := offset_shapes _ _ _ h2
  refine ⟨f, rest, hf, hs, ?_⟩
  rcases h3 with ⟨-, e2⟩ | ⟨frac, -, -, e2⟩
  · rw [e2] at hkeep
    refine ⟨?_, ?_, ?_, ?_, ?_, ?_⟩
    · rw [hkeep 1 (by decide) (by decide)]; simp [Caps.put]
    · rw [hkeep 2 (by decide) (by decide)]; simp [Caps.put]
    · rw [hkeep 3 (by decide) (by decide)]; simp [Caps.put]
    · rw [hkeep 4 (by decide) (by decide)]; simp [Caps.put]
    · rw [hkeep 5 (by decide) (by decide)]; simp [Caps.put]
    · rw [hkeep 6 (by decide) (by decide)]; simp [Caps.put]
  · rw [e2] at hkeep
    refine ⟨?_, ?_, ?_, ?_, ?_, ?_⟩
    · rw [hkeep 1 (by decide) (by decide)]; simp [Caps.put]
    · rw [hkeep 2 (by decide) (by decide)]; simp [Caps.put]
    · rw [hkeep 3 (by decide) (by decide)]; simp [Caps.put]
    · rw [hkeep 4 (by decide) (by decide)]; simp [Caps.put]
    · rw [hkeep 5 (by decide) (by decide)]; simp [Caps.put]
    · rw [hkeep 6 (by decide) (by decide)]; simp [Caps.put]

theorem digitsVal_two (p : List Char) (h : Digits 2 p) : digitsVal p ≤ 99 := by
  have := digitsVal_lt p h.2
  rw [h.1] at this
  omega

/-- What the `std::stoi` calls behind a successful match receive and return. -/
theorem stoi_calls (s : List Char) (m : Caps) (h : regex_match re s = some m) :
    (∀ g, 1 ≤ g → g ≤ 6 → ∃ p, m g = some p ∧ p ≠ [] ∧ (∀ c ∈ p, c.isDigit = true) ∧
      stoi p = some (digitsVal p : Int)) ∧
    (∃ ms, millis_of (m 7) = some ms ∧ 0 ≤ ms ∧ ms ≤ 999 ∧
      ∀ frac, m 7 = some frac → frac ≠ [] →
        (∀ c ∈ (padFrac frac).take 3, c.isDigit = true) ∧ ((padFrac frac).take 3).length = 3 ∧
        stoi ((padFrac frac).take 3) = some ms) ∧
    (∃ off, tz_offset_sec_of (m 8) (m 9) = some off ∧ -362340 ≤ off ∧ off ≤ 362340 ∧
      ∀ g8 g9, m 8 = some g8 → m 9 = some g9 →
        ∃ tz_hour tz_min, stoi g8 = some tz_hour ∧ stoi g9 = some tz_min ∧
          -99 ≤ tz_hour ∧ tz_hour ≤ 99 ∧ 0 ≤ tz_min ∧ tz_min ≤ 99) := by
  obtain ⟨-, f, hf, m1, m2, m3, m4, m5, m6, m7, m8, m9⟩ := regex_match_some s m h
  obtain ⟨h1, h2, h3, h4, h5, h6⟩ := hf
  refine ⟨?_, ?_, ?_⟩
  · intro g g1 g6
    have hg : g = 1 ∨ g = 2 ∨ g = 3 ∨ g = 4 ∨ g = 5 ∨ g = 6 := by omega
    rcases hg with rfl | rfl | rfl | rfl | rfl | rfl
    · exact ⟨_, m1, digits_ne_nil h1, h1.2,
        stoi_digits f.year (digits_ne_nil h1) h1.2 (by rw [h1.1]; norm_num)⟩
    · exact ⟨_, m2, digits_ne_nil h2, h2.2,
        stoi_digits f.month (digits_ne_nil h2) h2.2 (by rw [h2.1]; norm_num)⟩
    · exact ⟨_, m3, digits_ne_nil h3, h3.2,
        stoi_digits f.day (digits_ne_nil h3) h3.2 (by rw [h3.1]; norm_num)⟩
    · exact ⟨_, m4, digits_ne_nil h4, h4.2,
        stoi_digits f.hour (digits_ne_nil h4) h4.2 (by rw [h4.1]; norm_num)⟩
    · exact ⟨_, m5, digits_ne_nil h5, h5.2,
        stoi_digits f.minute (digits_ne_nil h5) h5.2 (by rw [h5.1]; norm_num)⟩
    · exact ⟨_, m6, digits_ne_nil h6, h6.2,
        stoi_digits f.second (digits_ne_nil h6) h6.2 (by rw [h6.1]; norm_num)⟩
  · rcases m7 with h7 | ⟨p, hp, h7⟩
    · rw [h7]
      exact ⟨0, rfl, le_refl _, by norm_num, by intro frac hfr; simp at hfr⟩
    · rw [h7]
      have hd := padFrac_digits p hp
      rw [← padFrac_take] at hd
      have hst := stoi_digits _ (digits_ne_nil hd) hd.2 (by rw [hd.1]; norm_num)
      have hlt := digitsVal_lt _ hd.2
      rw [hd.1] at hlt
      by_cases hnil : p = []
      · refine ⟨0, by simp [hnil, millis_of], le_refl _, by norm_num, ?_⟩
        intro frac hfr hne
        simp only [Option.some.injEq] at hfr
        exact absurd (hfr ▸ hnil) hne
      · refine ⟨(digitsVal ((padFrac p).take 3) : Int), ?_, by omega, by omega, ?_⟩
        · simp only [millis_of, List.isEmpty_iff, hnil, if_false, hst]
        · intro frac hfr _
          simp only [Option.some.injEq] at hfr
          subst hfr
          exact ⟨hd.2, hd.1, hst⟩
  · rcases m8 with h8 | ⟨sg, hh, hsg, hhh, h8⟩
    · rw [h8]
      exact ⟨0, by simp [tz_offset_sec_of], by norm_num, by norm_num,
        by intro g8 g9 hg; simp at hg⟩
    · rcases m9 with h9 | ⟨mm, hmm, h9⟩
      · rw [h8, h9]
        exact ⟨0, by simp [tz_offset_sec_of], by norm_num, by norm_num,
          by intro g8 g9 _ hg; simp at hg⟩
      · rw [h8, h9]
        have t1 := stoi_plus hh (digits_ne_nil hhh) hhh.2 (by rw [hhh.1]; norm_num)
        have t2 := stoi_minus hh (digits_ne_nil hhh) hhh.2 (by rw [hhh.1]; norm_num)
        have t3 := stoi_digits mm (digits_ne_nil hmm) hmm.2 (by rw [hmm.1]; norm_num)
        have b1 := digitsVal_two hh hhh
        have b2 := digitsVal_two mm hmm
        rcases hsg with rfl | rfl
        · refine ⟨(digitsVal hh : Int) * 3600 + (if (digitsVal hh : Int) ≥ 0
              then (digitsVal mm : Int) * 60 else -(digitsVal mm : Int) * 60),
            by simp only [tz_offset_sec_of, t1, t3, Option.bind_eq_bind, Option.some_bind],
            ?_, ?_, ?_⟩
          · split <;> omega
          · split <;> omega
          · intro g8 g9 e8 e9
            simp only [Option.some.injEq] at e8 e9
            subst e8 e9
            exact ⟨_, _, t1, t3, by omega, by omega, by omega, by omega⟩
        · refine ⟨-(digitsVal hh : Int) * 3600 + (if -(digitsVal hh : Int) ≥ 0
              then (digitsVal mm : Int) * 60 else -(digitsVal mm : Int) * 60),
            by simp only [tz_offset_sec_of, t2, t3, Option.bind_eq_bind, Option.some_bind],
            ?_, ?_, ?_⟩
          · split <;> omega
          · split <;> omega
          · intro g8 g9 e8 e9
            simp only [Option.some.injEq] at e8 e9
            subst e8 e9
            exact ⟨_, _, t2, t3, by omega, by omega, by omega, by omega⟩

/-- C14: `parse_iso8601_to_millis`, the line loop of the resolver and `get_file_timestamp`
return a value on every input, no exception leaves them. Behind every match of the pattern each
of the six date-time groups is a non-empty digit text that `std::stoi` converts, the fractional
text passed to `std::stoi` is the three-digit text `frac.substr(0, 3)` of the padded group, and
the offset groups are converted to an hour between -99 and 99 and a minute up to 99. -/
theorem C14_parser_and_resolver_total :
    (∀ dt : String, ∃ v, parse_iso8601_to_millis dt = some v) ∧
    (∀ lines : List (List Char), ∃ v, line_loop lines = some v) ∧
    (∀ output : String, ∃ v, get_file_timestamp output = some v) ∧
    ∀ (s : List Char) (m : Caps), regex_match re s = some m →
      (∀ g, 1 ≤ g → g ≤ 6 → ∃ p, m g = some p ∧ p ≠ [] ∧ (∀ c ∈ p, c.isDigit = true) ∧
        stoi p = some (digitsVal p : Int)) ∧
      (∃ ms, millis_of (m 7) = some ms ∧ 0 ≤ ms ∧ ms ≤ 999 ∧
        ∀ frac, m 7 = some frac → frac ≠ [] →
          (∀ c ∈ (padFrac frac).take 3, c.isDigit = true) ∧
          ((padFrac frac).take 3).length = 3 ∧
          stoi ((padFrac frac).take 3) = some ms) ∧
      (∃ off, tz_offset_sec_of (m 8) (m 9) = some off ∧ -362340 ≤ off ∧ off ≤ 362340 ∧
        ∀ g8 g9, m 8 = some g8 → m 9 = some g9 →
          ∃ tz_hour tz_min, stoi g8 = some tz_hour ∧ stoi g9 = some tz_min ∧
            -99 ≤ tz_hour ∧ tz_hour ≤ 99 ∧ 0 ≤ tz_min ∧ tz_min ≤ 99) := by
  refine ⟨parse_total, line_loop_total, ?_, stoi_calls⟩
  intro output
  unfold get_file_timestamp
  split
  · exact ⟨0, rfl⟩
  · exact line_loop_total _

/-- C16: the text `1970-01-01T00:00:00.000+0000` matches the pattern and has the fixed shape, and
its parse is 0, the value of every text that does not match. The line loop of the resolver
passes over such a line as over an empty one, so a file whose only candidate is this text gets
the fallback instant. -/
theorem C16_epoch_zero_is_not_found :
    (regex_match re "1970-01-01T00:00:00.000+0000".toList).isSome = true ∧
    fixedShape "1970-01-01T00:00:00.000+0000".toList = true ∧
    parse_iso8601_to_millis "1970-01-01T00:00:00.000+0000" = some 0 ∧
    (∀ dt : String, regex_match re dt.toList = none → parse_iso8601_to_millis dt = some 0) ∧
    (∀ rest : List (List Char),
      line_loop ("1970-01-01T00:00:00.000+0000".toList :: rest) = line_loop rest) ∧
    get_file_timestamp "1970-01-01T00:00:00.000+0000\n" = some 0 ∧
    get_file_timestamp "not a date\n" = some 0 ∧
    ∀ (path : String) (last_write_time : Int),
      scan_entry path "1970-01-01T00:00:00.000+0000\n" last_write_time
        = some { path := path, timestamp_ms := last_write_time.tdiv 1000000 } := by
  have hp : parse_iso8601_to_millis "1970-01-01T00:00:00.000+0000" = some 0 := by decide
  have hg : get_file_timestamp "1970-01-01T00:00:00.000+0000\n" = some 0 := by decide
  refine ⟨by decide, by decide, hp, ?_, ?_, hg, by decide, ?_⟩
  · intro dt h
    simp only [parse_iso8601_to_millis, h]
  · intro rest
    have hp' : parse_iso8601_to_millis (String.mk "1970-01-01T00:00:00.000+0000".toList)
        = some 0 := hp
    have hne : ("1970-01-01T00:00:00.000+0000".toList).isEmpty = false := by decide
    simp only [line_loop, hne, Bool.false_eq_true, if_false, hp', gt_iff_lt, lt_self_iff_false]
  · intro path lwt
    simp [scan_entry, hg]

/-- The value of a parse on a text that matches the pattern. -/
theorem parse_value (dt : String) (h : (regex_match re dt.toList).isSome = true) :
    ∃ (f : DateTime) (rest : List Char) (off ms : Int), f.WF ∧ dt.toList = f.text ++ rest ∧
      parse_iso8601_to_millis dt = some ((timegm f.tm - off) * 1000 + ms) ∧
      -362340 ≤ off ∧ off ≤ 362340 ∧ 0 ≤ ms ∧ ms ≤ 999 := by
  obtain ⟨m, hm⟩ := Option.isSome_iff_exists.1 h
  obtain ⟨f, rest, hf, hs, m1, m2, m3, m4, m5, m6⟩ := regex_match_text _ m hm
  obtain ⟨-, ⟨ms, hms, ms0, ms1, -⟩, ⟨off, hoff, o0, o1, -⟩⟩ := stoi_calls _ m hm
  obtain ⟨h1, h2, h3, h4, h5, h6⟩ := hf
  have s1 := stoi_digits f.year (digits_ne_nil h1) h1.2 (by rw [h1.1]; norm_num)
  have s2 := stoi_digits f.month (digits_ne_nil h2) h2.2 (by rw [h2.1]; norm_num)
  have s3 := stoi_digits f.day (digits_ne_nil h3) h3.2 (by rw [h3.1]; norm_num)
  have s4 := stoi_digits f.hour (digits_ne_nil h4) h4.2 (by rw [h4.1]; norm_num)
  have s5 := stoi_digits f.minute (digits_ne_nil h5) h5.2 (by rw [h5.1]; norm_num)
  have s6 := stoi_digits f.second (digits_ne_nil h6) h6.2 (by rw [h6.1]; norm_num)
  refine ⟨f, rest, off, ms, ⟨h1, h2, h3, h4, h5, h6⟩, hs, ?_, o0, o1, ms0, ms1⟩
  simp only [parse_iso8601_to_millis, hm, parse_matched, m1, m2, m3, m4, m5, m6,
    Option.getD_some, s1, s2, s3, s4, s5, s6, hms, hoff, Option.bind_eq_bind, Option.some_bind]
  rfl

theorem yearStart_succ (y : Int) : yearStart (y + 1) = yearStart y + daysInYear y := by
  have := leap_days_step y
  rw [yearStart_eq, yearStart_eq, daysInYear]
  split at this <;> rename_i hl <;> simp only [hl, if_true, if_false, Bool.false_eq_true] <;>
    linarith

theorem daysInYear_pos (y : Int) : 365 ≤ daysInYear y := by
  unfold daysInYear; split <;> norm_num

theorem yearStart_add (y : Int) (n : Nat) : yearStart y + 365 * (n : Int) ≤ yearStart (y + n) := by
  induction n with
  | zero => simp
  | succ n ih =>
    have e : y + ((n + 1 : Nat) : Int) = y + n + 1 := by push_cast; ring
    have := daysInYear_pos (y + n)
    rw [e, yearStart_succ]
    push_cast
    linarith

theorem yearStart_ge (y z : Int) (h : y ≤ z) : yearStart y + 365 * (z - y) ≤ yearStart z := by
  have := yearStart_add y (z - y).toNat
  rw [Int.toNat_of_nonneg (by omega)] at this
  have e : y + (z - y) = z := by ring
  rwa [e] at this

theorem monthStart_bounds (y : Int) (m : Nat) (hm : m < 12) :
    0 ≤ monthStart y m ∧ (m = 11 → 334 ≤ monthStart y m) := by
  have h : ∀ k, k < 12 → ∀ j, j = k → 0 ≤ monthStart y j ∧ (j = 11 → 334 ≤ monthStart y j) := by
    intro k hk
    interval_cases k <;> intro j hj <;> subst hj <;>
      cases hl : isLeapYear y <;> simp [monthStart, daysInMonth, hl]
  exact h m hm m rfl

/-- From the year 1971 on the conversion is at least 333 days behind the epoch, whatever the
two-digit fields are. -/
theorem epoch_lower (y mo d h mi s : Nat) (hy : 1971 ≤ y) :
    28771200 ≤ gregorianEpochSeconds y mo d h mi s := by
  unfold gregorianEpochSeconds
  simp only
  have hM : (((mo : Int) - 1) % 12).toNat < 12 := by omega
  obtain ⟨b0, b11⟩ := monthStart_bounds ((y : Int) + ((mo : Int) - 1) / 12)
    (((mo : Int) - 1) % 12).toNat hM
  have hdays : 333 ≤ yearStart ((y : Int) + ((mo : Int) - 1) / 12)
      + monthStart ((y : Int) + ((mo : Int) - 1) / 12) (((mo : Int) - 1) % 12).toNat
      + ((d : Int) - 1) - yearStart 1970 := by
    by_cases h0 : mo = 0
    · subst h0
      have e1 : ((0 : Nat) : Int) - 1 = -1 := by norm_num
      have e2 : ((-1 : Int) % 12).toNat = 11 := by decide
      have e3 : (-1 : Int) / 12 = -1 := by decide
      rw [e1, e2, e3] at b11 ⊢
      have := b11 rfl
      have hys := yearStart_ge 1970 ((y : Int) + -1) (by omega)
      omega
    · have hq : 0 ≤ ((mo : Int) - 1) / 12 := Int.ediv_nonneg (by omega) (by norm_num)
      have hys := yearStart_ge 1970 ((y : Int) + ((mo : Int) - 1) / 12) (by omega)
      omega
  nlinarith [hdays, Int.natCast_nonneg h, Int.natCast_nonneg mi, Int.natCast_nonneg s]

/-- C15, refuted as stated: texts of the shape with an instant before the epoch parse to a
negative value. -/
theorem C15_negative_before_epoch :
    (regex_match re "1960-01-01T00:00:00".toList).isSome = true ∧
    fixedShape "1960-01-01T00:00:00".toList = true ∧
    parse_iso8601_to_millis "1960-01-01T00:00:00" = some (-315619200000) ∧
    parse_iso8601_to_millis "1969-12-31T23:59:59.999+0000" = some (-1) ∧
    parse_iso8601_to_millis "1970-01-01T00:00:00+0100" = some (-3600000) := by
  decide

/-- C15, amended: on every text that matches the pattern and whose year is 1971 or later the
parse returns a value that is not negative, whatever the other fields and the offset are. -/
theorem C15_nonneg_from_1971 (dt : String) (hm : (regex_match re dt.toList).isSome = true)
    (hy : 1971 ≤ digitsVal (dt.toList.take 4)) :
    ∃ v, parse_iso8601_to_millis dt = some v ∧ 0 ≤ v := by
  obtain ⟨f, rest, off, ms, hf, hs, hp, o0, o1, ms0, ms1⟩ := parse_value dt hm
  have hyear : dt.toList.take 4 = f.year := by
    have e : f.text ++ rest = f.year ++ ('-' :: f.month ++ '-' :: f.day ++ 'T' :: f.hour
        ++ ':' :: f.minute ++ ':' :: f.second ++ rest) := by
      simp [DateTime.text]
    rw [hs, e]
    exact List.take_left' hf.1.1
  rw [hyear] at hy
  have e := timegm_eq_gregorian (digitsVal f.year) (digitsVal f.month) (digitsVal f.day)
    (digitsVal f.hour) (digitsVal f.minute) (digitsVal f.second)
  have e' : timegm f.tm = gregorianEpochSeconds (digitsVal f.year) (digitsVal f.month)
      (digitsVal f.day) (digitsVal f.hour) (digitsVal f.minute) (digitsVal f.second) := e
  have hl := epoch_lower (digitsVal f.year) (digitsVal f.month) (digitsVal f.day)
    (digitsVal f.hour) (digitsVal f.minute) (digitsVal f.second) hy
  refine ⟨_, hp, ?_⟩
  rw [e']
  omega

/-- C15, amended, at `1971-00-00T00:00:00+9999`. -/
theorem C15_nonneg_from_1971_witness :
    (regex_match re "1971-00-00T00:00:00+9999".toList).isSome = true ∧
    1971 ≤ digitsVal ("1971-00-00T00:00:00+9999".toList.take 4) ∧
    ∃ v, parse_iso8601_to_millis "1971-00-00T00:00:00+9999" = some v ∧ 0 ≤ v :=
  ⟨by decide, by decide,
    C15_nonneg_from_1971 "1971-00-00T00:00:00+9999" (by decide) (by decide)⟩

/-! ## Chronological order -/

theorem daysInMonth_pos (y : Int) (m : Nat) : 28 ≤ daysInMonth y m := by
  unfold daysInMonth
  split
  · split <;> norm_num
  · split <;> norm_num

theorem monthStart_mono (y : Int) (a : Nat) : ∀ b, a ≤ b → monthStart y a ≤ monthStart y b := by
  intro b hab
  induction b with
  | zero =>
    have : a = 0 := by omega
    rw [this]
  | succ b ih =>
    rcases Nat.lt_or_ge a (b + 1) with h | h
    · have := ih (by omega)
      have hp := daysInMonth_pos y (b + 1)
      simp only [monthStart]
      omega
    · have : a = b + 1 := by omega
      rw [this]

theorem monthStart_twelve (y : Int) : monthStart y 12 = daysInYear y := by
  cases hl : isLeapYear y <;> simp [monthStart, daysInMonth, daysInYear, hl]

theorem monthStart_zero_le (y : Int) (m : Nat) : 0 ≤ monthStart y m := by
  have := monthStart_mono y 0 m (Nat.zero_le _)
  simpa [monthStart] using this

/-- The day number of a later calendar date is greater. -/
theorem day_lt (y1 mo1 d1 y2 mo2 d2 : Nat) (a1 : 1 ≤ mo1) (a2 : mo1 ≤ 12)
    (a4 : (d1 : Int) ≤ daysInMonth y1 mo1) (b1 : 1 ≤ mo2) (b3 : 1 ≤ d2)
    (h : y1 < y2 ∨ (y1 = y2 ∧ mo1 < mo2) ∨ (y1 = y2 ∧ mo1 = mo2 ∧ d1 < d2)) :
    yearStart y1 + monthStart y1 (mo1 - 1) + ((d1 : Int) - 1)
      < yearStart y2 + monthStart y2 (mo2 - 1) + ((d2 : Int) - 1) := by
  have hstep : monthStart y1 mo1 = monthStart y1 (mo1 - 1) + daysInMonth y1 mo1 := by
    obtain ⟨k, rfl⟩ : ∃ k, mo1 = k + 1 := ⟨mo1 - 1, by omega⟩
    rfl
  rcases h with h | ⟨h1, h2⟩ | ⟨h1, h2, h3⟩
  · have h12 := monthStart_mono y1 mo1 12 a2
    rw [monthStart_twelve] at h12
    have hs := yearStart_succ y1
    have hge := yearStart_ge ((y1 : Int) + 1) y2 (by omega)
    have hz := monthStart_zero_le y2 (mo2 - 1)
    have hpos : (0 : Int) ≤ 365 * ((y2 : Int) - ((y1 : Int) + 1)) := by omega
    omega
  · subst h1
    have hm := monthStart_mono y1 mo1 (mo2 - 1) (by omega)
    omega
  · subst h1 h2
    omega

theorem gregorian_valid (y mo d h mi s : Nat) (a1 : 1 ≤ mo) (a2 : mo ≤ 12) :
    gregorianEpochSeconds y mo d h mi s =
      (((yearStart y + monthStart y (mo - 1) + ((d : Int) - 1) - yearStart 1970) * 24 + h) * 60
        + mi) * 60 + s := by
  have e1 : ((mo : Int) - 1) / 12 = 0 := by omega
  have e2 : (((mo : Int) - 1) % 12).toNat = mo - 1 := by omega
  simp only [gregorianEpochSeconds, e1, e2, add_zero]

theorem fracMillis_bounds (frac : Option (List Char))
    (hfr : ∀ p ∈ frac, ∀ c ∈ p, c.isDigit = true) :
    0 ≤ fracMillis frac ∧ fracMillis frac ≤ 999 := by
  cases frac with
  | none => simp [fracMillis]
  | some p =>
    have hd := padFrac_digits p (hfr p rfl)
    have hlt := digitsVal_lt _ hd.2
    rw [hd.1] at hlt
    simp only [fracMillis]
    split
    · norm_num
    · omega

/-- C17: for two date-times with valid calendar fields, each with an optional fractional group,
followed by the same optional offset: when the tuple (year, month, day, hour, minute, second,
millisecond) of the first is lexicographically smaller than that of the second, the parse of the
first text is smaller than the parse of the second. -/
theorem C17_parse_monotone (f1 f2 : DateTime) (hf1 : f1.WF) (hf2 : f2.WF)
    (frac1 frac2 : Option (List Char))
    (hfr1 : ∀ p ∈ frac1, ∀ c ∈ p, c.isDigit = true)
    (hfr2 : ∀ p ∈ frac2, ∀ c ∈ p, c.isDigit = true)
    (tz : Option Offset) (hz : ∀ z ∈ tz, z.WF)
    (hv1 : validFields f1 = true) (hv2 : validFields f2 = true)
    (hlt : lexLt (f1.fields frac1) (f2.fields frac2) = true) :
    ∃ v1 v2,
      parse_iso8601_to_millis (String.mk (f1.text ++ fracText frac1 ++ offsetText tz)) = some v1 ∧
      parse_iso8601_to_millis (String.mk (f2.text ++ fracText frac2 ++ offsetText tz)) = some v2 ∧
      v1 < v2 := by
  have p1 := parse_shape f1 hf1 frac1 hfr1 tz hz
  have p2 := parse_shape f2 hf2 frac2 hfr2 tz hz
  refine ⟨_, _, p1, p2, ?_⟩
  have e1 : timegm f1.tm = gregorianEpochSeconds (digitsVal f1.year) (digitsVal f1.month)
      (digitsVal f1.day) (digitsVal f1.hour) (digitsVal f1.minute) (digitsVal f1.second) :=
    timegm_eq_gregorian (digitsVal f1.year) (digitsVal f1.month) (digitsVal f1.day)
      (digitsVal f1.hour) (digitsVal f1.minute) (digitsVal f1.second)
  have e2 : timegm f2.tm = gregorianEpochSeconds (digitsVal f2.year) (digitsVal f2.month)
      (digitsVal f2.day) (digitsVal f2.hour) (digitsVal f2.minute) (digitsVal f2.second) :=
    timegm_eq_gregorian (digitsVal f2.year) (digitsVal f2.month) (digitsVal f2.day)
      (digitsVal f2.hour) (digitsVal f2.minute) (digitsVal f2.second)
  simp only [validFields, Bool.and_eq_true, decide_eq_true_eq] at hv1 hv2
  obtain ⟨⟨⟨⟨⟨⟨a1, a2⟩, a3⟩, a4⟩, a5⟩, a6⟩, a7⟩ := hv1
  obtain ⟨⟨⟨⟨⟨⟨b1, b2⟩, b3⟩, b4⟩, b5⟩, b6⟩, b7⟩ := hv2
  obtain ⟨m10, m11⟩ := fracMillis_bounds frac1 hfr1
  obtain ⟨m20, m21⟩ := fracMillis_bounds frac2 hfr2
  rw [e1, e2, gregorian_valid _ _ _ _ _ _ a1 a2, gregorian_valid _ _ _ _ _ _ b1 b2]
  simp only [lexLt, DateTime.fields, Bool.or_eq_true, Bool.and_eq_true, decide_eq_true_eq,
    Nat.cast_lt, Nat.cast_inj, Bool.or_false, Bool.and_false, Bool.false_eq_true, or_false,
    and_false] at hlt
  generalize (tz.map Offset.tz_offset_sec).getD 0 = off
  have hday : ∀ h : digitsVal f1.year < digitsVal f2.year ∨
      (digitsVal f1.year = digitsVal f2.year ∧ digitsVal f1.month < digitsVal f2.month) ∨
      (digitsVal f1.year = digitsVal f2.year ∧ digitsVal f1.month = digitsVal f2.month ∧
        digitsVal f1.day < digitsVal f2.day),
      yearStart (digitsVal f1.year) + monthStart (digitsVal f1.year) (digitsVal f1.month - 1)
          + ((digitsVal f1.day : Int) - 1)
        < yearStart (digitsVal f2.year) + monthStart (digitsVal f2.year) (digitsVal f2.month - 1)
          + ((digitsVal f2.day : Int) - 1) :=
    fun h => day_lt _ _ _ _ _ _ a1 a2 a4 b1 b3 h
  rcases hlt with h | ⟨hy, h | ⟨hmo, h | ⟨hd, hrest⟩⟩⟩
  · have := hday (Or.inl h)
    omega
  · have := hday (Or.inr (Or.inl ⟨hy, h⟩))
    omega
  · have := hday (Or.inr (Or.inr ⟨hy, hmo, h⟩))
    omega
  · rw [hy, hmo, hd]
    generalize yearStart (digitsVal f2.year) + monthStart (digitsVal f2.year)
      (digitsVal f2.month - 1) + ((digitsVal f2.day : Int) - 1) - yearStart 1970 = days
    omega

/-- C17 at `2025-02-28T23:59:59.999-0700` and `2025-03-01T00:00:00-0700`. -/
theorem C17_parse_monotone_witness :
    ∃ v1 v2,
      parse_iso8601_to_millis (String.mk ((DateTime.mk "2025".toList "02".toList "28".toList
        "23".toList "59".toList "59".toList).text ++ fracText (some "999".toList)
          ++ offsetText (some ⟨true, "07".toList, "00".toList⟩))) = some v1 ∧
      parse_iso8601_to_millis (String.mk ((DateTime.mk "2025".toList "03".toList "01".toList
        "00".toList "00".toList "00".toList).text ++ fracText none
          ++ offsetText (some ⟨true, "07".toList, "00".toList⟩))) = some v2 ∧
      v1 < v2 :=
  C17_parse_monotone
    ⟨"2025".toList, "02".toList, "28".toList, "23".toList, "59".toList, "59".toList⟩
    ⟨"2025".toList, "03".toList, "01".toList, "00".toList, "00".toList, "00".toList⟩
    (by refine ⟨?_, ?_, ?_, ?_, ?_, ?_⟩ <;> constructor <;> decide)
    (by refine ⟨?_, ?_, ?_, ?_, ?_, ?_⟩ <;> constructor <;> decide)
    (some "999".toList) none
    (by intro p hp; simp at hp; subst hp; decide)
    (by intro p hp; simp at hp)
    (some ⟨true, "07".toList, "00".toList⟩)
    (by intro z hz; simp at hz; subst hz; constructor <;> constructor <;> decide)
    (by decide) (by decide) (by decide)

end Imgsort
